import Mathlib

/-!
# license-audit: a verification development

A shallow embedding of the audit classifier (`internal/audit`), the ignore
matcher (`internal/ignore`), the default configuration (`internal/config`),
the scan orchestrator (`internal/scanner`), the six parsers
(`internal/scanner/golang`, `nodejs`, `python`, `java`, `ruby`, `docker`) and
the record types (`pkg/types`) of the license-audit tool, followed by theorems
about them.

Go strings are embedded as Lean `String`s, that is as sequences of Unicode
code points; the functions of Go's standard library the program calls are
modelled in the namespaces `strings`, `filepath` and `regexp` at that
granularity, the regular expressions each as a matcher for the one expression
the program compiles. What the program reads from its surroundings (files,
directory trees, decoded JSON and XML documents, the `go` command, the clock,
the order in which a `range` loop visits a map when the result depends on it)
is an explicit argument of the functions that read it.
-/

namespace LicenseAudit

/-! ## Go standard library: package `strings` -/

namespace strings

/-- Rune-level upper-casing used by `ToUpper`: the letters `a`..`z` go to
`A`..`Z`. Runes outside ASCII are left as they are (the Unicode case tables are
not part of the embedding). -/
def upperRune (c : Char) : Char :=
  if 97 ≤ c.toNat ∧ c.toNat ≤ 122 then Char.ofNat (c.toNat - 32) else c

/-- Rune-level lower-casing used by `ToLower`: the letters `A`..`Z` go to
`a`..`z`. Runes outside ASCII are left as they are. -/
def lowerRune (c : Char) : Char :=
  if 65 ≤ c.toNat ∧ c.toNat ≤ 90 then Char.ofNat (c.toNat + 32) else c

/-- The model of `strings.ToUpper`. -/
def ToUpper (s : String) : String := ⟨s.data.map upperRune⟩

/-- The model of `strings.ToLower`. -/
def ToLower (s : String) : String := ⟨s.data.map lowerRune⟩

/-- Whether `sub` occurs in `l` as a block of consecutive elements. -/
def containsList : List Char → List Char → Bool
  | [], sub => sub.isEmpty
  | c :: cs, sub => sub.isPrefixOf (c :: cs) || containsList cs sub

/-- The model of `strings.Contains`. -/
def Contains (s substr : String) : Bool := containsList s.data substr.data

/-- The model of `strings.HasPrefix`. -/
def HasPrefix (s pre : String) : Bool := pre.data.isPrefixOf s.data

/-- The model of `strings.HasSuffix`. -/
def HasSuffix (s suf : String) : Bool := suf.data.reverse.isPrefixOf s.data.reverse

/-- The predicate `unicode.IsSpace`: the white-space runes of Latin-1 and the
runes with the Unicode property White_Space beyond it. -/
def isSpace (c : Char) : Bool :=
  let n := c.toNat
  n == 9 || n == 10 || n == 11 || n == 12 || n == 13 || n == 32 || n == 0x85 || n == 0xA0 ||
  n == 0x1680 || (decide (0x2000 ≤ n) && decide (n ≤ 0x200A)) || n == 0x2028 || n == 0x2029 ||
  n == 0x202F || n == 0x205F || n == 0x3000

/-- The model of `strings.TrimSpace`: white space is cut from both ends. -/
def TrimSpace (s : String) : String :=
  ⟨((s.data.dropWhile isSpace).reverse.dropWhile isSpace).reverse⟩

/-- The model of `strings.TrimSuffix`. -/
def TrimSuffix (s suf : String) : String :=
  if HasSuffix s suf then ⟨s.data.take (s.data.length - suf.data.length)⟩ else s

end strings

/-! ## Go standard library: package `path/filepath` (Unix) -/

namespace filepath

/-- The result of `matchChunk`: `bad` is `ErrBadPattern`, `fail` is
`ok = false` without error, `ok rest` is a match leaving `rest` of the name. -/
inductive ChunkResult where
  | bad : ChunkResult
  | fail : ChunkResult
  | ok : List Char → ChunkResult
  deriving DecidableEq, Repr

/-- The scanning loop of `scanChunk`: splits the pattern (after its leading
stars) at the first `*` that is outside a bracket expression; a backslash
takes the next character with it. -/
def scanChunkSplit : List Char → Bool → List Char × List Char
  | [], _ => ([], [])
  | c :: cs, inrange =>
    if c = '\\' then
      match cs with
      | [] => ([c], [])
      | c2 :: cs2 =>
        let r := scanChunkSplit cs2 inrange
        (c :: c2 :: r.1, r.2)
    else if c = '[' then
      let r := scanChunkSplit cs true
      (c :: r.1, r.2)
    else if c = ']' then
      let r := scanChunkSplit cs false
      (c :: r.1, r.2)
    else if c = '*' then
      if inrange then
        let r := scanChunkSplit cs inrange
        (c :: r.1, r.2)
      else ([], c :: cs)
    else
      let r := scanChunkSplit cs inrange
      (c :: r.1, r.2)

/-- The function `scanChunk`: `(star, chunk, rest)`. -/
def scanChunk (pattern : List Char) : Bool × List Char × List Char :=
  let star := pattern.head? == some '*'
  let pattern := pattern.dropWhile (fun c => c == '*')
  let r := scanChunkSplit pattern false
  (star, r.1, r.2)

/-- The function `getEsc`: the next rune of a bracket expression and the rest
of the chunk; `none` is `ErrBadPattern`. -/
def getEsc (chunk : List Char) : Option (Char × List Char) :=
  match chunk with
  | [] => none
  | c :: rest =>
    if c = '-' ∨ c = ']' then none
    else
      let chunk := if c = '\\' then rest else c :: rest
      match chunk with
      | [] => none
      | r :: nchunk => if nchunk.isEmpty then none else some (r, nchunk)

/-- The range loop of a bracket expression in `matchChunk`: returns whether
the rune `r` is in one of the ranges, and the chunk after the closing `]`;
`none` is `ErrBadPattern`. Every round consumes a character of the chunk. -/
def matchClass : Nat → List Char → Char → Bool → Nat → Option (Bool × List Char)
  | 0, _, _, _, _ => none
  | fuel + 1, chunk, r, matched, nrange =>
    if chunk.head? = some ']' ∧ 0 < nrange then some (matched, chunk.tail)
    else
      match getEsc chunk with
      | none => none
      | some (lo, chunk1) =>
        if chunk1.head? = some '-' then
          match getEsc chunk1.tail with
          | none => none
          | some (hi, chunk2) =>
            matchClass fuel chunk2 r
              (matched || (decide (lo.toNat ≤ r.toNat) && decide (r.toNat ≤ hi.toNat)))
              (nrange + 1)
        else
          matchClass fuel chunk1 r
            (matched || (decide (lo.toNat ≤ r.toNat) && decide (r.toNat ≤ lo.toNat)))
            (nrange + 1)

/-- The loop of `matchChunk` with an explicit `failed` flag; every round
consumes a character of the chunk, so `chunk.length + 1` rounds are enough. -/
def matchChunkLoop : Nat → List Char → List Char → Bool → ChunkResult
  | 0, _, _, _ => ChunkResult.bad
  | fuel + 1, chunk, s, failed =>
    match chunk with
    | [] => if failed then ChunkResult.fail else ChunkResult.ok s
    | c :: rest =>
      let failed := failed || s.isEmpty
      if c = '[' then
        let r := if failed then Char.ofNat 0 else s.headD (Char.ofNat 0)
        let s := if failed then s else s.tail
        let negated := rest.head? == some '^'
        let chunk := if negated then rest.tail else rest
        match matchClass fuel chunk r false 0 with
        | none => ChunkResult.bad
        | some (m, chunk) => matchChunkLoop fuel chunk s (failed || (m == negated))
      else if c = '?' then
        if failed then matchChunkLoop fuel rest s failed
        else matchChunkLoop fuel rest s.tail (s.head? == some '/')
      else if c = '\\' then
        match rest with
        | [] => ChunkResult.bad
        | c2 :: rest2 =>
          if failed then matchChunkLoop fuel rest2 s failed
          else matchChunkLoop fuel rest2 s.tail (s.head? != some c2)
      else
        if failed then matchChunkLoop fuel rest s failed
        else matchChunkLoop fuel rest s.tail (s.head? != some c)

/-- The function `matchChunk`. -/
def matchChunk (chunk s : List Char) : ChunkResult :=
  matchChunkLoop (chunk.length + 1) chunk s false

/-- The result of the inner loop of `Match` that lets a leading star swallow
characters of the name. -/
inductive StarResult where
  | bad : StarResult
  | none : StarResult
  | found : List Char → StarResult
  deriving DecidableEq, Repr

/-- The inner loop of `Match` after a star: tries the chunk after skipping one
more character of the name each time, never skipping a `/`. -/
def starLoop (chunk : List Char) (lastChunk : Bool) : List Char → StarResult
  | [] => StarResult.none
  | c :: rest =>
    if c = '/' then StarResult.none
    else
      match matchChunk chunk rest with
      | ChunkResult.ok t =>
        if lastChunk && !t.isEmpty then starLoop chunk lastChunk rest
        else StarResult.found t
      | ChunkResult.bad => StarResult.bad
      | ChunkResult.fail => starLoop chunk lastChunk rest

/-- The outer loop of `Match`; `none` is `ErrBadPattern`. Every round consumes
a character of the pattern. -/
def matchLoop : Nat → List Char → List Char → Option Bool
  | 0, _, _ => none
  | fuel + 1, pattern, name =>
    if pattern.isEmpty then some name.isEmpty
    else
      let sc := scanChunk pattern
      let star := sc.1
      let chunk := sc.2.1
      let pattern := sc.2.2
      if star && chunk.isEmpty then some (!name.contains '/')
      else
        let viaStar : Option Bool :=
          if star then
            match starLoop chunk pattern.isEmpty name with
            | StarResult.found t => matchLoop fuel pattern t
            | StarResult.bad => none
            | StarResult.none => some false
          else some false
        match matchChunk chunk name with
        | ChunkResult.ok t =>
          if t.isEmpty || !pattern.isEmpty then matchLoop fuel pattern t else viaStar
        | ChunkResult.bad => none
        | ChunkResult.fail => viaStar

/-- The model of `filepath.Match`: `some matched`, or `none` for
`ErrBadPattern`. -/
def Match (pattern name : String) : Option Bool :=
  matchLoop (pattern.data.length + 1) pattern.data name.data

end filepath

/-! ## Go maps with integer values -/

namespace gomap

/-- A Go `map[string]int` used as a counter: an association list with distinct
keys, each key at the place of its first insertion. Go's `int` is a natural
number here: the counters count elements of a slice and are far from the
64-bit bound. -/
abbrev Counts := List (String × Nat)

/-- The statement `m[k]++`. -/
def incr : Counts → String → Counts
  | [], k => [(k, 1)]
  | (k', n) :: rest, k => if k' = k then (k', n + 1) :: rest else (k', n) :: incr rest k

/-- The expression `m[k]`: zero for a key that is absent. -/
def get (m : Counts) (k : String) : Nat := (m.lookup k).getD 0

end gomap

/-! ## Package `types` -/

namespace types

/-- The record `types.Dependency`. -/
structure Dependency where
  Name : String
  Version : String
  LicenseType : String
  LicenseText : String
  Repository : String
  Homepage : String
  LicenseURL : String
  PackageType : String
  FilePath : String
  deriving DecidableEq, Repr

/-- The record `types.AuditIssue`; the Go field `Type` is `Type_` here. -/
structure AuditIssue where
  Severity : String
  Type_ : String
  Message : String
  Dependency : Dependency
  Suggestion : String
  deriving DecidableEq, Repr

/-- The record `types.Summary`; the three Go maps are counters. -/
structure Summary where
  TotalDependencies : Nat
  LicenseBreakdown : gomap.Counts
  PackageBreakdown : gomap.Counts
  IssueBreakdown : gomap.Counts
  deriving DecidableEq, Repr

/-- The record `types.ScanResult`; the time stamp is a number. -/
structure ScanResult where
  Timestamp : Nat
  ScanPath : String
  Dependencies : List Dependency
  Issues : List AuditIssue
  Summary : Summary
  deriving DecidableEq, Repr

/-- The record `types.ScannerConfig`. -/
structure ScannerConfig where
  NodeJS : Bool
  Go : Bool
  Docker : Bool
  Python : Bool
  Ruby : Bool
  Java : Bool
  deriving DecidableEq, Repr

/-- The record `types.Config`; the Go map `LicenseOverrides` is an association
list from package name to license. -/
structure Config where
  ScanPaths : List String
  OutputFormat : String
  OutputFile : String
  IgnoreFile : String
  ConfigPaths : List String
  LicenseOverrides : List (String × String)
  DangerousLicenses : List String
  UnclearLicenses : List String
  EnableAudit : Bool
  Scanners : ScannerConfig
  deriving DecidableEq, Repr

end types

/-! ## Package `config` -/

namespace config

open types

/-- The function `getDefaultConfig` of `internal/config/config.go`. -/
def getDefaultConfig : Config :=
  { ScanPaths := ["."]
    OutputFormat := "json"
    OutputFile := ""
    IgnoreFile := ".licignore"
    ConfigPaths := []
    LicenseOverrides := []
    DangerousLicenses :=
      ["GPL-2.0", "GPL-3.0", "AGPL-3.0", "LGPL-2.1", "LGPL-3.0", "CDDL-1.0",
       "CDDL-1.1", "CPL-1.0", "EPL-1.0", "EPL-2.0", "OSL-3.0", "QPL-1.0"]
    UnclearLicenses := ["UNKNOWN", "UNLICENSED", "PROPRIETARY", "COMMERCIAL", ""]
    EnableAudit := true
    Scanners :=
      { NodeJS := true, Go := true, Docker := true, Python := true, Ruby := true,
        Java := true } }

end config

/-! ## Package `audit` -/

namespace audit

open types strings

/-- The method `Auditor.isDangerousLicense`. -/
def isDangerousLicense (cfg : Config) (licenseType : String) : Bool :=
  if licenseType == "" || licenseType == "UNKNOWN" then false
  else
    let licenseType := ToUpper licenseType
    cfg.DangerousLicenses.any (fun dangerous => ToUpper dangerous == licenseType)

/-- The method `Auditor.isUnclearLicense`. -/
def isUnclearLicense (cfg : Config) (licenseType : String) : Bool :=
  let licenseType := ToUpper licenseType
  cfg.UnclearLicenses.any (fun unclear => ToUpper unclear == licenseType)

/-- The method `Auditor.isPotentiallyTaintedLicense`. -/
def isPotentiallyTaintedLicense (dep : Dependency) : Bool :=
  let licenseText := ToLower dep.LicenseText
  let licenseType := ToLower dep.LicenseType
  if Contains licenseText "dual license" ||
      Contains licenseText "multiple license" ||
      (Contains licenseType "gpl" && Contains licenseText "commercial") then true
  else if Contains licenseText "modified" ||
      Contains licenseText "custom" ||
      Contains licenseText "proprietary" then true
  else false

/-- The method `Auditor.getDangerousLicenseMessage`: a lookup in a fixed map
with a generic fallback. -/
def getDangerousLicenseMessage (licenseType : String) : String :=
  let messages : List (String × String) :=
    [("GPL-2.0", "GPL-2.0 is a copyleft license that may require releasing your source code under the same license"),
     ("GPL-3.0", "GPL-3.0 is a copyleft license that may require releasing your source code under the same license"),
     ("AGPL-3.0", "AGPL-3.0 has strong copyleft requirements including network use provisions"),
     ("LGPL-2.1", "LGPL-2.1 may require releasing modifications to the library under the same license"),
     ("LGPL-3.0", "LGPL-3.0 may require releasing modifications to the library under the same license"),
     ("CDDL-1.0", "CDDL-1.0 has copyleft requirements that may conflict with proprietary code"),
     ("CDDL-1.1", "CDDL-1.1 has copyleft requirements that may conflict with proprietary code"),
     ("EPL-1.0", "EPL-1.0 has copyleft requirements for modifications and derivative works"),
     ("EPL-2.0", "EPL-2.0 has copyleft requirements for modifications and derivative works"),
     ("CPL-1.0", "CPL-1.0 has copyleft requirements that may affect your code"),
     ("OSL-3.0", "OSL-3.0 has strong copyleft requirements including network distribution"),
     ("QPL-1.0", "QPL-1.0 has specific requirements for commercial use")]
  match messages.lookup licenseType with
  | some message => message
  | none => "This license may have restrictions that could affect your project"

/-- The method `Auditor.getDangerousLicenseSuggestion`. -/
def getDangerousLicenseSuggestion (licenseType : String) : String :=
  let suggestions : List (String × String) :=
    [("GPL-2.0", "Consider using MIT, Apache-2.0, or BSD licensed alternatives"),
     ("GPL-3.0", "Consider using MIT, Apache-2.0, or BSD licensed alternatives"),
     ("AGPL-3.0", "Consider using MIT, Apache-2.0, or BSD licensed alternatives"),
     ("LGPL-2.1", "Ensure you comply with LGPL requirements or find MIT/Apache alternatives"),
     ("LGPL-3.0", "Ensure you comply with LGPL requirements or find MIT/Apache alternatives"),
     ("CDDL-1.0", "Consider using Apache-2.0 or MIT licensed alternatives"),
     ("CDDL-1.1", "Consider using Apache-2.0 or MIT licensed alternatives"),
     ("EPL-1.0", "Consider using Apache-2.0 or MIT licensed alternatives"),
     ("EPL-2.0", "Consider using Apache-2.0 or MIT licensed alternatives"),
     ("CPL-1.0", "Consider using Apache-2.0 or MIT licensed alternatives"),
     ("OSL-3.0", "Consider using Apache-2.0 or MIT licensed alternatives"),
     ("QPL-1.0", "Review commercial use requirements or find alternatives")]
  match suggestions.lookup licenseType with
  | some suggestion => suggestion
  | none => "Review the license terms carefully and consult with legal counsel if necessary"

/-- The method `Auditor.getUnclearLicenseMessage`. -/
def getUnclearLicenseMessage (licenseType : String) : String :=
  let messages : List (String × String) :=
    [("UNKNOWN", "No license information could be determined for this dependency"),
     ("UNLICENSED", "This dependency is explicitly marked as unlicensed"),
     ("PROPRIETARY", "This dependency uses a proprietary license"),
     ("COMMERCIAL", "This dependency requires a commercial license"),
     ("", "No license information found")]
  match messages.lookup licenseType with
  | some message => message
  | none => "License information is unclear or ambiguous"

/-- The issue appended by the dangerous-license check of `Audit`. -/
def dangerousIssue (dep : Dependency) : AuditIssue :=
  { Severity := "error"
    Type_ := "dangerous_license"
    Message := getDangerousLicenseMessage dep.LicenseType
    Dependency := dep
    Suggestion := getDangerousLicenseSuggestion dep.LicenseType }

/-- The issue appended by the unclear-license check of `Audit`. -/
def unclearIssue (dep : Dependency) : AuditIssue :=
  { Severity := "warning"
    Type_ := "unclear_license"
    Message := getUnclearLicenseMessage dep.LicenseType
    Dependency := dep
    Suggestion := "Review the dependency's repository or documentation to determine the correct license" }

/-- The issue appended by the tainted-license check of `Audit`. -/
def taintedIssue (dep : Dependency) : AuditIssue :=
  { Severity := "warning"
    Type_ := "tainted_license"
    Message := "Dependency may have tainted or conflicting license terms"
    Dependency := dep
    Suggestion := "Carefully review the license terms and consult with legal counsel if necessary" }

/-- The issue appended by the missing-license check of `Audit`. -/
def missingIssue (dep : Dependency) : AuditIssue :=
  { Severity := "warning"
    Type_ := "missing_license"
    Message := "No license information found for this dependency"
    Dependency := dep
    Suggestion := "Check the dependency's repository, package registry, or documentation for license information" }

/-- One iteration of the loop of `Auditor.Audit`: the four checks in source
order, each appending to the issues collected so far. -/
def auditStep (cfg : Config) (issues : List AuditIssue) (dep : Dependency) :
    List AuditIssue :=
  let issues :=
    if isDangerousLicense cfg dep.LicenseType then issues ++ [dangerousIssue dep] else issues
  let issues :=
    if isUnclearLicense cfg dep.LicenseType then issues ++ [unclearIssue dep] else issues
  let issues :=
    if isPotentiallyTaintedLicense dep then issues ++ [taintedIssue dep] else issues
  let issues :=
    if dep.LicenseType == "UNKNOWN" && dep.LicenseText == "" then issues ++ [missingIssue dep]
    else issues
  issues

/-- The method `Auditor.Audit`: the loop over the dependencies, starting from
the empty issue list. -/
def Audit (cfg : Config) (dependencies : List Dependency) : List AuditIssue :=
  dependencies.foldl (auditStep cfg) []

/-- The method `Auditor.GetIssueBreakdown`: three increments per issue, on the
composite key, the severity and the type. -/
def GetIssueBreakdown (issues : List AuditIssue) : gomap.Counts :=
  issues.foldl
    (fun breakdown issue =>
      let key := issue.Severity ++ "_" ++ issue.Type_
      let breakdown := gomap.incr breakdown key
      let breakdown := gomap.incr breakdown issue.Severity
      gomap.incr breakdown issue.Type_) []

end audit

/-! ## Package `ignore` -/

namespace ignore

open strings

set_option linter.dupNamespace false in
/-- The record `ignore.pattern`. -/
structure pattern where
  pattern : String
  negate : Bool
  isDir : Bool
  deriving DecidableEq, Repr

/-- The record `ignore.Matcher`. -/
structure Matcher where
  patterns : List pattern
  deriving DecidableEq, Repr

/-- What the file system answers when `NewMatcher` looks for the ignore file:
`os.Stat` reports that it does not exist; or `os.Open` fails; or the file is
read, in which case `lines` are the tokens `bufio.Scanner` yields (the lines of
the file without their line ends) and `scanErr` tells whether `scanner.Err()`
is non-nil afterwards. -/
inductive FileState where
  | notExist : FileState
  | openError : FileState
  | lines : List String → Bool → FileState
  deriving DecidableEq, Repr

/-- The body of the scanning loop of `NewMatcher` for one line: `none` when
the line is skipped, otherwise the pattern appended to the matcher. -/
def parseLine (text : String) : Option pattern :=
  let line := TrimSpace text
  if line == "" || HasPrefix line "#" then none
  else
    let p : pattern := { pattern := line, negate := false, isDir := false }
    let p : pattern :=
      if HasPrefix line "!" then { p with negate := true, pattern := ⟨line.data.drop 1⟩ } else p
    let p : pattern :=
      if HasSuffix p.pattern "/" then
        { p with isDir := true, pattern := TrimSuffix p.pattern "/" }
      else p
    some p

/-- The function `NewMatcher`. The result is the pair Go returns: the matcher
(`none` for `nil`) and whether the error is non-nil. -/
def NewMatcher (fs : String → FileState) (ignoreFile : String) : Option Matcher × Bool :=
  let ignoreFile := if ignoreFile == "" then ".licignore" else ignoreFile
  match fs ignoreFile with
  | FileState.notExist => (some { patterns := [] }, false)
  | FileState.openError => (none, true)
  | FileState.lines ls scanErr =>
    let patterns := ls.foldl
      (fun (patterns : List pattern) text =>
        match parseLine text with
        | none => patterns
        | some p => patterns ++ [p]) []
    (some { patterns := patterns }, scanErr)

/-- The method `Matcher.matchPattern`. The argument `statIsDir path name` is
the answer of the file system to `os.Stat(filepath.Join(path, name))`: true
when the call succeeds and reports a directory. Errors of `filepath.Match` are
dropped as in the source, leaving `matched = false`. -/
def matchPattern (statIsDir : String → String → Bool) (p : pattern) (path name : String) :
    Bool :=
  let target := if Contains p.pattern "/" then path else name
  let matched := (filepath.Match p.pattern target).getD false
  if matched then true
  else if p.isDir && statIsDir path name then (filepath.Match p.pattern name).getD false
  else if Contains p.pattern "*" then (filepath.Match p.pattern target).getD false
  else p.pattern == target

/-- The method `Matcher.ShouldIgnore`: the loop over the patterns updating the
flag `matched`. -/
def ShouldIgnore (statIsDir : String → String → Bool) (m : Matcher) (path name : String) :
    Bool :=
  m.patterns.foldl
    (fun matched p =>
      if matchPattern statIsDir p path name then
        (if p.negate then false else true)
      else matched) false

end ignore

/-! ## Go standard library: paths -/

namespace strings

/-- The pieces of a string between the occurrences of the character `sep`, as
`strings.Split` with a one-character separator cuts them. -/
def splitOnChar (sep : Char) : List Char → List (List Char)
  | [] => [[]]
  | c :: cs =>
    if c = sep then [] :: splitOnChar sep cs
    else
      match splitOnChar sep cs with
      | [] => [[c]]
      | piece :: pieces => (c :: piece) :: pieces

end strings

namespace filepath

/-- The element loop of `Clean` on the elements of the path between slashes,
with the stack of elements written so far (last element first): empty elements
and `.` are dropped; `..` removes the element before it when there is one that
is not itself `..`, is dropped at the root, and is kept otherwise. -/
def cleanElems (rooted : Bool) : List (List Char) → List (List Char) → List (List Char)
  | [], out => out
  | e :: es, out =>
    if e = [] ∨ e = ['.'] then cleanElems rooted es out
    else if e = ['.', '.'] then
      match out with
      | top :: below =>
        if top = ['.', '.'] then cleanElems rooted es (e :: out)
        else cleanElems rooted es below
      | [] => if rooted then cleanElems rooted es [] else cleanElems rooted es [e]
    else cleanElems rooted es (e :: out)

/-- The model of `filepath.Clean` (Unix): the shortest equivalent path. -/
def Clean (path : String) : String :=
  if path.data.isEmpty then "."
  else
    let rooted := path.data.head? == some '/'
    let out := (cleanElems rooted (strings.splitOnChar '/' path.data) []).reverse
    let body := List.intercalate ['/'] out
    if rooted then ⟨'/' :: body⟩
    else if body.isEmpty then "." else ⟨body⟩

/-- The model of `filepath.Join`: the elements from the first non-empty one
on, joined with slashes and cleaned; the empty string when all are empty. -/
def Join (elem : List String) : String :=
  match elem.dropWhile (fun e => e.data.isEmpty) with
  | [] => ""
  | rest => Clean ⟨List.intercalate ['/'] (rest.map String.data)⟩

/-- The characters of a path up to and including its last slash. -/
def upToLastSlash : List Char → List Char
  | [] => []
  | c :: cs =>
    match upToLastSlash cs with
    | [] => if c = '/' then [c] else []
    | r => c :: r

/-- The model of `filepath.Dir` (Unix): everything up to the last slash,
cleaned. -/
def Dir (path : String) : String := Clean ⟨upToLastSlash path.data⟩

/-- The model of `filepath.Base` (Unix): the last element of the path, after
trailing slashes are removed; `.` for the empty path and `/` for a path of
slashes only. -/
def Base (path : String) : String :=
  if path.data.isEmpty then "."
  else
    let stripped := (path.data.reverse.dropWhile (fun c => c == '/')).reverse
    let last := (stripped.reverse.takeWhile (fun c => c != '/')).reverse
    if last.isEmpty then "/" else ⟨last⟩

end filepath

/-! ## Package `scanner` -/

namespace scanner

open types

/-- The interface `PackageScanner`. `Scan path` is what the parser returns for
the file at `path` in the file system of the run: the error text, or the
dependencies. -/
structure PackageScanner where
  Name : String
  Detect : String → Bool
  Scan : String → Except String (List Dependency)

/-- The six parsers `New` can register, in the order of registration. -/
structure Parsers where
  nodejs : PackageScanner
  golang : PackageScanner
  docker : PackageScanner
  python : PackageScanner
  ruby : PackageScanner
  java : PackageScanner

/-- The record `scanner.Scanner`; `matcher` is `none` for a nil pointer. -/
structure Scanner where
  config : Config
  matcher : Option ignore.Matcher
  scanners : List PackageScanner

/-- The function `New`: the matcher is read from the configured ignore file,
with a second attempt on the default file when the first returns an error, and
the parsers are registered according to the configuration flags. -/
def New (fs : String → ignore.FileState) (parsers : Parsers) (config : Config) : Scanner :=
  let first := ignore.NewMatcher fs config.IgnoreFile
  let matcher := if first.2 then (ignore.NewMatcher fs "").1 else first.1
  let scanners : List PackageScanner := []
  let scanners := if config.Scanners.NodeJS then scanners ++ [parsers.nodejs] else scanners
  let scanners := if config.Scanners.Go then scanners ++ [parsers.golang] else scanners
  let scanners := if config.Scanners.Docker then scanners ++ [parsers.docker] else scanners
  let scanners := if config.Scanners.Python then scanners ++ [parsers.python] else scanners
  let scanners := if config.Scanners.Ruby then scanners ++ [parsers.ruby] else scanners
  let scanners := if config.Scanners.Java then scanners ++ [parsers.java] else scanners
  { config := config, matcher := matcher, scanners := scanners }

/-- A directory tree as `filepath.WalkDir` sees it: a file (anything that is
not a directory) with its name, or a directory with its name, whether
`os.ReadDir` fails on it, and the entries `os.ReadDir` returns, in its order. -/
inductive Entry where
  | file : String → Entry
  | dir : String → Bool → List Entry → Entry

/-- The method `DirEntry.Name`. -/
def Entry.name : Entry → String
  | Entry.file n => n
  | Entry.dir n _ _ => n

/-- The method `DirEntry.IsDir`. -/
def Entry.isDir : Entry → Bool
  | Entry.file _ => false
  | Entry.dir _ _ _ => true

/-- A non-nil error returned by the walk callback, or a run-time panic. -/
inductive Signal where
  | skipDir : Signal
  | failed : Signal
  | panic : Signal
  deriving DecidableEq, Repr

/-- The file system and clock of one run: `lstat root` is the tree below a
scan root (`none` when `os.Lstat` fails), `statIsDir` answers the `os.Stat`
calls of the ignore matcher, `now` is `time.Now()`. -/
structure Env where
  lstat : String → Option Entry
  statIsDir : String → String → Bool
  now : Nat

/-- The loop over the registered parsers in the walk callback of `scanPath`:
a parser that accepts the path is run; on an error the loop goes on with the
next parser, on success the records are appended with `FilePath` set to the
visited path. -/
def scanFile (scanners : List PackageScanner) (path : String) (deps : List Dependency) :
    List Dependency :=
  scanners.foldl
    (fun deps scanner =>
      if scanner.Detect path then
        match scanner.Scan path with
        | Except.error _ => deps
        | Except.ok found => deps ++ found.map (fun d => { d with FilePath := path })
      else deps) deps

/-- The walk callback of `scanPath`. `relPath` is the value of
`filepath.Rel(scanPath, path)`, `name` and `isDir` are those of the entry,
`err` tells whether the walk passes an error. The result is the error the
callback returns, or the scan result after the call. A nil matcher makes the
call of `ShouldIgnore` panic. -/
def visit (s : Scanner) (env : Env) (path relPath name : String) (isDir err : Bool)
    (result : ScanResult) : Except Signal ScanResult :=
  if err then Except.error Signal.failed
  else
    match s.matcher with
    | none => Except.error Signal.panic
    | some m =>
      if ignore.ShouldIgnore env.statIsDir m (filepath.Dir relPath) name then
        if isDir then Except.error Signal.skipDir else Except.ok result
      else if isDir then Except.ok result
      else
        Except.ok { result with Dependencies := scanFile s.scanners path result.Dependencies }

mutual
/-- The function `walkDir` of `path/filepath` with the callback of `scanPath`:
the entry is visited; a directory that is not skipped is read, a read error is
reported to the callback, and the entries are walked in order. `relPath` is
carried along as the path relative to the scan root. -/
def walkDir (s : Scanner) (env : Env) (path relPath : String) :
    Entry → ScanResult → Except Signal ScanResult
  | Entry.file name, result => visit s env path relPath name false false result
  | Entry.dir name readErr entries, result =>
    match visit s env path relPath name true false result with
    | Except.error Signal.skipDir => Except.ok result
    | Except.error e => Except.error e
    | Except.ok result1 =>
      if readErr then
        match visit s env path relPath name true true result1 with
        | Except.error Signal.skipDir => Except.ok result1
        | Except.error e => Except.error e
        | Except.ok result2 => walkEntries s env path relPath entries result2
      else walkEntries s env path relPath entries result1
/-- The loop of `walkDir` over the entries of a directory: `SkipDir` from an
entry ends the loop without error, any other error ends the walk. -/
def walkEntries (s : Scanner) (env : Env) (path relPath : String) :
    List Entry → ScanResult → Except Signal ScanResult
  | [], result => Except.ok result
  | e :: rest, result =>
    match walkDir s env (filepath.Join [path, e.name]) (filepath.Join [relPath, e.name]) e
        result with
    | Except.error Signal.skipDir => Except.ok result
    | Except.error sig => Except.error sig
    | Except.ok result1 => walkEntries s env path relPath rest result1
end

/-- The method `Scanner.scanPath`, that is `filepath.WalkDir` with the
callback: a root that cannot be inspected is reported to the callback;
`SkipDir` at the top is not an error. -/
def scanPath (s : Scanner) (env : Env) (scanPath : String) (result : ScanResult) :
    Except Signal ScanResult :=
  let walked :=
    match env.lstat scanPath with
    | none => visit s env scanPath "." "" false true result
    | some root => walkDir s env scanPath "." root result
  match walked with
  | Except.error Signal.skipDir => Except.ok result
  | other => other

/-- The method `Scanner.applyLicenseOverrides`: every dependency whose name is
a key of `LicenseOverrides` gets the license of that key. -/
def applyLicenseOverrides (s : Scanner) (dependencies : List Dependency) : List Dependency :=
  dependencies.map
    (fun d =>
      match s.config.LicenseOverrides.lookup d.Name with
      | some overrideLicense => { d with LicenseType := overrideLicense }
      | none => d)

/-- The method `Scanner.calculateSummary`. -/
def calculateSummary (result : ScanResult) : ScanResult :=
  let summary : Summary :=
    { result.Summary with TotalDependencies := result.Dependencies.length }
  let summary : Summary :=
    result.Dependencies.foldl
      (fun (summary : Summary) dep =>
        let license := if dep.LicenseType == "" then "UNKNOWN" else dep.LicenseType
        { summary with
          LicenseBreakdown := gomap.incr summary.LicenseBreakdown license
          PackageBreakdown := gomap.incr summary.PackageBreakdown dep.PackageType })
      summary
  { result with Summary := summary }

/-- The loop of `Scan` over the configured scan paths. -/
def scanPaths (s : Scanner) (env : Env) : List String → ScanResult → Except Signal ScanResult
  | [], result => Except.ok result
  | p :: rest, result =>
    match scanPath s env p { result with ScanPath := p } with
    | Except.error sig => Except.error sig
    | Except.ok result1 => scanPaths s env rest result1

/-- The method `Scanner.Scan`: the walk over the scan paths, then the license
overrides, then the summary. An error is `Signal.failed`. -/
def Scan (s : Scanner) (env : Env) : Except Signal ScanResult :=
  let result : ScanResult :=
    { Timestamp := env.now
      ScanPath := ""
      Dependencies := []
      Issues := []
      Summary :=
        { TotalDependencies := 0, LicenseBreakdown := [], PackageBreakdown := [],
          IssueBreakdown := [] } }
  match scanPaths s env s.config.ScanPaths result with
  | Except.error sig => Except.error sig
  | Except.ok result1 =>
    Except.ok (calculateSummary
      { result1 with Dependencies := applyLicenseOverrides s result1.Dependencies })

end scanner

/-! ## Go standard library: more of package `strings` -/

namespace strings

/-- The fields of a character list: the maximal runs of characters that are
not white space. -/
def fieldsList : List Char → List (List Char)
  | [] => []
  | c :: cs =>
    if isSpace c then fieldsList cs
    else
      match cs with
      | [] => [[c]]
      | d :: _ =>
        if isSpace d then [c] :: fieldsList cs
        else
          match fieldsList cs with
          | f :: fs => (c :: f) :: fs
          | [] => [[c]]

/-- The model of `strings.Fields`. -/
def Fields (s : String) : List String := (fieldsList s.data).map String.mk

/-- The model of `strings.TrimPrefix`. -/
def TrimPrefix (s pre : String) : String :=
  if HasPrefix s pre then ⟨s.data.drop pre.data.length⟩ else s

/-- The position of the first occurrence of `sub` in a character list. -/
def indexList (sub : List Char) : List Char → Option Nat
  | [] => if sub.isEmpty then some 0 else none
  | c :: cs =>
    if sub.isPrefixOf (c :: cs) then some 0 else (indexList sub cs).map (fun i => i + 1)

/-- The model of `strings.Index`: `none` stands for `-1`. -/
def Index (s substr : String) : Option Nat := indexList substr.data s.data

end strings

/-! ## Package `golang` -/

namespace golang

open types strings

/-- The part of a decoded `GoMod` value that `scanWithGoList` reads: the field
`Module.Path`. -/
structure GoMod where
  ModulePath : String
  deriving DecidableEq, Repr

/-- The world of the Go parser in one run. `lookPathGo` tells whether the `go`
command is found; `goListAll dir` is the sequence of values the decoder loop
of `scanWithGoList` obtains from the output of `go list -m -json all` in `dir`
(`none` when the command fails); `goListDir workDir modulePath` is the output
of `go list -m -f` for the module directory (`none` when the command fails);
`openLines path` is `none` when `os.Open` fails and otherwise the lines
`bufio.Scanner` yields with the flag of `scanner.Err()`; `readFile` is
`os.ReadFile`; `patternOrder` is the order in which the `range` loop of
`detectLicenseType` visits its table, which Go leaves unspecified. -/
structure GoEnv where
  lookPathGo : Bool
  goListAll : String → Option (List GoMod)
  goListDir : String → String → Option String
  openLines : String → Option (List String × Bool)
  readFile : String → Option String
  patternOrder : List (String × String)

/-- The table `patterns` of `detectLicenseType`, as written in the source. -/
def licensePatterns : List (String × String) :=
  [("mit license", "MIT"),
   ("apache license, version 2.0", "Apache-2.0"),
   ("apache license version 2.0", "Apache-2.0"),
   ("bsd 3-clause", "BSD-3-Clause"),
   ("bsd 2-clause", "BSD-2-Clause"),
   ("gnu general public license", "GPL-3.0"),
   ("gnu lesser general public", "LGPL-3.0"),
   ("mozilla public license", "MPL-2.0"),
   ("isc license", "ISC"),
   ("unlicense", "Unlicense")]

/-- The method `detectLicenseType`, with the table visited in the order
`order`: the first phrase visited that the lower-cased text contains decides. -/
def detectLicenseType (order : List (String × String)) (licenseText : String) : String :=
  let text := ToLower licenseText
  match order.find? (fun entry => Contains text entry.1) with
  | some entry => entry.2
  | none => "UNKNOWN"

/-- The candidate file names of `readLicenseFromDir`. -/
def licenseFiles : List String :=
  ["LICENSE", "LICENSE.txt", "LICENSE.md", "LICENSE.rst",
   "license", "license.txt", "license.md", "license.rst",
   "COPYING", "COPYING.txt", "COPYRIGHT", "COPYRIGHT.txt"]

/-- The method `readLicenseFromDir`: the text and detected type of the first
candidate file that can be read. -/
def readLicenseFromDir (env : GoEnv) (dir : String) : String × String :=
  match licenseFiles.findSome? (fun fileName => env.readFile (filepath.Join [dir, fileName])) with
  | some licenseText => (licenseText, detectLicenseType env.patternOrder licenseText)
  | none => ("", "UNKNOWN")

/-- The method `getLicenseFromGoMod`. -/
def getLicenseFromGoMod (env : GoEnv) (modulePath workDir : String) : String × String :=
  match env.goListDir workDir modulePath with
  | none => ("", "UNKNOWN")
  | some output =>
    let moduleDir := TrimSpace output
    if moduleDir == "" then ("", "UNKNOWN") else readLicenseFromDir env moduleDir

/-- The method `getLicenseFromVendor`. -/
def getLicenseFromVendor (env : GoEnv) (modulePath workDir : String) : String × String :=
  readLicenseFromDir env (filepath.Join [workDir, "vendor", modulePath])

/-- The method `getLicenseInfo`. -/
def getLicenseInfo (env : GoEnv) (modulePath workDir : String) : String × String :=
  if env.lookPathGo then getLicenseFromGoMod env modulePath workDir
  else getLicenseFromVendor env modulePath workDir

/-- The record a Go parser builds for a module, with the license information
filled in when `getLicenseInfo` returns a non-empty type. -/
def moduleDependency (env : GoEnv) (name version filePath workDir : String) : Dependency :=
  let dep : Dependency :=
    { Name := name, Version := version, LicenseType := "UNKNOWN", LicenseText := "",
      Repository := "", Homepage := "", LicenseURL := "", PackageType := "go",
      FilePath := filePath }
  let info := getLicenseInfo env name workDir
  if info.2 != "" then { dep with LicenseType := info.2, LicenseText := info.1 } else dep

/-- The zero value `types.Dependency{}`. -/
def emptyDependency : Dependency :=
  { Name := "", Version := "", LicenseType := "", LicenseText := "", Repository := "",
    Homepage := "", LicenseURL := "", PackageType := "", FilePath := "" }

/-- The method `parseRequireLine`. -/
def parseRequireLine (env : GoEnv) (line filePath : String) : Dependency :=
  let line := TrimPrefix line "require "
  let line := TrimSpace line
  if line == "" || line == "(" || line == ")" then emptyDependency
  else
    match Fields line with
    | name :: version :: _ =>
      let version :=
        match Index version "//" with
        | some idx => TrimSpace ⟨version.data.take idx⟩
        | none => version
      moduleDependency env name version filePath (filepath.Dir filePath)
    | _ => emptyDependency

/-- The loop of `parseGoMod` over the lines of the file, with the flag
`inRequireBlock`. -/
def parseGoModLines (env : GoEnv) (path : String) :
    List String → Bool → List Dependency → List Dependency
  | [], _, dependencies => dependencies
  | text :: rest, inRequireBlock, dependencies =>
    let line := TrimSpace text
    if line == "" || HasPrefix line "//" then
      parseGoModLines env path rest inRequireBlock dependencies
    else if HasPrefix line "require (" then parseGoModLines env path rest true dependencies
    else if inRequireBlock && line == ")" then parseGoModLines env path rest false dependencies
    else if HasPrefix line "require " || inRequireBlock then
      let dep := parseRequireLine env line path
      if dep.Name != "" then parseGoModLines env path rest inRequireBlock (dependencies ++ [dep])
      else parseGoModLines env path rest inRequireBlock dependencies
    else parseGoModLines env path rest inRequireBlock dependencies

/-- The method `parseGoMod`. -/
def parseGoMod (env : GoEnv) (path : String) : Except String (List Dependency) :=
  match env.openLines path with
  | none => Except.error "failed to open go.mod"
  | some (lines, scanErr) =>
    if scanErr then Except.error "scanner error"
    else Except.ok (parseGoModLines env path lines false [])

/-- The method `scanWithGoList`. -/
def scanWithGoList (env : GoEnv) (path : String) : Except String (List Dependency) :=
  let dir := filepath.Dir path
  if !env.lookPathGo then Except.error "go command not found"
  else
    match env.goListAll dir with
    | none => Except.error "failed to run 'go list'"
    | some mods =>
      Except.ok
        (mods.foldl
          (fun (dependencies : List Dependency) mod =>
            if mod.ModulePath == "" then dependencies
            else dependencies ++ [moduleDependency env mod.ModulePath "" path dir]) [])

/-- The method `scanGoMod`. -/
def scanGoMod (env : GoEnv) (path : String) : Except String (List Dependency) :=
  match scanWithGoList env path with
  | Except.ok deps => Except.ok deps
  | Except.error _ => parseGoMod env path

/-- The loop of `scanGoSum` over the lines of the file; `dependencyMap` is the
Go map as an association list in insertion order. -/
def scanGoSumLines (env : GoEnv) (path : String) :
    List String → List (String × Dependency) → List (String × Dependency)
  | [], dependencyMap => dependencyMap
  | text :: rest, dependencyMap =>
    let line := TrimSpace text
    if line == "" then scanGoSumLines env path rest dependencyMap
    else
      match Fields line with
      | name :: version :: _ =>
        if HasSuffix version "/go.mod" then scanGoSumLines env path rest dependencyMap
        else if Contains version "h1:" then scanGoSumLines env path rest dependencyMap
        else
          let key := name ++ "@" ++ version
          if (dependencyMap.lookup key).isSome then scanGoSumLines env path rest dependencyMap
          else
            scanGoSumLines env path rest
              (dependencyMap ++
                [(key, moduleDependency env name version path (filepath.Dir path))])
      | _ => scanGoSumLines env path rest dependencyMap

/-- The method `scanGoSum`. The final loop over the map lists the entries in
insertion order here; Go leaves the order unspecified. -/
def scanGoSum (env : GoEnv) (path : String) : Except String (List Dependency) :=
  match env.openLines path with
  | none => Except.error "failed to open go.sum"
  | some (lines, scanErr) =>
    if scanErr then Except.error "scanner error"
    else Except.ok ((scanGoSumLines env path lines []).map Prod.snd)

/-- The method `Detect` of the Go parser. -/
def Detect (path : String) : Bool :=
  let fileName := filepath.Base path
  fileName == "go.mod" || fileName == "go.sum"

/-- The method `Scan` of the Go parser. -/
def Scan (env : GoEnv) (path : String) : Except String (List Dependency) :=
  let fileName := filepath.Base path
  if fileName == "go.mod" then scanGoMod env path
  else if fileName == "go.sum" then scanGoSum env path
  else Except.error "unsupported Go file"

/-- The Go parser as a `PackageScanner`. -/
def NewScanner (env : GoEnv) : scanner.PackageScanner :=
  { Name := "golang", Detect := Detect, Scan := Scan env }

end golang

/-! ## Package `nodejs` -/

namespace strings

/-- The pieces of a string between the occurrences of a non-empty separator,
as `strings.Split` cuts them; `fuel` bounds the number of cuts. -/
def splitList (sep : List Char) : Nat → List Char → List (List Char)
  | 0, s => [s]
  | fuel + 1, s =>
    match indexList sep s with
    | none => [s]
    | some i => s.take i :: splitList sep fuel (s.drop (i + sep.length))

/-- The model of `strings.Split` for a non-empty separator. -/
def Split (s sep : String) : List String :=
  (splitList sep.data s.data.length s.data).map String.mk

end strings

namespace nodejs

open types strings

/-- A value decoded by `encoding/json` into an `interface{}`: `nil`, a
boolean, a number (kept as its text), a string, a slice, or a map (an
association list with distinct keys). -/
inductive JSON where
  | null : JSON
  | bool : Bool → JSON
  | number : String → JSON
  | str : String → JSON
  | arr : List JSON → JSON
  | obj : List (String × JSON) → JSON

/-- The record `LicenseInfo`. -/
structure LicenseInfo where
  Type_ : String
  URL : String

/-- The record `PackageJSON` after decoding; the two dependency maps are
association lists in the order in which the `range` loops visit them. -/
structure PackageJSON where
  Name : String
  Version : String
  License : JSON
  Licenses : List LicenseInfo
  Repository : JSON
  Homepage : String
  Dependencies : List (String × String)
  DevDependencies : List (String × String)

/-- The record `PackageLockEntry`. -/
structure PackageLockEntry where
  Version : String
  Resolved : String

/-- The record `PackageLockPackage`. -/
structure PackageLockPackage where
  Name : String
  Version : String
  License : JSON
  Resolved : String

/-- The record `PackageLockJSON` after decoding; the two maps are association
lists in the order in which the `range` loops visit them. -/
structure PackageLockJSON where
  Name : String
  Version : String
  Dependencies : List (String × PackageLockEntry)
  Packages : List (String × PackageLockPackage)

/-- The file system of the Node parser in one run: `readPackageJSON path` and
`readPackageLock path` are the outcome of opening, reading and decoding the
file (the error text when one of the three fails), `readFile` is
`os.ReadFile`. -/
structure NodeEnv where
  readPackageJSON : String → Except String PackageJSON
  readPackageLock : String → Except String PackageLockJSON
  readFile : String → Option String

/-- The type assertion `v["type"].(string)` on a decoded map. -/
def typeString (fields : List (String × JSON)) : Option String :=
  match fields.lookup "type" with
  | some (JSON.str licType) => some licType
  | _ => none

/-- The method `parseLicense`. -/
def parseLicense : JSON → String
  | JSON.null => "UNKNOWN"
  | JSON.str v => if v == "" then "UNKNOWN" else v
  | JSON.obj fields =>
    match typeString fields with
    | some licType => licType
    | none => "UNKNOWN"
  | JSON.arr (JSON.obj firstLicense :: _) =>
    match typeString firstLicense with
    | some licType => licType
    | none => "UNKNOWN"
  | _ => "UNKNOWN"

/-- The method `readLicenseFile`: the content of the first candidate file that
can be read, or the empty string. -/
def readLicenseFile (env : NodeEnv) (pkgPath : String) : String :=
  match ["LICENSE", "LICENSE.txt", "LICENSE.md", "license", "license.txt", "license.md"].findSome?
      (fun fileName => env.readFile (filepath.Join [pkgPath, fileName])) with
  | some data => data
  | none => ""

/-- The method `readLicenseFromNodeModules`. -/
def readLicenseFromNodeModules (env : NodeEnv) (pkgPath : String) : String × String :=
  match env.readPackageJSON (filepath.Join [pkgPath, "package.json"]) with
  | Except.ok pkg =>
    let licenseType := parseLicense pkg.License
    if licenseType != "UNKNOWN" then (readLicenseFile env pkgPath, licenseType)
    else ("", "UNKNOWN")
  | Except.error _ => ("", "UNKNOWN")

/-- The method `createDependency`. -/
def createDependency (env : NodeEnv) (name version filePath : String) : Dependency :=
  let dep : Dependency :=
    { Name := name, Version := version, LicenseType := "UNKNOWN", LicenseText := "",
      Repository := "", Homepage := "", LicenseURL := "", PackageType := "npm",
      FilePath := filePath }
  let nodeModulesPath := filepath.Join [filepath.Dir filePath, "node_modules", name]
  let info := readLicenseFromNodeModules env nodeModulesPath
  if info.2 != "" then { dep with LicenseType := info.2, LicenseText := info.1 } else dep

/-- The method `scanPackageJSON`. -/
def scanPackageJSON (env : NodeEnv) (path : String) : Except String (List Dependency) :=
  match env.readPackageJSON path with
  | Except.error e => Except.error e
  | Except.ok pkg =>
    let dependencies : List Dependency :=
      pkg.Dependencies.foldl
        (fun dependencies entry => dependencies ++ [createDependency env entry.1 entry.2 path]) []
    let dependencies :=
      pkg.DevDependencies.foldl
        (fun dependencies entry => dependencies ++ [createDependency env entry.1 entry.2 path])
        dependencies
    Except.ok dependencies

/-- The name `scanPackageLock` gives an entry of the `packages` map: the
explicit name, or else the part of the key after the last `node_modules/`,
or else nothing. -/
def lockPackageName (pkgPath : String) (pkg : PackageLockPackage) : String :=
  if pkg.Name == "" then
    let parts := Split pkgPath "node_modules/"
    if parts.length > 1 then parts.getLastD "" else pkg.Name
  else pkg.Name

/-- The method `scanPackageLock`. -/
def scanPackageLock (env : NodeEnv) (path : String) : Except String (List Dependency) :=
  match env.readPackageLock path with
  | Except.error e => Except.error e
  | Except.ok lockFile =>
    if lockFile.Packages.length > 0 then
      Except.ok
        (lockFile.Packages.foldl
          (fun (dependencies : List Dependency) entry =>
            if entry.1 == "" then dependencies
            else
              dependencies ++
                [{ Name := lockPackageName entry.1 entry.2
                   Version := entry.2.Version
                   LicenseType := parseLicense entry.2.License
                   LicenseText := ""
                   Repository := ""
                   Homepage := ""
                   LicenseURL := ""
                   PackageType := "npm"
                   FilePath := path }]) [])
    else
      Except.ok
        (lockFile.Dependencies.foldl
          (fun (dependencies : List Dependency) entry =>
            dependencies ++
              [{ Name := entry.1
                 Version := entry.2.Version
                 LicenseType := "UNKNOWN"
                 LicenseText := ""
                 Repository := ""
                 Homepage := ""
                 LicenseURL := ""
                 PackageType := "npm"
                 FilePath := path }]) [])

/-- The method `Detect` of the Node parser. -/
def Detect (path : String) : Bool :=
  let fileName := filepath.Base path
  fileName == "package.json" || fileName == "package-lock.json"

/-- The method `Scan` of the Node parser. -/
def Scan (env : NodeEnv) (path : String) : Except String (List Dependency) :=
  let fileName := filepath.Base path
  if fileName == "package.json" then scanPackageJSON env path
  else if fileName == "package-lock.json" then scanPackageLock env path
  else Except.error "unsupported Node.js file"

/-- The Node parser as a `PackageScanner`. -/
def NewScanner (env : NodeEnv) : scanner.PackageScanner :=
  { Name := "nodejs", Detect := Detect, Scan := Scan env }

end nodejs

/-! ## Package `python` -/

namespace strings

/-- The model of `strings.SplitN` for a non-empty separator and `n > 0`: at
most `n` pieces, the last one being the unsplit rest. -/
def SplitN (s sep : String) (n : Nat) : List String :=
  (splitList sep.data (n - 1) s.data).map String.mk

/-- The model of `strings.Trim`: the characters of `cutset` are cut from both
ends. -/
def Trim (s cutset : String) : String :=
  ⟨((s.data.dropWhile (fun c => cutset.data.contains c)).reverse.dropWhile
    (fun c => cutset.data.contains c)).reverse⟩

end strings

namespace python

open types strings

/-- The method `Detect` of the Python parser. -/
def Detect (path : String) : Bool :=
  let fileName := filepath.Base path
  fileName == "requirements.txt" || fileName == "setup.py" ||
    fileName == "pyproject.toml" || fileName == "Pipfile"

/-- The loop of `parseRequirement` over the operators: the first operator of
the list that the line contains splits it; `name` and `version` are the values
before the loop. -/
def splitRequirement (line : String) : List String → String × String → String × String
  | [], unsplit => unsplit
  | sep :: rest, unsplit =>
    if Contains line sep then
      let parts := SplitN line sep 2
      let name := TrimSpace (parts.headD "")
      let version := if parts.length > 1 then TrimSpace (parts.getD 1 "") else unsplit.2
      (name, version)
    else splitRequirement line rest unsplit

/-- The method `parseRequirement`. -/
def parseRequirement (line filePath : String) : Dependency :=
  if HasPrefix line "-e " || HasPrefix line "--editable " then golang.emptyDependency
  else
    let split := splitRequirement line ["==", ">=", "<=", "~=", ">", "<"] (line, "UNKNOWN")
    let name := Trim split.1 "\"'"
    if name == "" then golang.emptyDependency
    else
      { Name := name, Version := split.2, LicenseType := "UNKNOWN", LicenseText := "",
        Repository := "", Homepage := "", LicenseURL := "", PackageType := "python",
        FilePath := filePath }

/-- The loop of `scanRequirements` over the lines of the file. -/
def scanRequirementsLines (path : String) : List String → List Dependency → List Dependency
  | [], dependencies => dependencies
  | text :: rest, dependencies =>
    let line := TrimSpace text
    if line == "" || HasPrefix line "#" then scanRequirementsLines path rest dependencies
    else
      let dep := parseRequirement line path
      if dep.Name != "" then scanRequirementsLines path rest (dependencies ++ [dep])
      else scanRequirementsLines path rest dependencies

/-- The method `scanRequirements`; `openLines path` is `none` when `os.Open`
fails and otherwise the lines `bufio.Scanner` yields with the flag of
`scanner.Err()`. -/
def scanRequirements (openLines : String → Option (List String × Bool)) (path : String) :
    Except String (List Dependency) :=
  match openLines path with
  | none => Except.error "failed to open requirements.txt"
  | some (lines, scanErr) =>
    if scanErr then Except.error "scanner error"
    else Except.ok (scanRequirementsLines path lines [])

/-- The method `scanOtherFormats`. -/
def scanOtherFormats (_path : String) : Except String (List Dependency) := Except.ok []

/-- The method `Scan` of the Python parser. -/
def Scan (openLines : String → Option (List String × Bool)) (path : String) :
    Except String (List Dependency) :=
  let fileName := filepath.Base path
  if fileName == "requirements.txt" then scanRequirements openLines path
  else if fileName == "setup.py" || fileName == "pyproject.toml" || fileName == "Pipfile" then
    scanOtherFormats path
  else Except.error "unsupported Python file"

/-- The Python parser as a `PackageScanner`. -/
def NewScanner (openLines : String → Option (List String × Bool)) : scanner.PackageScanner :=
  { Name := "python", Detect := Detect, Scan := Scan openLines }

end python

/-! ## Package `java` -/

namespace java

open types strings

/-- The record `java.Dependency` after decoding. -/
structure Dependency where
  GroupID : String
  ArtifactID : String
  Version : String
  Scope : String

/-- The record `POM` after decoding: the `dependency` elements of the
`dependencies` element of the project, in document order. -/
structure POM where
  Dependencies : List Dependency

/-- The method `Detect` of the Java parser. -/
def Detect (path : String) : Bool :=
  let fileName := filepath.Base path
  fileName == "pom.xml" || fileName == "build.gradle" || fileName == "build.gradle.kts"

/-- The method `scanPOM`; `readPOM path` is the outcome of opening and
decoding the file, the error text when one of the two fails. -/
def scanPOM (readPOM : String → Except String POM) (path : String) :
    Except String (List types.Dependency) :=
  match readPOM path with
  | Except.error e => Except.error e
  | Except.ok pom =>
    Except.ok
      (pom.Dependencies.foldl
        (fun (dependencies : List types.Dependency) dep =>
          let name := dep.GroupID ++ ":" ++ dep.ArtifactID
          let version := if dep.Version == "" then "UNKNOWN" else dep.Version
          dependencies ++
            [{ Name := name, Version := version, LicenseType := "UNKNOWN", LicenseText := "",
               Repository := "", Homepage := "", LicenseURL := "", PackageType := "maven",
               FilePath := path }]) [])

/-- The method `scanGradle`. -/
def scanGradle (_path : String) : Except String (List types.Dependency) := Except.ok []

/-- The method `Scan` of the Java parser. -/
def Scan (readPOM : String → Except String POM) (path : String) :
    Except String (List types.Dependency) :=
  let fileName := filepath.Base path
  if fileName == "pom.xml" then scanPOM readPOM path
  else if HasPrefix fileName "build.gradle" then scanGradle path
  else Except.error "unsupported Java file"

/-- The Java parser as a `PackageScanner`. -/
def NewScanner (readPOM : String → Except String POM) : scanner.PackageScanner :=
  { Name := "java", Detect := Detect, Scan := Scan readPOM }

end java

/-! ## Go standard library: the regular expressions of the parsers -/

namespace regexp

open strings

/-- The class `\s` of Go's `regexp`: tab, line feed, form feed, carriage
return and space. -/
def isSpace (c : Char) : Bool :=
  c == '\t' || c == '\n' || c.toNat == 12 || c == '\r' || c == ' '

/-- Whether the text character `c` matches the ASCII pattern character `p`
under the flag `(?i)`: the two agree up to letter case, or `c` is one of the
two characters outside ASCII that fold to an ASCII letter (the Kelvin sign for
`k`, the long s for `s`). -/
def foldEq (p c : Char) : Bool :=
  lowerRune p == lowerRune c || (lowerRune p == 'k' && c.toNat == 0x212A) ||
    (lowerRune p == 's' && c.toNat == 0x17F)

/-- A literal under `(?i)` at the start of the text: the rest of the text
after it, or `none` when the text does not start with the literal. -/
def foldPrefix : List Char → List Char → Option (List Char)
  | [], text => some text
  | _ :: _, [] => none
  | p :: ps, c :: cs => if foldEq p c then foldPrefix ps cs else none

/-- A case-sensitive literal at the start of the text: the rest of the text
after it. -/
def litPrefix : List Char → List Char → Option (List Char)
  | [], text => some text
  | _ :: _, [] => none
  | p :: ps, c :: cs => if p = c then litPrefix ps cs else none

/-- One of the six expressions of the Docker parser. The expression is
`(?i)command\s+verb.*?(\S+)`, and for `spaceAfterVerb` it is
`(?i)command\s+verb\s+(?:.*?)?(\S+)`. -/
structure InstallPattern where
  command : String
  verb : String
  spaceAfterVerb : Bool
  deriving DecidableEq, Repr

/-- A match of an install expression that starts at the start of the text: the
submatch of the group `(\S+)` and the text after the match. The command, at
least one `\s`, the verb; then the shortest stretch the lazy `.*?` can take,
which is the white space up to the next token and must not hold a line feed
(with `spaceAfterVerb` the greedy `\s+` takes this white space, which must not
be empty); then the whole token, taken by the greedy `\S+`. -/
def matchInstallAt (p : InstallPattern) (text : List Char) :
    Option (List Char × List Char) :=
  match foldPrefix p.command.data text with
  | none => none
  | some t1 =>
    if (t1.takeWhile isSpace).isEmpty then none
    else
      match foldPrefix p.verb.data (t1.dropWhile isSpace) with
      | none => none
      | some t3 =>
        let gap := t3.takeWhile isSpace
        let rest := t3.dropWhile isSpace
        let token := rest.takeWhile (fun c => !isSpace c)
        if p.spaceAfterVerb && gap.isEmpty then none
        else if !p.spaceAfterVerb && gap.contains '\n' then none
        else if token.isEmpty then none
        else some (token, rest.dropWhile (fun c => !isSpace c))

/-- The submatches of the group `(\S+)` over all matches of an install
expression, as `FindAllStringSubmatch(text, -1)` finds them: the leftmost
match, then the leftmost match after its end, and so on. Every round consumes
a character of the text. -/
def findAllInstall (p : InstallPattern) : Nat → List Char → List (List Char)
  | 0, _ => []
  | fuel + 1, text =>
    match matchInstallAt p text with
    | some (token, rest) => token :: findAllInstall p fuel rest
    | none =>
      match text with
      | [] => []
      | _ :: tail => findAllInstall p fuel tail

/-- The model of `FindAllStringSubmatch(text, -1)` for an install expression:
the first submatch of every match. -/
def FindAllInstall (p : InstallPattern) (text : String) : List String :=
  (findAllInstall p (text.data.length + 1) text.data).map String.mk

/-- A quote character of the class `['"]`. -/
def isQuote (c : Char) : Bool := c == '\'' || c == '"'

/-- The part `['"]([^'"]+)['"]` of the gem expression at the start of the
text: the submatch and the text after the closing quote. -/
def quoted (text : List Char) : Option (List Char × List Char) :=
  match text with
  | [] => none
  | q :: t =>
    if !isQuote q then none
    else
      let body := t.takeWhile (fun c => !isQuote c)
      match t.dropWhile (fun c => !isQuote c) with
      | [] => none
      | _ :: after => if body.isEmpty then none else some (body, after)

/-- The model of `FindStringSubmatch` for the expression of `scanGemfile`,
`^\s*gem\s+['"]([^'"]+)['"](?:\s*,\s*['"]([^'"]+)['"])?`: the two submatches
when the text matches, the second one empty when the optional group does not
take part. -/
def FindGem (text : String) : Option (String × String) :=
  match litPrefix "gem".data (text.data.dropWhile isSpace) with
  | none => none
  | some t1 =>
    if (t1.takeWhile isSpace).isEmpty then none
    else
      match quoted (t1.dropWhile isSpace) with
      | none => none
      | some (name, t2) =>
        match t2.dropWhile isSpace with
        | ',' :: t3 =>
          match quoted (t3.dropWhile isSpace) with
          | some (version, _) => some (⟨name⟩, ⟨version⟩)
          | none => some (⟨name⟩, "")
        | _ => some (⟨name⟩, "")

end regexp

/-! ## Package `ruby` -/

namespace ruby

open types strings

/-- The method `Detect` of the Ruby parser. -/
def Detect (path : String) : Bool :=
  let fileName := filepath.Base path
  fileName == "Gemfile" || fileName == "Gemfile.lock" || HasSuffix fileName ".gemspec"

/-- The loop of `scanGemfile` over the lines of the file. -/
def scanGemfileLines (path : String) : List String → List Dependency → List Dependency
  | [], dependencies => dependencies
  | text :: rest, dependencies =>
    let line := TrimSpace text
    if line == "" || HasPrefix line "#" then scanGemfileLines path rest dependencies
    else
      match regexp.FindGem line with
      | some (name, found) =>
        let version := if found != "" then found else "UNKNOWN"
        scanGemfileLines path rest
          (dependencies ++
            [{ Name := name, Version := version, LicenseType := "UNKNOWN", LicenseText := "",
               Repository := "", Homepage := "", LicenseURL := "", PackageType := "ruby",
               FilePath := path }])
      | none => scanGemfileLines path rest dependencies

/-- The method `scanGemfile`. -/
def scanGemfile (openLines : String → Option (List String × Bool)) (path : String) :
    Except String (List Dependency) :=
  match openLines path with
  | none => Except.error "failed to open Gemfile"
  | some (lines, scanErr) =>
    if scanErr then Except.error "scanner error"
    else Except.ok (scanGemfileLines path lines [])

/-- The loop of `scanGemfileLock` over the lines of the file, with the flag
`inSpecsSection`; the loop ends at the first line of the section that is not
blank and does not start with a space. -/
def scanGemfileLockLines (path : String) :
    List String → Bool → List Dependency → List Dependency
  | [], _, dependencies => dependencies
  | line :: rest, inSpecsSection, dependencies =>
    let trimmed := TrimSpace line
    if trimmed == "GEM" then scanGemfileLockLines path rest inSpecsSection dependencies
    else if HasPrefix trimmed "specs:" then scanGemfileLockLines path rest true dependencies
    else if inSpecsSection then
      let dependencies :=
        if HasPrefix line "  " && !HasPrefix line "    " then
          match Fields trimmed with
          | name :: second :: _ =>
            dependencies ++
              [{ Name := name, Version := Trim second "()", LicenseType := "UNKNOWN",
                 LicenseText := "", Repository := "", Homepage := "", LicenseURL := "",
                 PackageType := "ruby", FilePath := path }]
          | _ => dependencies
        else dependencies
      if !HasPrefix line " " && trimmed != "" then dependencies
      else scanGemfileLockLines path rest inSpecsSection dependencies
    else scanGemfileLockLines path rest inSpecsSection dependencies

/-- The method `scanGemfileLock`. The lines are those `bufio.Scanner` yields
up to the point where the loop ends; `scanErr` is the flag of `scanner.Err()`
afterwards. -/
def scanGemfileLock (openLines : String → Option (List String × Bool)) (path : String) :
    Except String (List Dependency) :=
  match openLines path with
  | none => Except.error "failed to open Gemfile.lock"
  | some (lines, scanErr) =>
    if scanErr then Except.error "scanner error"
    else Except.ok (scanGemfileLockLines path lines false [])

/-- The method `scanGemspec`. -/
def scanGemspec (_path : String) : Except String (List Dependency) := Except.ok []

/-- The method `Scan` of the Ruby parser. -/
def Scan (openLines : String → Option (List String × Bool)) (path : String) :
    Except String (List Dependency) :=
  let fileName := filepath.Base path
  if fileName == "Gemfile" then scanGemfile openLines path
  else if fileName == "Gemfile.lock" then scanGemfileLock openLines path
  else if HasSuffix fileName ".gemspec" then scanGemspec path
  else Except.error "unsupported Ruby file"

/-- The Ruby parser as a `PackageScanner`. -/
def NewScanner (openLines : String → Option (List String × Bool)) : scanner.PackageScanner :=
  { Name := "ruby", Detect := Detect, Scan := Scan openLines }

end ruby

/-! ## Package `docker` -/

namespace docker

open types strings

/-- The method `Detect` of the Docker parser. -/
def Detect (path : String) : Bool :=
  let fileName := filepath.Base path
  fileName == "Dockerfile" || fileName == "dockerfile" || HasSuffix fileName ".dockerfile"

/-- The map `patterns` of `Scan`: package manager and expression, in the
order of the source. -/
def patterns : List (String × regexp.InstallPattern) :=
  [("apt", { command := "apt-get", verb := "install", spaceAfterVerb := false }),
   ("yum", { command := "yum", verb := "install", spaceAfterVerb := false }),
   ("apk", { command := "apk", verb := "add", spaceAfterVerb := false }),
   ("npm", { command := "npm", verb := "install", spaceAfterVerb := true }),
   ("pip", { command := "pip", verb := "install", spaceAfterVerb := false }),
   ("gem", { command := "gem", verb := "install", spaceAfterVerb := false })]

/-- The inner loop of `parseRunCommand` over the matches of one expression. -/
def matchDependencies (pkgManager filePath : String) :
    List String → List Dependency → List Dependency
  | [], dependencies => dependencies
  | submatch :: rest, dependencies =>
    let packageName := TrimSpace submatch
    let packageName := Trim packageName "\"'"
    if packageName == "" || Contains packageName " " then
      matchDependencies pkgManager filePath rest dependencies
    else
      matchDependencies pkgManager filePath rest
        (dependencies ++
          [{ Name := packageName, Version := "UNKNOWN", LicenseType := "UNKNOWN",
             LicenseText := "", Repository := "", Homepage := "", LicenseURL := "",
             PackageType := pkgManager, FilePath := filePath }])

/-- The method `parseRunCommand`. The `range` loop over the map visits the
expressions in the order of the source here; Go leaves the order unspecified,
and it decides only the order of the result. -/
def parseRunCommand (line : String) (patterns : List (String × regexp.InstallPattern))
    (filePath : String) : List Dependency :=
  let command := TrimSpace (TrimPrefix (TrimPrefix line "RUN") "run")
  patterns.foldl
    (fun dependencies entry =>
      matchDependencies entry.1 filePath (regexp.FindAllInstall entry.2 command) dependencies) []

/-- The method `parseFromCommand`. -/
def parseFromCommand (line filePath : String) : Dependency :=
  match Fields line with
  | _ :: image :: _ =>
    if image == "scratch" || image == "" then golang.emptyDependency
    else
      let parts := SplitN image ":" 2
      let name := if Contains image ":" then parts.headD "" else image
      let version := if Contains image ":" then parts.getD 1 "" else "latest"
      { Name := name, Version := version, LicenseType := "UNKNOWN", LicenseText := "",
        Repository := "", Homepage := "", LicenseURL := "", PackageType := "docker-image",
        FilePath := filePath }
  | _ => golang.emptyDependency

/-- The loop of `Scan` over the lines of the file. -/
def scanLines (path : String) : List String → List Dependency → List Dependency
  | [], dependencies => dependencies
  | text :: rest, dependencies =>
    let line := TrimSpace text
    if line == "" || HasPrefix line "#" then scanLines path rest dependencies
    else
      let dependencies :=
        if HasPrefix (ToUpper line) "RUN " then
          dependencies ++ parseRunCommand line patterns path
        else dependencies
      let dependencies :=
        if HasPrefix (ToUpper line) "FROM " then
          let dep := parseFromCommand line path
          if dep.Name != "" then dependencies ++ [dep] else dependencies
        else dependencies
      scanLines path rest dependencies

/-- The method `Scan` of the Docker parser; `openLines path` is `none` when
`os.Open` fails and otherwise the lines `bufio.Scanner` yields with the flag
of `scanner.Err()`. -/
def Scan (openLines : String → Option (List String × Bool)) (path : String) :
    Except String (List Dependency) :=
  match openLines path with
  | none => Except.error "failed to open Dockerfile"
  | some (lines, scanErr) =>
    if scanErr then Except.error "scanner error"
    else Except.ok (scanLines path lines [])

/-- The Docker parser as a `PackageScanner`. -/
def NewScanner (openLines : String → Option (List String × Bool)) : scanner.PackageScanner :=
  { Name := "docker", Detect := Detect, Scan := Scan openLines }

end docker

/-! ## Package `golang`: decoding the output of `go list`

`scanWithGoList` decodes every JSON value of the output of
`go list -m -json all` into a fresh `GoMod`, whose declaration is

    type GoMod struct { Module Module; Require []Require }   (keys "Module", "Require")
    type Module struct { Path string }                       (key "Path")
    type Require struct { Path string; Version string; Indirect bool }

A JSON value is a `nodejs.JSON`; the members of an object are read in the
order of the list. `encoding/json` stores a member into the field whose key
equals the member's key up to letter case, ignores the other members, leaves a
field unchanged at `null`, and reports an error when a value has the wrong
type; the loop skips a value whose decoding reports an error. -/

namespace golang

open types strings nodejs

/-- Whether the member key `key` selects the struct field with the key
`tag`. -/
def keyMatches (tag key : String) : Bool :=
  regexp.foldPrefix tag.data key.data == some []

/-- Decoding a JSON value into a string field that holds `current`. -/
def decodeString (current : String) : JSON → Option String
  | JSON.str s => some s
  | JSON.null => some current
  | _ => none

/-- Whether a JSON value decodes into a boolean field without error. -/
def decodesToBool : JSON → Bool
  | JSON.bool _ => true
  | JSON.null => true
  | _ => false

/-- Decoding the members of an object into a `Module` whose `Path` is
`current`; `none` is a decoding error. -/
def decodeModuleMembers : List (String × JSON) → String → Option String
  | [], current => some current
  | (key, v) :: rest, current =>
    if keyMatches "Path" key then
      match decodeString current v with
      | some path => decodeModuleMembers rest path
      | none => none
    else decodeModuleMembers rest current

/-- Decoding a JSON value into the field `Module`, whose `Path` is `current`. -/
def decodeModule (current : String) : JSON → Option String
  | JSON.obj fields => decodeModuleMembers fields current
  | JSON.null => some current
  | _ => none

/-- Whether a JSON value decodes into a `Require` without error. -/
def decodesToRequire : JSON → Bool
  | JSON.obj fields =>
    fields.all (fun member =>
      if keyMatches "Path" member.1 then (decodeString "" member.2).isSome
      else if keyMatches "Version" member.1 then (decodeString "" member.2).isSome
      else if keyMatches "Indirect" member.1 then decodesToBool member.2
      else true)
  | JSON.null => true
  | _ => false

/-- Whether a JSON value decodes into the field `Require` without error. -/
def decodesToRequireList : JSON → Bool
  | JSON.arr elems => elems.all decodesToRequire
  | JSON.null => true
  | _ => false

/-- Decoding the members of an object into a `GoMod` whose `Module.Path` is
`current`. -/
def decodeGoModMembers : List (String × JSON) → String → Option GoMod
  | [], current => some { ModulePath := current }
  | (key, v) :: rest, current =>
    if keyMatches "Module" key then
      match decodeModule current v with
      | some path => decodeGoModMembers rest path
      | none => none
    else if keyMatches "Require" key then
      if decodesToRequireList v then decodeGoModMembers rest current else none
    else decodeGoModMembers rest current

/-- The call `decoder.Decode(&mod)` on one JSON value of the output, with
`mod` a fresh `GoMod`; `none` is a decoding error. -/
def decodeGoMod : JSON → Option GoMod
  | JSON.obj fields => decodeGoModMembers fields ""
  | JSON.null => some { ModulePath := "" }
  | _ => none

/-- The values the decoder loop of `scanWithGoList` keeps from the JSON values
of the output: those that decode without error. -/
def decodeStream (output : List JSON) : List GoMod := output.filterMap decodeGoMod

end golang

/-! ## Definitions used to state the properties -/

namespace gomap

/-- Every stored counter is positive. -/
def Positive (m : Counts) : Prop := ∀ k n, m.lookup k = some n → 0 < n

end gomap

namespace audit

open types

/-- The issues of a list that carry the given `Type`. -/
def issuesOfType (t : String) (issues : List AuditIssue) : List AuditIssue :=
  issues.filter (fun i => i.Type_ == t)

/-- The issues one dependency contributes: the loop body run on no issues. -/
def auditDep (cfg : Config) (dep : Dependency) : List AuditIssue :=
  auditStep cfg [] dep

/-- A configuration as the tests build it: the two license lists are given,
every other field has Go's zero value. -/
def listsConfig (dangerous unclear : List String) : Config :=
  { ScanPaths := []
    OutputFormat := ""
    OutputFile := ""
    IgnoreFile := ""
    ConfigPaths := []
    LicenseOverrides := []
    DangerousLicenses := dangerous
    UnclearLicenses := unclear
    EnableAudit := false
    Scanners :=
      { NodeJS := false, Go := false, Docker := false, Python := false, Ruby := false,
        Java := false } }

/-- A dependency as the tests build it: license type and text are given,
every other field has Go's zero value. -/
def licensed (licenseType licenseText : String) : Dependency :=
  { Name := ""
    Version := ""
    LicenseType := licenseType
    LicenseText := licenseText
    Repository := ""
    Homepage := ""
    LicenseURL := ""
    PackageType := ""
    FilePath := "" }

end audit

namespace ignore

/-- Last match wins, as a function of the pattern list: the verdict of the
last pattern in file order that matches, and no exclusion when none does. -/
def lastMatchVerdict (statIsDir : String → String → Bool) (ps : List pattern)
    (path name : String) : Bool :=
  match (ps.filter (fun p => matchPattern statIsDir p path name)).getLast? with
  | some p => !p.negate
  | none => false

end ignore

namespace ignore

open strings

/-- Whether a line of the ignore file stands for a pattern: after trimming it
is not empty and does not start with `#`. -/
def keptLine (text : String) : Bool :=
  !(TrimSpace text == "") && !(HasPrefix (TrimSpace text) "#")

/-- What is left of a trimmed line once one leading `!` is removed. -/
def lineRemainder (text : String) : String :=
  if HasPrefix (TrimSpace text) "!" then ⟨(TrimSpace text).data.drop 1⟩ else TrimSpace text

/-- The pattern a kept line stands for, in the words of the specification:
`negate` is a leading `!` of the trimmed line, `isDir` is a trailing `/` of
the remainder, and the glob text is the remainder without that one `/`. -/
def linePattern (text : String) : pattern :=
  { pattern :=
      if HasSuffix (lineRemainder text) "/" then ⟨(lineRemainder text).data.dropLast⟩
      else lineRemainder text
    negate := HasPrefix (TrimSpace text) "!"
    isDir := HasSuffix (lineRemainder text) "/" }

end ignore

namespace scanner

open types

/-- The records one visited file contributes: for every registered parser, in
registration order, that accepts the path and whose `Scan` succeeds, its
records with `FilePath` overwritten by the visited path. -/
def fileRecords (scanners : List PackageScanner) (path : String) : List Dependency :=
  (scanners.filter (fun sc => sc.Detect path)).flatMap
    (fun sc =>
      match sc.Scan path with
      | Except.ok found => found.map (fun d => { d with FilePath := path })
      | Except.error _ => [])

mutual
/-- The paths of the files the walk hands to the parsers, in walk order: the
files that are not ignored and do not lie below an ignored directory. -/
def visitedFiles (env : Env) (m : ignore.Matcher) (path relPath : String) :
    Entry → List String
  | Entry.file name =>
    if ignore.ShouldIgnore env.statIsDir m (filepath.Dir relPath) name then [] else [path]
  | Entry.dir name _ entries =>
    if ignore.ShouldIgnore env.statIsDir m (filepath.Dir relPath) name then []
    else visitedIn env m path relPath entries
/-- The visited files of the entries of a directory. -/
def visitedIn (env : Env) (m : ignore.Matcher) (path relPath : String) :
    List Entry → List String
  | [] => []
  | e :: rest =>
    visitedFiles env m (filepath.Join [path, e.name]) (filepath.Join [relPath, e.name]) e ++
      visitedIn env m path relPath rest
end

mutual
/-- No directory of the tree fails to be read. -/
def readable : Entry → Bool
  | Entry.file _ => true
  | Entry.dir _ readErr entries => !readErr && readableAll entries
/-- No directory of the entries fails to be read. -/
def readableAll : List Entry → Bool
  | [] => true
  | e :: rest => readable e && readableAll rest
end

end scanner

namespace scanner

open types

/-- The key of the license histogram a dependency is counted under: its
license type, with the empty type counted as `UNKNOWN`. -/
def licenseKey (d : Dependency) : String :=
  if d.LicenseType == "" then "UNKNOWN" else d.LicenseType

/-- The visited files below a scan root; none when the root cannot be
inspected. -/
def rootFiles (env : Env) (m : ignore.Matcher) (scanPath : String) : List String :=
  match env.lstat scanPath with
  | some root => visitedFiles env m scanPath "." root
  | none => []

end scanner

namespace scanner

open types

/-- A parser that accepts every path and fails on it. -/
def failingParser : PackageScanner :=
  { Name := "failing"
    Detect := fun _ => true
    Scan := fun _ => Except.error "parse error" }

/-- A parser that accepts `go.mod` files and returns one record that carries
a file path of its own. -/
def sampleParser : PackageScanner :=
  { Name := "sample"
    Detect := fun path => filepath.Base path == "go.mod"
    Scan := fun _ =>
      Except.ok
        [{ Name := "example.com/m", Version := "v1.0.0", LicenseType := "MIT",
           LicenseText := "", Repository := "", Homepage := "", LicenseURL := "",
           PackageType := "go", FilePath := "set by the parser" }] }

/-- A tree with a `go.mod` at the root and one in a subdirectory. -/
def sampleTree : Entry :=
  Entry.dir "." false [Entry.file "go.mod", Entry.dir "sub" false [Entry.file "go.mod"]]

/-- A run in which every scan root is `sampleTree`. -/
def sampleEnv : Env :=
  { lstat := fun _ => some sampleTree
    statIsDir := fun _ _ => false
    now := 0 }

/-- A scanner with the default configuration, no ignore patterns, and the
failing parser registered before the sample parser. -/
def sampleScanner : Scanner :=
  { config := config.getDefaultConfig
    matcher := some { patterns := [] }
    scanners := [failingParser, sampleParser] }

end scanner

namespace scanner

open types

/-- A scan result as `Scan` builds it before the summary: the given
dependencies and fresh maps. -/
def freshResult (deps : List Dependency) : ScanResult :=
  { Timestamp := 0
    ScanPath := "."
    Dependencies := deps
    Issues := []
    Summary :=
      { TotalDependencies := 0, LicenseBreakdown := [], PackageBreakdown := [],
        IssueBreakdown := [] } }

end scanner

namespace golang

open types

/-- The lines of a `go.mod` that requires the module `example.com/m`. -/
def sampleGoMod : List String :=
  ["module example.com/app", "", "go 1.21", "", "require example.com/m v1.0.0"]

/-- A license text that offers the software under the MIT license or the GNU
General Public License. -/
def dualLicenseText : String :=
  "MIT License\n\nAlternatively, under the terms of the GNU General Public License"

/-- A machine without the `go` command on which the project has `sampleGoMod`
as `go.mod` and the vendored module carries `dualLicenseText` as `LICENSE`;
`order` is the order in which the table of `detectLicenseType` is visited. -/
def vendoredEnv (order : List (String × String)) : GoEnv :=
  { lookPathGo := false
    goListAll := fun _ => none
    goListDir := fun _ _ => none
    openLines := fun path => if path == "go.mod" then some (sampleGoMod, false) else none
    readFile := fun path =>
      if path == "vendor/example.com/m/LICENSE" then some dualLicenseText else none
    patternOrder := order }

/-- The default configuration with the Go parser as the only parser. -/
def goOnlyConfig : Config :=
  { config.getDefaultConfig with
    Scanners :=
      { NodeJS := false, Go := true, Docker := false, Python := false, Ruby := false,
        Java := false } }

/-- The directory tree of the project: `go.mod` and the vendored license. -/
def vendoredTree : scanner.Entry :=
  scanner.Entry.dir "." false
    [scanner.Entry.file "go.mod",
     scanner.Entry.dir "vendor" false
       [scanner.Entry.dir "example.com" false
         [scanner.Entry.dir "m" false [scanner.Entry.file "LICENSE"]]]]

/-- The file system of the project for the walk, without an ignore file. -/
def vendoredRun : scanner.Env :=
  { lstat := fun _ => some vendoredTree
    statIsDir := fun _ _ => false
    now := 0 }

end golang

namespace nodejs

/-- A decoded `package-lock.json` whose `packages` map has the root entry and
the workspace entry `packages/foo`, which has no explicit name. -/
def workspaceLock : PackageLockJSON :=
  { Name := "app"
    Version := "1.0.0"
    Dependencies := []
    Packages :=
      [("", { Name := "app", Version := "1.0.0", License := JSON.str "MIT", Resolved := "" }),
       ("packages/foo",
        { Name := "", Version := "1.0.0", License := JSON.null, Resolved := "" })] }

/-- A decoded `package.json` whose `dependencies` map has the empty string as
a key. -/
def emptyKeyPackage : PackageJSON :=
  { Name := "app"
    Version := "1.0.0"
    License := JSON.str "MIT"
    Licenses := []
    Repository := JSON.null
    Homepage := ""
    Dependencies := [("", "1.0.0")]
    DevDependencies := [] }

/-- A project directory that holds `workspaceLock` and `emptyKeyPackage` and
no `node_modules`. -/
def workspaceEnv : NodeEnv :=
  { readPackageJSON := fun path =>
      if path == "package.json" then Except.ok emptyKeyPackage
      else Except.error "failed to open package.json"
    readPackageLock := fun path =>
      if path == "package-lock.json" then Except.ok workspaceLock
      else Except.error "failed to open package-lock.json"
    readFile := fun _ => none }

end nodejs

namespace strings

/-- No proper end of the separator is a start of it. -/
def Unbordered (sep : List Char) : Prop :=
  ∀ d, 0 < d → d < sep.length → (sep.drop d).isPrefixOf sep = false

end strings

namespace nodejs

open types strings

/-- A decoded `package-lock.json` that has both maps: `packages` with the root
entry and `node_modules/lodash`, and `dependencies` with `legacy`. -/
def mixedLock : PackageLockJSON :=
  { Name := "app"
    Version := "1.0.0"
    Dependencies := [("legacy", { Version := "0.1.0", Resolved := "" })]
    Packages :=
      [("", { Name := "app", Version := "1.0.0", License := JSON.str "ISC", Resolved := "" }),
       ("node_modules/lodash",
        { Name := "", Version := "4.17.21", License := JSON.str "MIT", Resolved := "" })] }

/-- A project directory that holds `mixedLock`. -/
def mixedEnv : NodeEnv :=
  { readPackageJSON := fun _ => Except.error "failed to open package.json"
    readPackageLock := fun path =>
      if path == "package-lock.json" then Except.ok mixedLock
      else Except.error "failed to open package-lock.json"
    readFile := fun _ => none }

end nodejs

namespace golang

open types strings

/-- The version field of a require line with the part from the first `//` on
removed. -/
def versionWithoutComment (version : String) : String :=
  match Index version "//" with
  | some idx => ⟨version.data.take idx⟩
  | none => version

/-- The lines of a `go.mod` whose `require ( ... )` block holds
`github.com/gin-gonic/gin v1.9.1` and
`github.com/bytedance/sonic v1.9.1 // indirect`. -/
def ginSonicGoMod : List String :=
  ["module example.com/app",
   "",
   "go 1.21",
   "",
   "require (",
   "\tgithub.com/gin-gonic/gin v1.9.1",
   "\tgithub.com/bytedance/sonic v1.9.1 // indirect",
   ")"]

/-- The name, version and package type of a record. -/
def nameVersionType (d : Dependency) : String × String × String :=
  (d.Name, d.Version, d.PackageType)

end golang

namespace golang

open types strings

/-- The name and version a line of `go.sum` contributes: its first two fields,
unless it has fewer than two fields or the second field ends with `/go.mod` or
contains `h1:`. -/
def sumPair (text : String) : Option (String × String) :=
  match Fields text with
  | name :: version :: _ =>
    if HasSuffix version "/go.mod" || Contains version "h1:" then none else some (name, version)
  | _ => none

/-- The name and version of a record. -/
def nameVersion (d : Dependency) : String × String := (d.Name, d.Version)

/-- A machine without the `go` command and without vendored license files
whose `go.sum` has the given lines. -/
def sumEnv (lines : List String) : GoEnv :=
  { lookPathGo := false
    goListAll := fun _ => none
    goListDir := fun _ _ => none
    openLines := fun path => if path == "go.sum" then some (lines, false) else none
    readFile := fun _ => none
    patternOrder := licensePatterns }

end golang

namespace golang

open types strings nodejs

/-- Whether a JSON value has no member that selects the struct field with the
key `tag`; a value that is not an object has none. -/
def lacksMember (tag : String) : JSON → Bool
  | JSON.obj fields => fields.all (fun member => !keyMatches tag member.1)
  | _ => true

/-- The output of `go list -m -json all` for the module of `ginSonicGoMod`:
the main module and its two requirements, each a JSON object with the members
`Path` and (except for the main module) `Version`. -/
def ginListOutput : List JSON :=
  [JSON.obj [("Path", JSON.str "example.com/app"), ("Main", JSON.bool true),
     ("Dir", JSON.str "/src/app"), ("GoMod", JSON.str "/src/app/go.mod"),
     ("GoVersion", JSON.str "1.21")],
   JSON.obj [("Path", JSON.str "github.com/gin-gonic/gin"), ("Version", JSON.str "v1.9.1"),
     ("Time", JSON.str "2023-06-01T00:00:00Z"),
     ("GoMod", JSON.str "/go/pkg/mod/cache/download/github.com/gin-gonic/gin/@v/v1.9.1.mod")],
   JSON.obj [("Path", JSON.str "github.com/bytedance/sonic"), ("Version", JSON.str "v1.9.1"),
     ("Time", JSON.str "2023-05-01T00:00:00Z"), ("Indirect", JSON.bool true),
     ("GoMod", JSON.str "/go/pkg/mod/cache/download/github.com/bytedance/sonic/@v/v1.9.1.mod")]]

/-- A machine with the `go` command on which `go list -m -json all` succeeds
with `ginListOutput` in the directory of `go.mod`, whose lines are
`ginSonicGoMod`. -/
def ginListEnv : GoEnv :=
  { lookPathGo := true
    goListAll := fun dir => if dir == "." then some (decodeStream ginListOutput) else none
    goListDir := fun _ _ => none
    openLines := fun path => if path == "go.mod" then some (ginSonicGoMod, false) else none
    readFile := fun _ => none
    patternOrder := licensePatterns }

end golang

namespace parsers

open types

/-- The package types the spec enumerates. -/
def claimedPackageTypes : List String :=
  ["npm", "go", "docker-image", "apt", "yum", "apk", "python", "ruby", "maven"]

/-- The package types the parsers emit: those the spec enumerates and the two
further keys `pip` and `gem` of the Docker parser. -/
def packageTypes : List String :=
  ["npm", "go", "docker-image", "apt", "yum", "apk", "pip", "gem", "python", "ruby", "maven"]

/-- The package types the Docker parser emits. -/
def dockerPackageTypes : List String :=
  ["docker-image", "apt", "yum", "apk", "npm", "pip", "gem"]

/-- A file system with one readable file, which has the given lines. -/
def fileWithLines (name : String) (lines : List String) :
    String → Option (List String × Bool) :=
  fun path => if path == name then some (lines, false) else none

end parsers

namespace nodejs

open types strings

/-- A decoded `package-lock.json` whose `packages` map has the entry
`node_modules/lodash` without a version, and whose `dependencies` map is
empty. -/
def unversionedLock : PackageLockJSON :=
  { Name := "app"
    Version := "1.0.0"
    Dependencies := []
    Packages :=
      [("node_modules/lodash",
        { Name := "", Version := "", License := JSON.str "MIT", Resolved := "" })] }

/-- A project directory that holds `unversionedLock`. -/
def unversionedEnv : NodeEnv :=
  { readPackageJSON := fun _ => Except.error "failed to open package.json"
    readPackageLock := fun path =>
      if path == "package-lock.json" then Except.ok unversionedLock
      else Except.error "failed to open package-lock.json"
    readFile := fun _ => none }

end nodejs

namespace golang

open types strings nodejs

/-- An output of the tool that `GoMod` can read: one object whose member
`Module` has the member `Path`. -/
def moduleListOutput : List JSON :=
  [JSON.obj [("Module", JSON.obj [("Path", JSON.str "example.com/m")])]]

/-- A machine with the `go` command on which the tool succeeds with
`moduleListOutput`; no license file can be read. -/
def moduleListEnv : GoEnv :=
  { lookPathGo := true
    goListAll := fun dir => if dir == "." then some (decodeStream moduleListOutput) else none
    goListDir := fun _ _ => none
    openLines := fun _ => none
    readFile := fun _ => none
    patternOrder := licensePatterns }

end golang

namespace java

/-- A `pom.xml` with one dependency that has no `version` element. -/
def unversionedPOM : String → Except String POM :=
  fun path =>
    if path == "pom.xml" then
      Except.ok { Dependencies := [{ GroupID := "junit", ArtifactID := "junit", Version := "",
                                     Scope := "test" }] }
    else Except.error "failed to open pom.xml"

end java

namespace nodejs

open types strings

/-- A decoded `package-lock.json` whose `packages` map has the entry
`node_modules/lodash` with the license object `{"type": ""}`. -/
def emptyTypeLock : PackageLockJSON :=
  { Name := "app"
    Version := "1.0.0"
    Dependencies := []
    Packages :=
      [("node_modules/lodash",
        { Name := "", Version := "4.17.21", License := JSON.obj [("type", JSON.str "")],
          Resolved := "" })] }

/-- A project directory that holds `emptyTypeLock`. -/
def emptyTypeEnv : NodeEnv :=
  { readPackageJSON := fun _ => Except.error "failed to open package.json"
    readPackageLock := fun path =>
      if path == "package-lock.json" then Except.ok emptyTypeLock
      else Except.error "failed to open package-lock.json"
    readFile := fun _ => none }

end nodejs

namespace audit

open types

/-- The type, message and suggestion of an issue. -/
def issueText (i : AuditIssue) : String × String × String := (i.Type_, i.Message, i.Suggestion)

/-- The twelve identifiers that are keys of the two tables of the dangerous
rule. -/
def listedIdentifiers : List String :=
  ["GPL-2.0", "GPL-3.0", "AGPL-3.0", "LGPL-2.1", "LGPL-3.0", "CDDL-1.0", "CDDL-1.1",
   "EPL-1.0", "EPL-2.0", "CPL-1.0", "OSL-3.0", "QPL-1.0"]

end audit

namespace parsers

open types

/-- The six parsers as `New` registers them, each with the part of the file
system it reads. -/
def registered (nodeEnv : nodejs.NodeEnv) (goEnv : golang.GoEnv)
    (openLines : String → Option (List String × Bool))
    (readPOM : String → Except String java.POM) : scanner.Parsers :=
  { nodejs := nodejs.NewScanner nodeEnv
    golang := golang.NewScanner goEnv
    docker := docker.NewScanner openLines
    python := python.NewScanner openLines
    ruby := ruby.NewScanner openLines
    java := java.NewScanner readPOM }

/-- The answers of the six `Detect` methods for a path, in the order of
registration. -/
def detections (path : String) : List Bool :=
  [nodejs.Detect path, golang.Detect path, docker.Detect path, python.Detect path,
   ruby.Detect path, java.Detect path]

/-- The file names one of the parsers accepts by comparison with a fixed
name. -/
def fixedNames : List String :=
  ["package.json", "package-lock.json", "go.mod", "go.sum", "Dockerfile", "dockerfile",
   "requirements.txt", "setup.py", "pyproject.toml", "Pipfile", "Gemfile", "Gemfile.lock",
   "pom.xml", "build.gradle", "build.gradle.kts"]

end parsers

namespace python

open types strings

/-- The operators of `parseRequirement`, in the order of its loop. -/
def operators : List String := ["==", ">=", "<=", "~=", ">", "<"]

/-- The characters the operators are made of. -/
def operatorChars : List Char := ['=', '<', '>', '~']

/-- The operator the loop of `parseRequirement` stops at: the first one of the
list that the line contains. -/
def firstListed (line : String) : Option String :=
  operators.find? (fun sep => Contains line sep)

/-- The text before the leftmost occurrence of `sep` in the line (the whole
line when there is none). -/
def before (line sep : String) : String :=
  match Index line sep with
  | some i => ⟨line.data.take i⟩
  | none => line

/-- The text after the leftmost occurrence of `sep` in the line (empty when
there is none). -/
def after (line sep : String) : String :=
  match Index line sep with
  | some i => ⟨line.data.drop (i + sep.length)⟩
  | none => ""

/-- The record of the Python parser for a name and a version. -/
def requirement (name version filePath : String) : Dependency :=
  { Name := name, Version := version, LicenseType := "UNKNOWN", LicenseText := "",
    Repository := "", Homepage := "", LicenseURL := "", PackageType := "python",
    FilePath := filePath }

end python

namespace ruby

open types strings

/-- A line `scanGemfileLock` passes over wherever it stands: its trimmed text
is `GEM` or starts with `specs:`. -/
def isSkipped (line : String) : Bool :=
  TrimSpace line == "GEM" || HasPrefix (TrimSpace line) "specs:"

/-- A line that ends the section: not passed over, not blank, and not starting
with a space. -/
def endsSpecs (line : String) : Bool :=
  !isSkipped line && !HasPrefix line " " && TrimSpace line != ""

/-- The record of a line inside the section: for a line that is not passed
over, starts with two spaces but not with four, and has at least two fields,
the first field with the second field without surrounding parentheses. -/
def lockEntry (path line : String) : Option Dependency :=
  if isSkipped line then none
  else if HasPrefix line "  " && !HasPrefix line "    " then
    match Fields (TrimSpace line) with
    | name :: second :: _ =>
      some { Name := name, Version := Trim second "()", LicenseType := "UNKNOWN",
             LicenseText := "", Repository := "", Homepage := "", LicenseURL := "",
             PackageType := "ruby", FilePath := path }
    | _ => none
  else none

/-- The lines after the first line whose trimmed text starts with `specs:`. -/
def afterSpecs (lines : List String) : List String :=
  (lines.dropWhile (fun line => !HasPrefix (TrimSpace line) "specs:")).tail

/-- The records of a `Gemfile.lock`: those of the lines after the first
`specs:` line and before the first line that ends the section. -/
def lockEntries (path : String) (lines : List String) : List Dependency :=
  ((afterSpecs lines).takeWhile (fun line => !endsSpecs line)).filterMap (lockEntry path)

/-- A lock file with a `GIT` source before the `GEM` source, the gems written
one level deep. -/
def twoSourceLock : List String :=
  ["GIT", "  remote: https://example.com/foo.git", "  specs:", "  foo (1.0)", "",
   "GEM", "  remote: https://rubygems.org/", "  specs:", "  rake (13.0.6)", "",
   "PLATFORMS", "  ruby"]

/-- A lock file in the layout Bundler writes: the gems four spaces deep, their
own requirements six. -/
def bundlerLock : List String :=
  ["GEM", "  remote: https://rubygems.org/", "  specs:", "    rack (2.2.8)",
   "    sinatra (3.1.0)", "      rack (~> 2.2)", "", "PLATFORMS", "  ruby", "",
   "DEPENDENCIES", "  sinatra"]

end ruby

/-! ## Theorems: the ignore matcher -/

namespace ignore

open strings

theorem ShouldIgnore_nil (statIsDir : String → String → Bool) (path name : String) :
    ShouldIgnore statIsDir { patterns := [] } path name = false := rfl

theorem ShouldIgnore_snoc (statIsDir : String → String → Bool) (ps : List pattern)
    (p : pattern) (path name : String) :
    ShouldIgnore statIsDir { patterns := ps ++ [p] } path name =
      if matchPattern statIsDir p path name = true then !p.negate
      else ShouldIgnore statIsDir { patterns := ps } path name := by
  unfold ShouldIgnore
  simp only [List.foldl_append, List.foldl_cons, List.foldl_nil]
  cases matchPattern statIsDir p path name <;> cases p.negate <;> simp

theorem lastMatchVerdict_snoc (statIsDir : String → String → Bool) (ps : List pattern)
    (p : pattern) (path name : String) :
    lastMatchVerdict statIsDir (ps ++ [p]) path name =
      if matchPattern statIsDir p path name = true then !p.negate
      else lastMatchVerdict statIsDir ps path name := by
  unfold lastMatchVerdict
  rw [List.filter_append]
  cases h : matchPattern statIsDir p path name
  · simp [h]
  · simp [h]

theorem ShouldIgnore_eq_lastMatchVerdict (statIsDir : String → String → Bool)
    (ps : List pattern) (path name : String) :
    ShouldIgnore statIsDir { patterns := ps } path name =
      lastMatchVerdict statIsDir ps path name := by
  induction ps using List.reverseRecOn with
  | nil => rfl
  | append_singleton ps p ih => rw [ShouldIgnore_snoc, lastMatchVerdict_snoc, ih]

/-- C1: `ShouldIgnore` is last-match-wins over the whole pattern list. It is
true exactly when some pattern matches and the last matching pattern in file
order is not negated; adding a pattern at the end gives that pattern's verdict
when it matches and the previous answer otherwise; a matcher without patterns,
which is what a missing ignore file gives, ignores nothing. -/
theorem shouldIgnore_last_match_wins (statIsDir : String → String → Bool)
    (ps : List pattern) (p : pattern) (path name : String) :
    (ShouldIgnore statIsDir { patterns := ps } path name = true ↔
      ∃ pre q post, ps = pre ++ q :: post ∧ matchPattern statIsDir q path name = true ∧
        q.negate = false ∧ ∀ r ∈ post, matchPattern statIsDir r path name = false) ∧
    ShouldIgnore statIsDir { patterns := ps } path name =
      lastMatchVerdict statIsDir ps path name ∧
    ShouldIgnore statIsDir { patterns := ps ++ [p] } path name =
      (if matchPattern statIsDir p path name = true then !p.negate
       else ShouldIgnore statIsDir { patterns := ps } path name) ∧
    ShouldIgnore statIsDir { patterns := [] } path name = false ∧
    (∀ (fs : String → FileState) (ignoreFile : String),
      fs (if ignoreFile == "" then ".licignore" else ignoreFile) = FileState.notExist →
      NewMatcher fs ignoreFile = (some { patterns := [] }, false)) := by
  refine ⟨?_, ShouldIgnore_eq_lastMatchVerdict statIsDir ps path name,
    ShouldIgnore_snoc statIsDir ps p path name, rfl, ?_⟩
  · induction ps using List.reverseRecOn with
    | nil => simp [ShouldIgnore_nil]
    | append_singleton ps x ih =>
      rw [ShouldIgnore_snoc]
      by_cases hx : matchPattern statIsDir x path name = true
      · rw [if_pos hx]
        constructor
        · intro hn
          refine ⟨ps, x, [], rfl, hx, ?_, by simp⟩
          cases hneg : x.negate
          · rfl
          · rw [hneg] at hn; simp at hn
        · rintro ⟨pre, q, post, heq, hq, hneg, hpost⟩
          rcases List.eq_nil_or_concat post with hnil | ⟨post1, y, hy⟩
          · subst hnil
            have := List.append_inj_right' heq (by simp)
            simp at this
            subst this
            simp [hneg]
          · subst hy
            have h2 : ps ++ [x] = (pre ++ q :: post1) ++ [y] := by
              rw [heq]; simp
            have h3 := List.append_inj_right' h2 (by simp)
            simp at h3
            subst h3
            have := hpost x (by simp)
            rw [this] at hx
            exact absurd hx (by simp)
      · rw [if_neg hx, ih]
        have hx2 : matchPattern statIsDir x path name = false := by
          simpa using hx
        constructor
        · rintro ⟨pre, q, post, heq, hq, hneg, hpost⟩
          refine ⟨pre, q, post ++ [x], by rw [heq]; simp, hq, hneg, ?_⟩
          intro r hr
          rcases List.mem_append.1 hr with h | h
          · exact hpost r h
          · simp at h; subst h; exact hx2
        · rintro ⟨pre, q, post, heq, hq, hneg, hpost⟩
          rcases List.eq_nil_or_concat post with hnil | ⟨post1, y, hy⟩
          · subst hnil
            have := List.append_inj_right' heq (by simp)
            simp at this
            subst this
            exact absurd hq hx
          · subst hy
            have h2 : ps ++ [x] = (pre ++ q :: post1) ++ [y] := by
              rw [heq]; simp
            have h3 := List.append_inj_left' h2 (by simp)
            refine ⟨pre, q, post1, h3, hq, hneg, ?_⟩
            intro r hr
            exact hpost r (by simp [hr])
  · intro fs ignoreFile h
    unfold NewMatcher
    simp only [h]

end ignore

/-! ## Theorems: the audit classifier -/

namespace audit

open types strings

theorem auditDep_eq (cfg : Config) (dep : Dependency) :
    auditDep cfg dep =
      (if isDangerousLicense cfg dep.LicenseType then [dangerousIssue dep] else []) ++
      ((if isUnclearLicense cfg dep.LicenseType then [unclearIssue dep] else []) ++
      ((if isPotentiallyTaintedLicense dep then [taintedIssue dep] else []) ++
      (if dep.LicenseType == "UNKNOWN" && dep.LicenseText == "" then [missingIssue dep]
        else []))) := by
  unfold auditDep auditStep
  cases isDangerousLicense cfg dep.LicenseType <;>
  cases isUnclearLicense cfg dep.LicenseType <;>
  cases isPotentiallyTaintedLicense dep <;>
  cases (dep.LicenseType == "UNKNOWN" && dep.LicenseText == "") <;> rfl

theorem auditStep_eq_append (cfg : Config) (issues : List AuditIssue) (dep : Dependency) :
    auditStep cfg issues dep = issues ++ auditDep cfg dep := by
  unfold auditDep auditStep
  cases isDangerousLicense cfg dep.LicenseType <;>
  cases isUnclearLicense cfg dep.LicenseType <;>
  cases isPotentiallyTaintedLicense dep <;>
  cases (dep.LicenseType == "UNKNOWN" && dep.LicenseText == "") <;> simp

theorem foldl_auditStep (cfg : Config) (deps : List Dependency) (issues : List AuditIssue) :
    deps.foldl (auditStep cfg) issues = issues ++ deps.foldl (auditStep cfg) [] := by
  induction deps generalizing issues with
  | nil => simp
  | cons d ds ih =>
    simp only [List.foldl_cons]
    rw [ih (auditStep cfg issues d), ih (auditStep cfg [] d), auditStep_eq_append cfg issues d,
      auditStep_eq_append cfg [] d]
    simp

theorem Audit_cons (cfg : Config) (d : Dependency) (ds : List Dependency) :
    Audit cfg (d :: ds) = auditDep cfg d ++ Audit cfg ds := by
  unfold Audit
  rw [List.foldl_cons, foldl_auditStep]
  rfl

theorem Audit_single (cfg : Config) (d : Dependency) : Audit cfg [d] = auditDep cfg d := by
  rw [Audit_cons]; simp [Audit]

theorem Audit_concat (cfg : Config) (xs ys : List Dependency) :
    Audit cfg (xs ++ ys) = Audit cfg xs ++ Audit cfg ys := by
  induction xs with
  | nil => simp [Audit]
  | cons d ds ih => rw [List.cons_append, Audit_cons, Audit_cons, ih, List.append_assoc]

theorem dangerous_of_single (cfg : Config) (d : Dependency) :
    issuesOfType "dangerous_license" (Audit cfg [d]) =
      if isDangerousLicense cfg d.LicenseType then [dangerousIssue d] else [] := by
  rw [Audit_single, auditDep_eq]
  cases isDangerousLicense cfg d.LicenseType <;>
  cases isUnclearLicense cfg d.LicenseType <;>
  cases isPotentiallyTaintedLicense d <;>
  cases (d.LicenseType == "UNKNOWN" && d.LicenseText == "") <;>
  simp [issuesOfType, dangerousIssue, unclearIssue, taintedIssue, missingIssue]

theorem unclear_of_single (cfg : Config) (d : Dependency) :
    issuesOfType "unclear_license" (Audit cfg [d]) =
      if isUnclearLicense cfg d.LicenseType then [unclearIssue d] else [] := by
  rw [Audit_single, auditDep_eq]
  cases isDangerousLicense cfg d.LicenseType <;>
  cases isUnclearLicense cfg d.LicenseType <;>
  cases isPotentiallyTaintedLicense d <;>
  cases (d.LicenseType == "UNKNOWN" && d.LicenseText == "") <;>
  simp [issuesOfType, dangerousIssue, unclearIssue, taintedIssue, missingIssue]

theorem tainted_of_single (cfg : Config) (d : Dependency) :
    issuesOfType "tainted_license" (Audit cfg [d]) =
      if isPotentiallyTaintedLicense d then [taintedIssue d] else [] := by
  rw [Audit_single, auditDep_eq]
  cases isDangerousLicense cfg d.LicenseType <;>
  cases isUnclearLicense cfg d.LicenseType <;>
  cases isPotentiallyTaintedLicense d <;>
  cases (d.LicenseType == "UNKNOWN" && d.LicenseText == "") <;>
  simp [issuesOfType, dangerousIssue, unclearIssue, taintedIssue, missingIssue]

theorem missing_of_single (cfg : Config) (d : Dependency) :
    issuesOfType "missing_license" (Audit cfg [d]) =
      if d.LicenseType == "UNKNOWN" && d.LicenseText == "" then [missingIssue d] else [] := by
  rw [Audit_single, auditDep_eq]
  cases isDangerousLicense cfg d.LicenseType <;>
  cases isUnclearLicense cfg d.LicenseType <;>
  cases isPotentiallyTaintedLicense d <;>
  cases (d.LicenseType == "UNKNOWN" && d.LicenseText == "") <;>
  simp [issuesOfType, dangerousIssue, unclearIssue, taintedIssue, missingIssue]

/-- The dangerous rule fires exactly when the license type is neither empty
nor `UNKNOWN` and agrees with a configured entry after upper-casing. -/
theorem isDangerousLicense_iff (cfg : Config) (t : String) :
    isDangerousLicense cfg t = true ↔
      t ≠ "" ∧ t ≠ "UNKNOWN" ∧ ∃ e ∈ cfg.DangerousLicenses, ToUpper e = ToUpper t := by
  unfold isDangerousLicense
  by_cases h1 : t = ""
  · simp [h1]
  · by_cases h2 : t = "UNKNOWN"
    · simp [h2]
    · simp [h1, h2]

/-- The unclear rule fires exactly when the license type agrees with a
configured entry after upper-casing. -/
theorem isUnclearLicense_iff (cfg : Config) (t : String) :
    isUnclearLicense cfg t = true ↔ ∃ e ∈ cfg.UnclearLicenses, ToUpper e = ToUpper t := by
  unfold isUnclearLicense
  simp

theorem ToUpper_eq_empty (s : String) : ToUpper s = "" ↔ s = "" := by
  unfold ToUpper
  constructor
  · intro h
    have h1 : (s.data.map upperRune) = [] := by
      have := congrArg String.data h
      simpa using this
    have h2 : s.data = [] := by simpa using h1
    exact String.ext h2
  · intro h
    subst h
    rfl

/-- C2 (as stated, refuted): with `UNKNOWN` configured as a dangerous license,
a dependency whose license type is `UNKNOWN`, equal to that entry in every
letter case, gets no `dangerous_license` issue. -/
theorem dangerous_entry_unknown_not_flagged :
    "UNKNOWN" ∈ (listsConfig ["UNKNOWN"] []).DangerousLicenses ∧
    ToUpper (licensed "UNKNOWN" "").LicenseType = ToUpper "UNKNOWN" ∧
    issuesOfType "dangerous_license"
      (Audit (listsConfig ["UNKNOWN"] []) [licensed "UNKNOWN" ""]) = [] := by
  decide

/-- C2 (amended): for every configuration and every entry `L` of its
`DangerousLicenses`, a single dependency whose license type is neither empty
nor exactly `UNKNOWN` and equals `L` up to letter case gets exactly one
`dangerous_license` issue, and that issue has severity `error`. -/
theorem dangerous_entry_yields_one_error (cfg : Config) (L : String) (d : Dependency)
    (hL : L ∈ cfg.DangerousLicenses) (hcase : ToUpper d.LicenseType = ToUpper L)
    (hne : d.LicenseType ≠ "") (hunk : d.LicenseType ≠ "UNKNOWN") :
    ∃ i, issuesOfType "dangerous_license" (Audit cfg [d]) = [i] ∧ i.Severity = "error" := by
  have h : isDangerousLicense cfg d.LicenseType = true :=
    (isDangerousLicense_iff cfg d.LicenseType).2 ⟨hne, hunk, L, hL, hcase.symm⟩
  refine ⟨dangerousIssue d, ?_, rfl⟩
  rw [dangerous_of_single, h]
  rfl

/-- Witness for C2 (amended): `gpl-3.0` against the default entry `GPL-3.0`. -/
theorem dangerous_entry_yields_one_error_witness :
    ∃ i, issuesOfType "dangerous_license"
        (Audit config.getDefaultConfig [licensed "gpl-3.0" ""]) = [i] ∧
      i.Severity = "error" :=
  dangerous_entry_yields_one_error config.getDefaultConfig "GPL-3.0" (licensed "gpl-3.0" "")
    (by decide) (by decide) (by decide) (by decide)

/-- C3: when `UNKNOWN` is among the unclear licenses, a single dependency with
license type exactly `UNKNOWN` and empty license text gets exactly two issues,
`unclear_license` followed by `missing_license`, both with severity `warning`. -/
theorem unknown_without_text_two_warnings (cfg : Config) (d : Dependency)
    (hU : "UNKNOWN" ∈ cfg.UnclearLicenses) (ht : d.LicenseType = "UNKNOWN")
    (hx : d.LicenseText = "") :
    (Audit cfg [d]).map (fun i => (i.Type_, i.Severity)) =
      [("unclear_license", "warning"), ("missing_license", "warning")] := by
  have h1 : isDangerousLicense cfg d.LicenseType = false := by
    simp [isDangerousLicense, ht]
  have h2 : isUnclearLicense cfg d.LicenseType = true :=
    (isUnclearLicense_iff cfg d.LicenseType).2 ⟨"UNKNOWN", hU, by rw [ht]⟩
  have h3 : isPotentiallyTaintedLicense d = false := by
    unfold isPotentiallyTaintedLicense
    rw [ht, hx]
    decide
  have h4 : (d.LicenseType == "UNKNOWN" && d.LicenseText == "") = true := by
    rw [ht, hx]; decide
  rw [Audit_single, auditDep_eq, h1, h2, h3, h4]
  rfl

/-- Witness for C3: the configuration of `TestAuditDangerousLicenses`. -/
theorem unknown_without_text_two_warnings_witness :
    (Audit (listsConfig ["GPL-3.0", "AGPL-3.0"] ["UNKNOWN", "PROPRIETARY"])
        [licensed "UNKNOWN" ""]).map (fun i => (i.Type_, i.Severity)) =
      [("unclear_license", "warning"), ("missing_license", "warning")] :=
  unknown_without_text_two_warnings (listsConfig ["GPL-3.0", "AGPL-3.0"] ["UNKNOWN", "PROPRIETARY"])
    (licensed "UNKNOWN" "") (by decide) rfl rfl

/-- C4: whatever the configured lists, a single dependency with license type
`GPL-3.0` whose license text contains `commercial` in any letter case gets
exactly one `tainted_license` issue, with severity `warning`. -/
theorem gpl_commercial_tainted (cfg : Config) (d : Dependency)
    (ht : d.LicenseType = "GPL-3.0")
    (hx : Contains (ToLower d.LicenseText) "commercial" = true) :
    ∃ i, issuesOfType "tainted_license" (Audit cfg [d]) = [i] ∧ i.Severity = "warning" := by
  have hg : Contains (ToLower d.LicenseType) "gpl" = true := by rw [ht]; decide
  have h : isPotentiallyTaintedLicense d = true := by
    unfold isPotentiallyTaintedLicense
    simp [hg, hx]
  refine ⟨taintedIssue d, ?_, rfl⟩
  rw [tainted_of_single, h]
  rfl

/-- Witness for C4: empty lists and the text of `TestIsPotentiallyTaintedLicense`
with a capital letter. -/
theorem gpl_commercial_tainted_witness :
    ∃ i, issuesOfType "tainted_license"
        (Audit (listsConfig [] []) [licensed "GPL-3.0" "GPL license with Commercial exception"]) =
          [i] ∧
      i.Severity = "warning" :=
  gpl_commercial_tainted (listsConfig [] [])
    (licensed "GPL-3.0" "GPL license with Commercial exception") rfl (by decide)

/-- C5 (as stated, refuted): a dependency whose license type is `Dual License`
and whose license text is empty has the phrase `dual license` in its
lower-cased type, and gets no `tainted_license` issue (no issue at all under
the default configuration). -/
theorem dual_license_type_not_tainted :
    Contains (ToLower (licensed "Dual License" "").LicenseType) "dual license" = true ∧
    issuesOfType "tainted_license"
      (Audit config.getDefaultConfig [licensed "Dual License" ""]) = [] ∧
    Audit config.getDefaultConfig [licensed "Dual License" ""] = [] := by
  decide

/-- C5 (amended): a single dependency whose lower-cased license text contains
`dual license` or `multiple license` gets a `tainted_license` issue (exactly
one, about that dependency); the phrases are looked for in the text only. -/
theorem dual_license_text_tainted (cfg : Config) (d : Dependency)
    (h : Contains (ToLower d.LicenseText) "dual license" = true ∨
      Contains (ToLower d.LicenseText) "multiple license" = true) :
    ∃ i, issuesOfType "tainted_license" (Audit cfg [d]) = [i] ∧ i.Dependency = d := by
  have ht : isPotentiallyTaintedLicense d = true := by
    unfold isPotentiallyTaintedLicense
    rcases h with h | h <;> simp [h]
  refine ⟨taintedIssue d, ?_, rfl⟩
  rw [tainted_of_single, ht]
  rfl

/-- Witness for C5 (amended): the first case of `TestIsPotentiallyTaintedLicense`. -/
theorem dual_license_text_tainted_witness :
    ∃ i, issuesOfType "tainted_license"
        (Audit (listsConfig [] []) [licensed "dual license" "This software is dual license"]) =
          [i] ∧
      i.Dependency = licensed "dual license" "This software is dual license" :=
  dual_license_text_tainted (listsConfig [] [])
    (licensed "dual license" "This software is dual license") (Or.inl (by decide))

/-- C6: a single dependency gets a `missing_license` issue if and only if its
license type is exactly `UNKNOWN` and its license text is empty; there is then
exactly one, with severity `warning`. In particular the types `unknown` and
the empty type, and any dependency with a non-empty text, get none. -/
theorem missing_iff_unknown_and_no_text (cfg : Config) (d : Dependency) :
    ((∃ i ∈ Audit cfg [d], i.Type_ = "missing_license") ↔
      (d.LicenseType = "UNKNOWN" ∧ d.LicenseText = "")) ∧
    (issuesOfType "missing_license" (Audit cfg [d])).map (fun i => i.Severity) =
      (if d.LicenseType = "UNKNOWN" ∧ d.LicenseText = "" then ["warning"] else []) ∧
    (d.LicenseType = "unknown" ∨ d.LicenseType = "" ∨ d.LicenseText ≠ "" →
      issuesOfType "missing_license" (Audit cfg [d]) = []) := by
  have hmem : (∃ i ∈ Audit cfg [d], i.Type_ = "missing_license") ↔
      issuesOfType "missing_license" (Audit cfg [d]) ≠ [] := by
    unfold issuesOfType
    rw [Ne, List.filter_eq_nil_iff]
    simp
  have hcond : (d.LicenseType == "UNKNOWN" && d.LicenseText == "") = true ↔
      (d.LicenseType = "UNKNOWN" ∧ d.LicenseText = "") := by simp
  refine ⟨?_, ?_, ?_⟩
  · rw [hmem, missing_of_single]
    by_cases h : d.LicenseType = "UNKNOWN" ∧ d.LicenseText = ""
    · simp [h]
    · have h2 : ¬ ((d.LicenseType == "UNKNOWN" && d.LicenseText == "") = true) :=
        fun hc => h (hcond.1 hc)
      simp only [h2, if_false, h]
      simp
  · rw [missing_of_single]
    by_cases h : d.LicenseType = "UNKNOWN" ∧ d.LicenseText = ""
    · rw [if_pos (hcond.2 h), if_pos h]; rfl
    · rw [if_neg (fun hc => h (hcond.1 hc)), if_neg h]; rfl
  · intro h
    rw [missing_of_single]
    have h2 : ¬ (d.LicenseType = "UNKNOWN" ∧ d.LicenseText = "") := by
      rintro ⟨ht, hx⟩
      rcases h with h | h | h
      · rw [ht] at h; exact absurd h (by decide)
      · rw [ht] at h; exact absurd h (by decide)
      · exact h hx
    rw [if_neg (fun hc => h2 (hcond.1 hc))]

/-- C7: a single dependency gets exactly one `unclear_license` issue, with
severity `warning`, when its license type equals some entry of
`UnclearLicenses` ignoring letter case, and none otherwise; the empty type is
unclear only when the empty string is listed; with the list
`UNKNOWN, PROPRIETARY, COMMERCIAL` the type `unknown` is unclear and the empty
type is not. -/
theorem unclear_iff_listed_ignoring_case (cfg : Config) (d : Dependency) :
    ((∃ e ∈ cfg.UnclearLicenses, ToUpper e = ToUpper d.LicenseType) →
      ∃ i, issuesOfType "unclear_license" (Audit cfg [d]) = [i] ∧ i.Severity = "warning") ∧
    ((¬ ∃ e ∈ cfg.UnclearLicenses, ToUpper e = ToUpper d.LicenseType) →
      issuesOfType "unclear_license" (Audit cfg [d]) = []) ∧
    (isUnclearLicense cfg "" = true ↔ "" ∈ cfg.UnclearLicenses) ∧
    isUnclearLicense (listsConfig [] ["UNKNOWN", "PROPRIETARY", "COMMERCIAL"]) "unknown" = true ∧
    isUnclearLicense (listsConfig [] ["UNKNOWN", "PROPRIETARY", "COMMERCIAL"]) "" = false := by
  refine ⟨?_, ?_, ?_, by decide, by decide⟩
  · intro h
    refine ⟨unclearIssue d, ?_, rfl⟩
    rw [unclear_of_single, (isUnclearLicense_iff cfg d.LicenseType).2 h]
    rfl
  · intro h
    have h2 : isUnclearLicense cfg d.LicenseType = false := by
      cases hb : isUnclearLicense cfg d.LicenseType
      · rfl
      · exact absurd ((isUnclearLicense_iff cfg d.LicenseType).1 hb) h
    rw [unclear_of_single, h2]
    rfl
  · rw [isUnclearLicense_iff]
    constructor
    · rintro ⟨e, he, heq⟩
      have h0 : ToUpper "" = "" := rfl
      rw [h0, ToUpper_eq_empty] at heq
      rw [← heq]; exact he
    · intro h
      exact ⟨"", h, rfl⟩

/-- C8: whatever the configuration, a single dependency whose license type is
empty or exactly `UNKNOWN` gets no `dangerous_license` issue. -/
theorem empty_or_unknown_never_dangerous (cfg : Config) (d : Dependency)
    (h : d.LicenseType = "" ∨ d.LicenseType = "UNKNOWN") :
    issuesOfType "dangerous_license" (Audit cfg [d]) = [] := by
  have h2 : isDangerousLicense cfg d.LicenseType = false := by
    rcases h with h | h <;> simp [isDangerousLicense, h]
  rw [dangerous_of_single, h2]
  rfl

/-- Witness for C8: both sentinels are configured as dangerous. -/
theorem empty_or_unknown_never_dangerous_witness :
    issuesOfType "dangerous_license"
      (Audit (listsConfig ["", "UNKNOWN"] []) [licensed "UNKNOWN" "some text"]) = [] :=
  empty_or_unknown_never_dangerous (listsConfig ["", "UNKNOWN"] [])
    (licensed "UNKNOWN" "some text") (Or.inr rfl)

/-- C9: a single dependency with license type `MIT` gets no
`dangerous_license`, `unclear_license` or `missing_license` issue, whatever its
license text, under the default configuration and under every configuration
whose two lists have no entry equal to `MIT` ignoring letter case. -/
theorem mit_is_clean (cfg : Config) (d : Dependency) (ht : d.LicenseType = "MIT")
    (hcfg : cfg = config.getDefaultConfig ∨
      ((∀ e ∈ cfg.DangerousLicenses, ToUpper e ≠ ToUpper "MIT") ∧
        (∀ e ∈ cfg.UnclearLicenses, ToUpper e ≠ ToUpper "MIT"))) :
    issuesOfType "dangerous_license" (Audit cfg [d]) = [] ∧
    issuesOfType "unclear_license" (Audit cfg [d]) = [] ∧
    issuesOfType "missing_license" (Audit cfg [d]) = [] := by
  have hlists : (∀ e ∈ cfg.DangerousLicenses, ToUpper e ≠ ToUpper "MIT") ∧
      (∀ e ∈ cfg.UnclearLicenses, ToUpper e ≠ ToUpper "MIT") := by
    rcases hcfg with h | h
    · subst h
      constructor <;> decide
    · exact h
  have h1 : isDangerousLicense cfg d.LicenseType = false := by
    cases hb : isDangerousLicense cfg d.LicenseType
    · rfl
    · obtain ⟨_, _, e, he, heq⟩ := (isDangerousLicense_iff cfg d.LicenseType).1 hb
      rw [ht] at heq
      exact absurd heq (hlists.1 e he)
  have h2 : isUnclearLicense cfg d.LicenseType = false := by
    cases hb : isUnclearLicense cfg d.LicenseType
    · rfl
    · obtain ⟨e, he, heq⟩ := (isUnclearLicense_iff cfg d.LicenseType).1 hb
      rw [ht] at heq
      exact absurd heq (hlists.2 e he)
  have h3 : (d.LicenseType == "UNKNOWN" && d.LicenseText == "") = false := by
    rw [ht]; simp
  refine ⟨?_, ?_, ?_⟩
  · rw [dangerous_of_single, h1]; rfl
  · rw [unclear_of_single, h2]; rfl
  · rw [missing_of_single, h3]; rfl

/-- Witness for C9: the `MIT` dependency under the default configuration. -/
theorem mit_is_clean_witness :
    issuesOfType "dangerous_license"
      (Audit config.getDefaultConfig [licensed "MIT" "MIT License standard text"]) = [] ∧
    issuesOfType "unclear_license"
      (Audit config.getDefaultConfig [licensed "MIT" "MIT License standard text"]) = [] ∧
    issuesOfType "missing_license"
      (Audit config.getDefaultConfig [licensed "MIT" "MIT License standard text"]) = [] :=
  mit_is_clean config.getDefaultConfig (licensed "MIT" "MIT License standard text") rfl
    (Or.inl rfl)

/-- C10: the output of `Audit` follows the input order and then the rule
order: `Audit (xs ++ ys) = Audit xs ++ Audit ys`; for one dependency the issue
types form a sublist of dangerous, unclear, tainted, missing (so there are at
most four issues) and every issue carries that dependency. -/
theorem audit_order (cfg : Config) (xs ys : List Dependency) (d : Dependency) :
    Audit cfg (xs ++ ys) = Audit cfg xs ++ Audit cfg ys ∧
    ((Audit cfg [d]).map (fun i => i.Type_)).Sublist
      ["dangerous_license", "unclear_license", "tainted_license", "missing_license"] ∧
    (Audit cfg [d]).length ≤ 4 ∧
    ∀ i ∈ Audit cfg [d], i.Dependency = d := by
  refine ⟨Audit_concat cfg xs ys, ?_, ?_, ?_⟩
  · rw [Audit_single, auditDep_eq]
    cases isDangerousLicense cfg d.LicenseType <;>
    cases isUnclearLicense cfg d.LicenseType <;>
    cases isPotentiallyTaintedLicense d <;>
    cases (d.LicenseType == "UNKNOWN" && d.LicenseText == "") <;>
    simp [dangerousIssue, unclearIssue, taintedIssue, missingIssue]
  · rw [Audit_single, auditDep_eq]
    cases isDangerousLicense cfg d.LicenseType <;>
    cases isUnclearLicense cfg d.LicenseType <;>
    cases isPotentiallyTaintedLicense d <;>
    cases (d.LicenseType == "UNKNOWN" && d.LicenseText == "") <;>
    simp
  · rw [Audit_single, auditDep_eq]
    cases isDangerousLicense cfg d.LicenseType <;>
    cases isUnclearLicense cfg d.LicenseType <;>
    cases isPotentiallyTaintedLicense d <;>
    cases (d.LicenseType == "UNKNOWN" && d.LicenseText == "") <;>
    simp [dangerousIssue, unclearIssue, taintedIssue, missingIssue]

end audit

/-! ## Theorems: counters -/

namespace gomap

theorem lookup_incr (m : Counts) (k k' : String) :
    (incr m k').lookup k = if k = k' then some (get m k' + 1) else m.lookup k := by
  induction m with
  | nil =>
    by_cases h : k = k'
    · subst h; simp [incr, get, List.lookup]
    · have h2 : (k == k') = false := by simpa using h
      simp [incr, List.lookup, h, h2]
  | cons a rest ih =>
    obtain ⟨a1, a2⟩ := a
    unfold incr
    by_cases h1 : a1 = k'
    · subst h1
      rw [if_pos rfl]
      by_cases h : k = a1
      · subst h; simp [get, List.lookup]
      · have h2 : (k == a1) = false := by simpa using h
        simp [List.lookup, h, h2]
    · rw [if_neg h1]
      by_cases h : k = a1
      · subst h
        have h3 : ¬ k = k' := h1
        simp [List.lookup, h3]
      · have h2 : (k == a1) = false := by simpa using h
        simp only [List.lookup, h2, ih]
        by_cases h4 : k = k'
        · subst h4
          have h5 : (k == a1) = false := h2
          simp [get, List.lookup, h5]
        · simp [h4]

theorem get_incr (m : Counts) (k k' : String) :
    get (incr m k') k = get m k + (if k = k' then 1 else 0) := by
  unfold get
  rw [lookup_incr]
  by_cases h : k = k'
  · subst h; simp [get]
  · simp [h]

theorem sum_incr (m : Counts) (k : String) :
    ((incr m k).map Prod.snd).sum = (m.map Prod.snd).sum + 1 := by
  induction m with
  | nil => simp [incr]
  | cons a rest ih =>
    obtain ⟨a1, a2⟩ := a
    unfold incr
    by_cases h1 : a1 = k
    · rw [if_pos h1]; simp; omega
    · rw [if_neg h1]; simp [ih]; omega

theorem positive_nil : Positive [] := by
  intro k n h; simp at h

theorem positive_incr (m : Counts) (k : String) (h : Positive m) : Positive (incr m k) := by
  intro k1 n hn
  rw [lookup_incr] at hn
  by_cases hk : k1 = k
  · rw [if_pos hk] at hn
    have := Option.some.inj hn
    omega
  · rw [if_neg hk] at hn
    exact h k1 n hn

theorem lookup_of_positive (m : Counts) (h : Positive m) (k : String) :
    m.lookup k = if get m k = 0 then none else some (get m k) := by
  unfold get
  cases hl : m.lookup k with
  | none => simp
  | some n =>
    have := h k n hl
    have h2 : n ≠ 0 := by omega
    simp [h2]

end gomap

/-! ## Theorems: the issue breakdown -/

namespace audit
open types strings gomap

/-- The loop body of `GetIssueBreakdown`. -/
theorem breakdown_fold_get (issues : List AuditIssue) (b : Counts) (k : String) :
    get (issues.foldl
      (fun breakdown issue =>
        let key := issue.Severity ++ "_" ++ issue.Type_
        let breakdown := gomap.incr breakdown key
        let breakdown := gomap.incr breakdown issue.Severity
        gomap.incr breakdown issue.Type_) b) k =
      get b k + (issues.countP (fun i => i.Severity ++ "_" ++ i.Type_ == k) +
        issues.countP (fun i => i.Severity == k) + issues.countP (fun i => i.Type_ == k)) := by
  induction issues generalizing b with
  | nil => simp
  | cons i rest ih =>
    rw [List.foldl_cons, ih]
    simp only [get_incr, List.countP_cons]
    have e1 : (k = i.Severity ++ "_" ++ i.Type_) ↔ ((i.Severity ++ "_" ++ i.Type_ == k) = true) := by
      rw [beq_iff_eq]; exact eq_comm
    have e2 : (k = i.Severity) ↔ ((i.Severity == k) = true) := by
      rw [beq_iff_eq]; exact eq_comm
    have e3 : (k = i.Type_) ↔ ((i.Type_ == k) = true) := by
      rw [beq_iff_eq]; exact eq_comm
    simp only [e1, e2, e3]
    omega

theorem breakdown_fold_positive (issues : List AuditIssue) (b : Counts) (hb : Positive b) :
    Positive (issues.foldl
      (fun breakdown issue =>
        let key := issue.Severity ++ "_" ++ issue.Type_
        let breakdown := gomap.incr breakdown key
        let breakdown := gomap.incr breakdown issue.Severity
        gomap.incr breakdown issue.Type_) b) := by
  induction issues generalizing b with
  | nil => exact hb
  | cons i rest ih =>
    rw [List.foldl_cons]
    exact ih _ (positive_incr _ _ (positive_incr _ _ (positive_incr _ _ hb)))

theorem breakdown_fold_sum (issues : List AuditIssue) (b : Counts) :
    ((issues.foldl
      (fun breakdown issue =>
        let key := issue.Severity ++ "_" ++ issue.Type_
        let breakdown := gomap.incr breakdown key
        let breakdown := gomap.incr breakdown issue.Severity
        gomap.incr breakdown issue.Type_) b).map Prod.snd).sum =
      (b.map Prod.snd).sum + 3 * issues.length := by
  induction issues generalizing b with
  | nil => simp
  | cons i rest ih =>
    rw [List.foldl_cons, ih]
    simp only [sum_incr, List.length_cons]
    omega

theorem get_GetIssueBreakdown (issues : List AuditIssue) (k : String) :
    get (GetIssueBreakdown issues) k =
      issues.countP (fun i => i.Severity ++ "_" ++ i.Type_ == k) +
        issues.countP (fun i => i.Severity == k) + issues.countP (fun i => i.Type_ == k) := by
  unfold GetIssueBreakdown
  rw [breakdown_fold_get]
  have h0 : gomap.get [] k = 0 := rfl
  omega

/-- The four severity and type pairs `Audit` produces. -/
theorem Audit_kinds (cfg : Config) (deps : List Dependency) :
    ∀ i ∈ Audit cfg deps,
      (i.Severity = "error" ∧ i.Type_ = "dangerous_license") ∨
      (i.Severity = "warning" ∧ i.Type_ = "unclear_license") ∨
      (i.Severity = "warning" ∧ i.Type_ = "tainted_license") ∨
      (i.Severity = "warning" ∧ i.Type_ = "missing_license") := by
  induction deps with
  | nil => intro i hi; simp [Audit] at hi
  | cons d ds ih =>
    intro i hi
    rw [Audit_cons, List.mem_append] at hi
    rcases hi with hi | hi
    · rw [auditDep_eq] at hi
      simp only [List.mem_append] at hi
      rcases hi with hi | hi | hi | hi
      · split at hi
        · simp at hi; subst hi; exact Or.inl ⟨rfl, rfl⟩
        · simp at hi
      · split at hi
        · simp at hi; subst hi; exact Or.inr (Or.inl ⟨rfl, rfl⟩)
        · simp at hi
      · split at hi
        · simp at hi; subst hi; exact Or.inr (Or.inr (Or.inl ⟨rfl, rfl⟩))
        · simp at hi
      · split at hi
        · simp at hi; subst hi; exact Or.inr (Or.inr (Or.inr ⟨rfl, rfl⟩))
        · simp at hi
    · exact ih i hi

theorem countP_eq_zero_of_forall {α : Type} (l : List α) (p : α → Bool)
    (h : ∀ x ∈ l, p x = false) : l.countP p = 0 := by
  rw [List.countP_eq_zero]
  intro x hx
  simp [h x hx]

/-- C11: `GetIssueBreakdown` counts every issue once under its composite key,
once under its severity and once under its type: the entry of a key is the sum
of the three counts, and a key whose sum is zero is absent. For the issues of
`Audit` the entries of `error`, `dangerous_license` and
`error_dangerous_license` are the numbers of error issues, of dangerous issues
and of issues that are both; the values sum to three times the number of
issues; and permuting the issues does not change any entry. -/
theorem issue_breakdown_counts (issues issues2 : List AuditIssue) (k : String)
    (cfg : Config) (deps : List Dependency) :
    (GetIssueBreakdown issues).lookup k =
      (if issues.countP (fun i => i.Severity ++ "_" ++ i.Type_ == k) +
          issues.countP (fun i => i.Severity == k) + issues.countP (fun i => i.Type_ == k) = 0
        then none
        else some (issues.countP (fun i => i.Severity ++ "_" ++ i.Type_ == k) +
          issues.countP (fun i => i.Severity == k) + issues.countP (fun i => i.Type_ == k))) ∧
    (get (GetIssueBreakdown (Audit cfg deps)) "error" =
        (Audit cfg deps).countP (fun i => i.Severity == "error") ∧
      get (GetIssueBreakdown (Audit cfg deps)) "dangerous_license" =
        (Audit cfg deps).countP (fun i => i.Type_ == "dangerous_license") ∧
      get (GetIssueBreakdown (Audit cfg deps)) "error_dangerous_license" =
        (Audit cfg deps).countP
          (fun i => i.Severity == "error" && i.Type_ == "dangerous_license")) ∧
    ((GetIssueBreakdown issues).map Prod.snd).sum = 3 * issues.length ∧
    (issues.Perm issues2 →
      (GetIssueBreakdown issues).lookup k = (GetIssueBreakdown issues2).lookup k) := by
  have hlook : ∀ l : List AuditIssue, (GetIssueBreakdown l).lookup k =
      (if l.countP (fun i => i.Severity ++ "_" ++ i.Type_ == k) +
          l.countP (fun i => i.Severity == k) + l.countP (fun i => i.Type_ == k) = 0
        then none
        else some (l.countP (fun i => i.Severity ++ "_" ++ i.Type_ == k) +
          l.countP (fun i => i.Severity == k) + l.countP (fun i => i.Type_ == k))) := by
    intro l
    have hp : Positive (GetIssueBreakdown l) := breakdown_fold_positive l [] positive_nil
    rw [lookup_of_positive _ hp k, get_GetIssueBreakdown]
  refine ⟨hlook issues, ⟨?_, ?_, ?_⟩, ?_, ?_⟩
  · rw [get_GetIssueBreakdown]
    have h1 : (Audit cfg deps).countP (fun i => i.Severity ++ "_" ++ i.Type_ == "error") = 0 := by
      apply countP_eq_zero_of_forall
      intro i hi
      rcases Audit_kinds cfg deps i hi with ⟨h, h'⟩ | ⟨h, h'⟩ | ⟨h, h'⟩ | ⟨h, h'⟩ <;>
        rw [h, h'] <;> decide
    have h2 : (Audit cfg deps).countP (fun i => i.Type_ == "error") = 0 := by
      apply countP_eq_zero_of_forall
      intro i hi
      rcases Audit_kinds cfg deps i hi with ⟨h, h'⟩ | ⟨h, h'⟩ | ⟨h, h'⟩ | ⟨h, h'⟩ <;>
        rw [h'] <;> decide
    omega
  · rw [get_GetIssueBreakdown]
    have h1 : (Audit cfg deps).countP
        (fun i => i.Severity ++ "_" ++ i.Type_ == "dangerous_license") = 0 := by
      apply countP_eq_zero_of_forall
      intro i hi
      rcases Audit_kinds cfg deps i hi with ⟨h, h'⟩ | ⟨h, h'⟩ | ⟨h, h'⟩ | ⟨h, h'⟩ <;>
        rw [h, h'] <;> decide
    have h2 : (Audit cfg deps).countP (fun i => i.Severity == "dangerous_license") = 0 := by
      apply countP_eq_zero_of_forall
      intro i hi
      rcases Audit_kinds cfg deps i hi with ⟨h, h'⟩ | ⟨h, h'⟩ | ⟨h, h'⟩ | ⟨h, h'⟩ <;>
        rw [h] <;> decide
    omega
  · rw [get_GetIssueBreakdown]
    have h1 : (Audit cfg deps).countP (fun i => i.Severity == "error_dangerous_license") = 0 := by
      apply countP_eq_zero_of_forall
      intro i hi
      rcases Audit_kinds cfg deps i hi with ⟨h, h'⟩ | ⟨h, h'⟩ | ⟨h, h'⟩ | ⟨h, h'⟩ <;>
        rw [h] <;> decide
    have h2 : (Audit cfg deps).countP (fun i => i.Type_ == "error_dangerous_license") = 0 := by
      apply countP_eq_zero_of_forall
      intro i hi
      rcases Audit_kinds cfg deps i hi with ⟨h, h'⟩ | ⟨h, h'⟩ | ⟨h, h'⟩ | ⟨h, h'⟩ <;>
        rw [h'] <;> decide
    have h3 : (Audit cfg deps).countP
          (fun i => i.Severity ++ "_" ++ i.Type_ == "error_dangerous_license") =
        (Audit cfg deps).countP
          (fun i => i.Severity == "error" && i.Type_ == "dangerous_license") := by
      apply List.countP_congr
      intro i hi
      rcases Audit_kinds cfg deps i hi with ⟨h, h'⟩ | ⟨h, h'⟩ | ⟨h, h'⟩ | ⟨h, h'⟩ <;>
        rw [h, h'] <;> decide
    omega
  · unfold GetIssueBreakdown
    rw [breakdown_fold_sum]
    simp
  · intro hperm
    rw [hlook issues, hlook issues2, hperm.countP_eq, hperm.countP_eq, hperm.countP_eq]

end audit

/-! ## Theorems: the ignore matcher on files -/

namespace ignore
open strings

/-- `matchPattern` asks the file system about the visited entry only. -/
theorem ShouldIgnore_oracle (statIsDir : String → String → Bool) (m : Matcher)
    (path name : String) :
    ShouldIgnore statIsDir m path name =
      ShouldIgnore (fun _ _ => statIsDir path name) m path name := rfl

/-- C12: for the matcher parsed from the lines of `TestShouldIgnore`,
`ShouldIgnore "./" name` is true for `node_modules`, `test.tmp` and
`test-file` and false for `package.json`, `test-important` and
`important-test`, whatever the file system says about these entries. -/
theorem test_ignore_file_verdicts (statIsDir : String → String → Bool) :
    ∃ m, NewMatcher
        (fun _ => FileState.lines
          ["# Test ignore file", "node_modules/", "*.tmp", "test-*", "!test-important"] false)
        "test.licignore" = (some m, false) ∧
      m.patterns =
        [{ pattern := "node_modules", negate := false, isDir := true },
         { pattern := "*.tmp", negate := false, isDir := false },
         { pattern := "test-*", negate := false, isDir := false },
         { pattern := "test-important", negate := true, isDir := false }] ∧
      ShouldIgnore statIsDir m "./" "node_modules" = true ∧
      ShouldIgnore statIsDir m "./" "test.tmp" = true ∧
      ShouldIgnore statIsDir m "./" "test-file" = true ∧
      ShouldIgnore statIsDir m "./" "package.json" = false ∧
      ShouldIgnore statIsDir m "./" "test-important" = false ∧
      ShouldIgnore statIsDir m "./" "important-test" = false := by
  refine ⟨{ patterns :=
      [{ pattern := "node_modules", negate := false, isDir := true },
       { pattern := "*.tmp", negate := false, isDir := false },
       { pattern := "test-*", negate := false, isDir := false },
       { pattern := "test-important", negate := true, isDir := false }] },
    by decide, rfl, ?_, ?_, ?_, ?_, ?_, ?_⟩
  · rw [ShouldIgnore_oracle]; cases statIsDir "./" "node_modules" <;> decide
  · rw [ShouldIgnore_oracle]; cases statIsDir "./" "test.tmp" <;> decide
  · rw [ShouldIgnore_oracle]; cases statIsDir "./" "test-file" <;> decide
  · rw [ShouldIgnore_oracle]; cases statIsDir "./" "package.json" <;> decide
  · rw [ShouldIgnore_oracle]; cases statIsDir "./" "test-important" <;> decide
  · rw [ShouldIgnore_oracle]; cases statIsDir "./" "important-test" <;> decide

end ignore

namespace ignore
open strings

/-- C13 (as stated, refuted): the line `build/` gives a directory-flagged
pattern, and a regular file named `build` (the file system reports no
directory) is matched by it and ignored. -/
theorem dir_pattern_matches_regular_file :
    parseLine "build/" = some { pattern := "build", negate := false, isDir := true } ∧
    matchPattern (fun _ _ => false)
      { pattern := "build", negate := false, isDir := true } "." "build" = true ∧
    ShouldIgnore (fun _ _ => false)
      { patterns := [{ pattern := "build", negate := false, isDir := true }] } "." "build" =
        true := by
  decide

/-- C13 (amended): a directory-flagged pattern is not restricted to
directories. An entry whose target (its name, or its path for a pattern with a
`/`) glob-matches the pattern text is matched, directory or not; and for an
entry that is not a directory `matchPattern` answers as it does for the same
pattern without the flag. -/
theorem dir_flag_without_effect_on_files (statIsDir : String → String → Bool) (p : pattern)
    (path name : String) (hfile : statIsDir path name = false) :
    matchPattern statIsDir p path name =
      matchPattern statIsDir { p with isDir := false } path name ∧
    (filepath.Match p.pattern (if Contains p.pattern "/" then path else name) = some true →
      matchPattern statIsDir p path name = true) := by
  constructor
  · unfold matchPattern
    simp [hfile]
  · intro h
    unfold matchPattern
    simp [h]

/-- Witness for C13 (amended): the pattern of the line `build/` on a regular
file `build`. -/
theorem dir_flag_without_effect_on_files_witness :
    matchPattern (fun _ _ => false) { pattern := "build", negate := false, isDir := true }
        "." "build" =
      matchPattern (fun _ _ => false)
        { ({ pattern := "build", negate := false, isDir := true } : pattern) with
          isDir := false } "." "build" ∧
    (filepath.Match "build" (if Contains "build" "/" then "." else "build") = some true →
      matchPattern (fun _ _ => false) { pattern := "build", negate := false, isDir := true }
        "." "build" = true) :=
  dir_flag_without_effect_on_files (fun _ _ => false)
    { pattern := "build", negate := false, isDir := true } "." "build" rfl

theorem TrimSuffix_slash (r : String) (h : HasSuffix r "/" = true) :
    TrimSuffix r "/" = ⟨r.data.dropLast⟩ := by
  unfold TrimSuffix
  rw [if_pos h, List.dropLast_eq_take]
  rfl

theorem parseLine_eq (text : String) :
    parseLine text = if keptLine text then some (linePattern text) else none := by
  unfold parseLine keptLine linePattern lineRemainder
  by_cases h1 : (TrimSpace text == "") = true
  · simp [h1]
  · by_cases h2 : HasPrefix (TrimSpace text) "#" = true
    · simp [h2]
    · have h1' : (TrimSpace text == "") = false := by simpa using h1
      have h2' : HasPrefix (TrimSpace text) "#" = false := by simpa using h2
      simp only [h1', h2', Bool.or_self, Bool.false_eq_true, if_false, Bool.not_false,
        Bool.and_self, if_true]
      cases hn : HasPrefix (TrimSpace text) "!"
      · simp only [Bool.false_eq_true, if_false]
        cases hd : HasSuffix (TrimSpace text) "/"
        · simp only [Bool.false_eq_true, if_false]
        · simp only [if_true, TrimSuffix_slash _ hd]
      · simp only [if_true]
        cases hd : HasSuffix ({ data := List.drop 1 (TrimSpace text).data } : String) "/"
        · simp only [Bool.false_eq_true, if_false]
        · simp only [if_true, TrimSuffix_slash _ hd]

theorem foldl_parseLine (ls : List String) (acc : List pattern) :
    ls.foldl
      (fun (patterns : List pattern) text =>
        match parseLine text with
        | none => patterns
        | some p => patterns ++ [p]) acc =
      acc ++ (ls.filter keptLine).map linePattern := by
  induction ls generalizing acc with
  | nil => simp
  | cons l rest ih =>
    rw [List.foldl_cons, ih, parseLine_eq]
    cases hk : keptLine l <;> simp [hk]

/-- C15: parsing keeps the order of the file and drops only blank and comment
lines: the pattern list is, in order, one pattern for every line the scanner
yields that after trimming is non-empty and does not start with `#`; the
pattern has `negate` exactly when the trimmed line starts with `!`, `isDir`
exactly when the remainder ends with `/`, and its glob text is the trimmed
line without that one `!` and that one `/`. -/
theorem newMatcher_patterns (fs : String → FileState) (ignoreFile : String)
    (ls : List String) (scanErr : Bool)
    (hfile : fs (if ignoreFile == "" then ".licignore" else ignoreFile) =
      FileState.lines ls scanErr) :
    NewMatcher fs ignoreFile =
      (some { patterns := (ls.filter keptLine).map linePattern }, scanErr) ∧
    (∀ text, keptLine text = true ↔
      (TrimSpace text ≠ "" ∧ HasPrefix (TrimSpace text) "#" = false)) ∧
    (∀ text, (linePattern text).negate = HasPrefix (TrimSpace text) "!" ∧
      (lineRemainder text).data =
        (if HasPrefix (TrimSpace text) "!" then (TrimSpace text).data.drop 1
         else (TrimSpace text).data) ∧
      (linePattern text).isDir = HasSuffix (lineRemainder text) "/" ∧
      (linePattern text).pattern.data =
        (if HasSuffix (lineRemainder text) "/" then (lineRemainder text).data.dropLast
         else (lineRemainder text).data)) := by
  refine ⟨?_, ?_, ?_⟩
  · unfold NewMatcher
    simp only [hfile]
    rw [foldl_parseLine]
    simp
  · intro text
    unfold keptLine
    simp
  · intro text
    refine ⟨rfl, ?_, rfl, ?_⟩
    · unfold lineRemainder
      cases HasPrefix (TrimSpace text) "!" <;> rfl
    · unfold linePattern
      cases HasSuffix (lineRemainder text) "/" <;> rfl

/-- Witness for C15: a file with a comment, a blank line, a negated pattern
and a directory pattern. -/
theorem newMatcher_patterns_witness :
    NewMatcher (fun _ => FileState.lines ["# comment", "", " !keep.tmp ", "vendor/"] false) "" =
      (some { patterns :=
        [{ pattern := "keep.tmp", negate := true, isDir := false },
         { pattern := "vendor", negate := false, isDir := true }] }, false) :=
  (newMatcher_patterns
    (fun _ => FileState.lines ["# comment", "", " !keep.tmp ", "vendor/"] false)
    "" ["# comment", "", " !keep.tmp ", "vendor/"] false rfl).1.trans (by decide)

end ignore

namespace ignore
open strings

/-- C14 (the code at the failing input): the pattern `docs/readme.md` contains
a `/` and glob-matches the relative path `docs/readme.md`, yet
`ShouldIgnore (Dir r) (Base r)` is false, because the pattern is compared with
the directory `docs` and not with the full path. -/
theorem slash_pattern_compared_with_directory (statIsDir : String → String → Bool) :
    parseLine "docs/readme.md" =
      some { pattern := "docs/readme.md", negate := false, isDir := false } ∧
    filepath.Match "docs/readme.md" "docs/readme.md" = some true ∧
    filepath.Dir "docs/readme.md" = "docs" ∧ filepath.Base "docs/readme.md" = "readme.md" ∧
    ShouldIgnore statIsDir
      { patterns := [{ pattern := "docs/readme.md", negate := false, isDir := false }] }
      (filepath.Dir "docs/readme.md") (filepath.Base "docs/readme.md") = false := by
  refine ⟨by decide, by decide, by decide, by decide, ?_⟩
  rw [ShouldIgnore_oracle]
  cases statIsDir (filepath.Dir "docs/readme.md") (filepath.Base "docs/readme.md") <;> decide

end ignore

/-! ## Theorems: the scan orchestrator -/

namespace scanner

open types

theorem scanFile_eq (scanners : List PackageScanner) (path : String) (deps : List Dependency) :
    scanFile scanners path deps = deps ++ fileRecords scanners path := by
  unfold scanFile fileRecords
  induction scanners generalizing deps with
  | nil => simp
  | cons sc rest ih =>
    rw [List.foldl_cons, ih]
    by_cases hd : sc.Detect path = true
    · simp only [hd, if_true, List.filter_cons_of_pos, List.flatMap_cons]
      cases sc.Scan path <;> simp
    · have hd2 : sc.Detect path = false := by simpa using hd
      simp [hd2]

mutual
theorem walkDir_readable (s : Scanner) (env : Env) (m : ignore.Matcher)
    (hm : s.matcher = some m) (path relPath : String) :
    ∀ (e : Entry) (result : ScanResult), readable e = true →
      walkDir s env path relPath e result =
        Except.ok { result with
          Dependencies := result.Dependencies ++
            (visitedFiles env m path relPath e).flatMap (fileRecords s.scanners) }
  | Entry.file name, result, _ => by
    unfold walkDir visit visitedFiles
    simp only [hm]
    by_cases hi : ignore.ShouldIgnore env.statIsDir m (filepath.Dir relPath) name = true
    · simp [hi]
    · simp [hi, scanFile_eq]
  | Entry.dir name readErr entries, result, hr => by
    unfold readable at hr
    simp only [Bool.and_eq_true, Bool.not_eq_true'] at hr
    unfold walkDir visit visitedFiles
    simp only [hm]
    by_cases hi : ignore.ShouldIgnore env.statIsDir m (filepath.Dir relPath) name = true
    · simp [hi]
    · simp only [hi, hr.1]
      simpa using walkEntries_readable s env m hm path relPath entries result hr.2
theorem walkEntries_readable (s : Scanner) (env : Env) (m : ignore.Matcher)
    (hm : s.matcher = some m) (path relPath : String) :
    ∀ (es : List Entry) (result : ScanResult), readableAll es = true →
      walkEntries s env path relPath es result =
        Except.ok { result with
          Dependencies := result.Dependencies ++
            (visitedIn env m path relPath es).flatMap (fileRecords s.scanners) }
  | [], result, _ => by
    unfold walkEntries visitedIn
    simp
  | e :: rest, result, hr => by
    unfold readableAll at hr
    simp only [Bool.and_eq_true] at hr
    unfold walkEntries visitedIn
    rw [walkDir_readable s env m hm _ _ e result hr.1]
    simp only
    rw [walkEntries_readable s env m hm path relPath rest _ hr.2]
    simp
end

end scanner

namespace gomap

theorem get_foldl_incr {α : Type} (f : α → String) (xs : List α) (m : Counts) (k : String) :
    get (xs.foldl (fun m x => incr m (f x)) m) k = get m k + xs.countP (fun x => f x == k) := by
  induction xs generalizing m with
  | nil => simp
  | cons x rest ih =>
    rw [List.foldl_cons, ih, get_incr, List.countP_cons]
    have e1 : (k = f x) ↔ ((f x == k) = true) := by
      rw [beq_iff_eq]; exact eq_comm
    simp only [e1]
    omega

theorem positive_foldl_incr {α : Type} (f : α → String) (xs : List α) (m : Counts)
    (hm : Positive m) : Positive (xs.foldl (fun m x => incr m (f x)) m) := by
  induction xs generalizing m with
  | nil => exact hm
  | cons x rest ih =>
    rw [List.foldl_cons]
    exact ih _ (positive_incr _ _ hm)

theorem sum_foldl_incr {α : Type} (f : α → String) (xs : List α) (m : Counts) :
    ((xs.foldl (fun m x => incr m (f x)) m).map Prod.snd).sum =
      (m.map Prod.snd).sum + xs.length := by
  induction xs generalizing m with
  | nil => simp
  | cons x rest ih =>
    rw [List.foldl_cons, ih, sum_incr, List.length_cons]
    omega

/-- The entries of a histogram built from the empty map. -/
theorem lookup_histogram {α : Type} (f : α → String) (xs : List α) (k : String) :
    (xs.foldl (fun m x => incr m (f x)) []).lookup k =
      if xs.countP (fun x => f x == k) = 0 then none
      else some (xs.countP (fun x => f x == k)) := by
  rw [lookup_of_positive _ (positive_foldl_incr f xs [] positive_nil) k, get_foldl_incr]
  have h0 : get [] k = 0 := rfl
  rw [h0, Nat.zero_add]

end gomap

namespace scanner

open types gomap

/-- The license key `calculateSummary` counts a dependency under. -/
theorem calculateSummary_eq (result : ScanResult) :
    calculateSummary result =
      { result with
        Summary :=
          { result.Summary with
            TotalDependencies := result.Dependencies.length
            LicenseBreakdown :=
              result.Dependencies.foldl (fun m d => incr m (licenseKey d))
                result.Summary.LicenseBreakdown
            PackageBreakdown :=
              result.Dependencies.foldl (fun m (d : Dependency) => incr m d.PackageType)
                result.Summary.PackageBreakdown } } := by
  unfold calculateSummary
  have h : ∀ (deps : List Dependency) (s0 : Summary),
      deps.foldl
        (fun (summary : Summary) dep =>
          let license := if dep.LicenseType == "" then "UNKNOWN" else dep.LicenseType
          { summary with
            LicenseBreakdown := gomap.incr summary.LicenseBreakdown license
            PackageBreakdown := gomap.incr summary.PackageBreakdown dep.PackageType }) s0 =
        { s0 with
          LicenseBreakdown := deps.foldl (fun m d => incr m (licenseKey d)) s0.LicenseBreakdown
          PackageBreakdown :=
            deps.foldl (fun m (d : Dependency) => incr m d.PackageType) s0.PackageBreakdown } := by
    intro deps
    induction deps with
    | nil => intro s0; rfl
    | cons d ds ih =>
      intro s0
      rw [List.foldl_cons, ih]
      rfl
  simp only [h]

theorem visit_summary (s : Scanner) (env : Env) (path relPath name : String) (isDir err : Bool)
    (result r : ScanResult) (h : visit s env path relPath name isDir err result = Except.ok r) :
    r.Summary = result.Summary := by
  unfold visit at h
  split at h
  · simp at h
  · split at h
    · simp at h
    · split at h
      · split at h
        · simp at h
        · simp at h; rw [← h]
      · split at h
        · simp at h; rw [← h]
        · simp at h; rw [← h]

mutual
theorem walkDir_summary (s : Scanner) (env : Env) (path relPath : String) :
    ∀ (e : Entry) (result r : ScanResult),
      walkDir s env path relPath e result = Except.ok r → r.Summary = result.Summary
  | Entry.file name, result, r, h => by
    unfold walkDir at h
    exact visit_summary s env path relPath name false false result r h
  | Entry.dir name readErr entries, result, r, h => by
    unfold walkDir at h
    split at h
    · simp at h; rw [← h]
    · simp at h
    · rename_i result1 h1
      have e1 := visit_summary s env path relPath name true false result result1 h1
      split at h
      · split at h
        · simp at h; rw [← h]; exact e1
        · simp at h
        · rename_i result2 h2
          have e2 := visit_summary s env path relPath name true true result1 result2 h2
          rw [walkEntries_summary s env path relPath entries result2 r h, e2, e1]
      · rw [walkEntries_summary s env path relPath entries result1 r h, e1]
theorem walkEntries_summary (s : Scanner) (env : Env) (path relPath : String) :
    ∀ (es : List Entry) (result r : ScanResult),
      walkEntries s env path relPath es result = Except.ok r → r.Summary = result.Summary
  | [], result, r, h => by
    unfold walkEntries at h
    simp at h; rw [← h]
  | e :: rest, result, r, h => by
    unfold walkEntries at h
    split at h
    · simp at h; rw [← h]
    · simp at h
    · rename_i result1 h1
      rw [walkEntries_summary s env path relPath rest result1 r h,
        walkDir_summary s env _ _ e result result1 h1]
end

theorem scanPath_summary (s : Scanner) (env : Env) (p : String) (result r : ScanResult)
    (h : scanPath s env p result = Except.ok r) : r.Summary = result.Summary := by
  unfold scanPath at h
  cases hl : env.lstat p with
  | none =>
    rw [hl] at h
    simp only [visit] at h
    simp at h
  | some root =>
    rw [hl] at h
    simp only at h
    cases hw : walkDir s env p "." root result with
    | error sig =>
      rw [hw] at h
      cases sig <;> simp at h
      rw [← h]
    | ok r1 =>
      rw [hw] at h
      simp at h
      rw [← h]
      exact walkDir_summary s env p "." root result r1 hw

theorem scanPaths_summary (s : Scanner) (env : Env) (ps : List String) :
    ∀ (result r : ScanResult), scanPaths s env ps result = Except.ok r →
      r.Summary = result.Summary := by
  induction ps with
  | nil =>
    intro result r h
    unfold scanPaths at h
    simp at h; rw [← h]
  | cons p rest ih =>
    intro result r h
    unfold scanPaths at h
    split at h
    · simp at h
    · rename_i result1 h1
      rw [ih result1 r h, scanPath_summary s env p _ result1 h1]

end scanner

namespace scanner

open types gomap

theorem scanPath_readable (s : Scanner) (env : Env) (m : ignore.Matcher)
    (hm : s.matcher = some m) (p : String) (result : ScanResult) (root : Entry)
    (hl : env.lstat p = some root) (hr : readable root = true) :
    scanPath s env p result =
      Except.ok { result with
        Dependencies := result.Dependencies ++
          (rootFiles env m p).flatMap (fileRecords s.scanners) } := by
  unfold scanPath rootFiles
  rw [hl]
  simp only
  rw [walkDir_readable s env m hm p "." root result hr]

theorem scanPaths_readable (s : Scanner) (env : Env) (m : ignore.Matcher)
    (hm : s.matcher = some m) (ps : List String) :
    ∀ (result : ScanResult),
      (∀ p ∈ ps, ∃ root, env.lstat p = some root ∧ readable root = true) →
      ∃ r, scanPaths s env ps result = Except.ok r ∧
        r.Dependencies = result.Dependencies ++
          ps.flatMap (fun p => (rootFiles env m p).flatMap (fileRecords s.scanners)) := by
  induction ps with
  | nil =>
    intro result _
    exact ⟨result, rfl, by simp⟩
  | cons p rest ih =>
    intro result h
    obtain ⟨root, hl, hr⟩ := h p (List.mem_cons_self _ _)
    unfold scanPaths
    rw [scanPath_readable s env m hm p _ root hl hr]
    simp only
    obtain ⟨r, hr1, hr2⟩ := ih
      ({ result with
          ScanPath := p
          Dependencies := result.Dependencies ++
            (rootFiles env m p).flatMap (fileRecords s.scanners) })
      (fun q hq => h q (List.mem_cons_of_mem _ hq))
    refine ⟨r, hr1, ?_⟩
    rw [hr2]
    simp

/-- C16: parser failures are isolated. For a visited file the loop over the
parsers appends exactly the records of the registered parsers, in registration
order, that accept the path and whose `Scan` succeeds, with `FilePath`
overwritten by the visited path; a parser that fails contributes nothing and
the callback still returns no error. When the matcher is loaded and every scan
root can be read, `Scan` returns a result, whatever the parsers return, and
its dependencies are the records of all visited files in walk order, after the
override pass. -/
theorem parser_failures_isolated (s : Scanner) (env : Env) (m : ignore.Matcher)
    (hm : s.matcher = some m)
    (hroots : ∀ p ∈ s.config.ScanPaths, ∃ root, env.lstat p = some root ∧ readable root = true) :
    (∀ path deps, scanFile s.scanners path deps = deps ++ fileRecords s.scanners path) ∧
    (∀ path relPath name result,
      ignore.ShouldIgnore env.statIsDir m (filepath.Dir relPath) name = false →
      visit s env path relPath name false false result =
        Except.ok { result with
          Dependencies := result.Dependencies ++ fileRecords s.scanners path }) ∧
    (∀ sc ∈ s.scanners, ∀ path e, sc.Scan path = Except.error e →
      fileRecords [sc] path = []) ∧
    (∃ r, Scan s env = Except.ok r ∧
      r.Dependencies =
        applyLicenseOverrides s
          (s.config.ScanPaths.flatMap
            (fun p => (rootFiles env m p).flatMap (fileRecords s.scanners)))) := by
  refine ⟨fun path deps => scanFile_eq s.scanners path deps, ?_, ?_, ?_⟩
  · intro path relPath name result hi
    unfold visit
    simp [hm, hi, scanFile_eq]
  · intro sc _ path e he
    unfold fileRecords
    by_cases hd : sc.Detect path = true
    · simp [hd, he]
    · simp [hd]
  · obtain ⟨r, hr1, hr2⟩ := scanPaths_readable s env m hm s.config.ScanPaths
      { Timestamp := env.now
        ScanPath := ""
        Dependencies := []
        Issues := []
        Summary :=
          { TotalDependencies := 0, LicenseBreakdown := [], PackageBreakdown := [],
            IssueBreakdown := [] } } hroots
    unfold Scan
    simp only [hr1]
    refine ⟨_, rfl, ?_⟩
    rw [calculateSummary_eq]
    simp only [hr2, List.nil_append]

end scanner

namespace scanner

open types gomap

/-- Witness for C16: with a parser that fails on every file registered first,
the scan of `sampleTree` succeeds and returns the records of the second parser
for both `go.mod` files, stamped with the visited paths. -/
theorem parser_failures_isolated_witness :
    ∃ r, Scan sampleScanner sampleEnv = Except.ok r ∧
      r.Dependencies.map (fun d => (d.Name, d.FilePath)) =
        [("example.com/m", "go.mod"), ("example.com/m", "sub/go.mod")] := by
  obtain ⟨r, h1, h2⟩ :=
    (parser_failures_isolated sampleScanner sampleEnv { patterns := [] } rfl
      (fun _ _ => ⟨sampleTree, rfl, by decide⟩)).2.2.2
  exact ⟨r, h1, by rw [h2]; decide⟩

/-- C17: `applyLicenseOverrides` changes license types only. The result pairs
off with the input in order (so it has the same length); in every pair all
fields but `LicenseType` agree, and `LicenseType` is the override of the name
when the name is a key of the override map and is unchanged otherwise; and
applying the pass twice gives what applying it once gives. -/
theorem overrides_change_license_only (s : Scanner) (deps : List Dependency) :
    List.Forall₂
      (fun (d d2 : Dependency) =>
        d2.Name = d.Name ∧ d2.Version = d.Version ∧ d2.LicenseText = d.LicenseText ∧
        d2.Repository = d.Repository ∧ d2.Homepage = d.Homepage ∧
        d2.LicenseURL = d.LicenseURL ∧ d2.PackageType = d.PackageType ∧
        d2.FilePath = d.FilePath ∧
        d2.LicenseType = (s.config.LicenseOverrides.lookup d.Name).getD d.LicenseType)
      deps (applyLicenseOverrides s deps) ∧
    (applyLicenseOverrides s deps).length = deps.length ∧
    applyLicenseOverrides s (applyLicenseOverrides s deps) = applyLicenseOverrides s deps := by
  refine ⟨?_, ?_, ?_⟩
  · unfold applyLicenseOverrides
    induction deps with
    | nil => exact List.Forall₂.nil
    | cons d ds ih =>
      rw [List.map_cons]
      refine List.Forall₂.cons ?_ ih
      cases hl : s.config.LicenseOverrides.lookup d.Name <;> simp
  · unfold applyLicenseOverrides
    simp
  · unfold applyLicenseOverrides
    rw [List.map_map]
    apply List.map_congr_left
    intro d _
    simp only [Function.comp]
    cases hl : s.config.LicenseOverrides.lookup d.Name with
    | none => simp [hl]
    | some l => simp [hl]

/-- C18: on a result with fresh maps `calculateSummary` computes exact
histograms. `TotalDependencies` is the number of dependencies; the license
histogram has, for every key, the number of dependencies counted under it,
the empty license type being counted under `UNKNOWN`, so that the empty key
is absent; the package histogram has the number of dependencies of each
package type; the values of each histogram sum to the total; permuting the
dependencies changes no entry. In `Scan` the summary is the one of the
dependencies after the override pass. -/
theorem summary_histograms (result result2 : ScanResult) (l t : String)
    (hfresh : result.Summary.LicenseBreakdown = [] ∧ result.Summary.PackageBreakdown = [])
    (hfresh2 : result2.Summary.LicenseBreakdown = [] ∧ result2.Summary.PackageBreakdown = []) :
    (calculateSummary result).Summary.TotalDependencies = result.Dependencies.length ∧
    (calculateSummary result).Summary.LicenseBreakdown.lookup l =
      (if result.Dependencies.countP (fun d => licenseKey d == l) = 0 then none
       else some (result.Dependencies.countP (fun d => licenseKey d == l))) ∧
    (calculateSummary result).Summary.LicenseBreakdown.lookup "" = none ∧
    get (calculateSummary result).Summary.LicenseBreakdown "UNKNOWN" =
      result.Dependencies.countP (fun d => d.LicenseType == "") +
        result.Dependencies.countP (fun d => d.LicenseType == "UNKNOWN") ∧
    (l ≠ "" → l ≠ "UNKNOWN" →
      get (calculateSummary result).Summary.LicenseBreakdown l =
        result.Dependencies.countP (fun d => d.LicenseType == l)) ∧
    (calculateSummary result).Summary.PackageBreakdown.lookup t =
      (if result.Dependencies.countP (fun d => d.PackageType == t) = 0 then none
       else some (result.Dependencies.countP (fun d => d.PackageType == t))) ∧
    (((calculateSummary result).Summary.LicenseBreakdown.map Prod.snd).sum =
        (calculateSummary result).Summary.TotalDependencies ∧
      ((calculateSummary result).Summary.PackageBreakdown.map Prod.snd).sum =
        (calculateSummary result).Summary.TotalDependencies) ∧
    (result.Dependencies.Perm result2.Dependencies →
      (calculateSummary result).Summary.LicenseBreakdown.lookup l =
        (calculateSummary result2).Summary.LicenseBreakdown.lookup l ∧
      (calculateSummary result).Summary.PackageBreakdown.lookup t =
        (calculateSummary result2).Summary.PackageBreakdown.lookup t) ∧
    (∀ (s : Scanner) (env : Env) (r : ScanResult), Scan s env = Except.ok r →
      (∃ walked, r.Dependencies = applyLicenseOverrides s walked) ∧
      r.Summary.TotalDependencies = r.Dependencies.length ∧
      r.Summary.LicenseBreakdown.lookup l =
        (if r.Dependencies.countP (fun d => licenseKey d == l) = 0 then none
         else some (r.Dependencies.countP (fun d => licenseKey d == l)))) := by
  have hL : ∀ (res : ScanResult), res.Summary.LicenseBreakdown = [] → ∀ k,
      (calculateSummary res).Summary.LicenseBreakdown.lookup k =
        (if res.Dependencies.countP (fun d => licenseKey d == k) = 0 then none
         else some (res.Dependencies.countP (fun d => licenseKey d == k))) := by
    intro res h k
    rw [calculateSummary_eq]
    simp only [h]
    exact lookup_histogram licenseKey res.Dependencies k
  have hP : ∀ (res : ScanResult), res.Summary.PackageBreakdown = [] → ∀ k,
      (calculateSummary res).Summary.PackageBreakdown.lookup k =
        (if res.Dependencies.countP (fun d => d.PackageType == k) = 0 then none
         else some (res.Dependencies.countP (fun d => d.PackageType == k))) := by
    intro res h k
    rw [calculateSummary_eq]
    simp only [h]
    exact lookup_histogram (fun (d : Dependency) => d.PackageType) res.Dependencies k
  have hG : ∀ k, get (calculateSummary result).Summary.LicenseBreakdown k =
      result.Dependencies.countP (fun d => licenseKey d == k) := by
    intro k
    rw [calculateSummary_eq]
    simp only [hfresh.1]
    rw [get_foldl_incr]
    have h0 : get [] k = 0 := rfl
    omega
  have hkey0 : ∀ (ds : List Dependency), ds.countP (fun d => licenseKey d == "") = 0 := by
    intro ds
    rw [List.countP_eq_zero]
    intro d _
    unfold licenseKey
    by_cases h : d.LicenseType = ""
    · simp [h]
    · simp [h]
  refine ⟨?_, hL result hfresh.1 l, ?_, ?_, ?_, hP result hfresh.2 t, ⟨?_, ?_⟩, ?_, ?_⟩
  · rw [calculateSummary_eq]
  · rw [hL result hfresh.1 "", hkey0]
    simp
  · rw [hG]
    induction result.Dependencies with
    | nil => simp
    | cons d ds ih =>
      simp only [List.countP_cons, ih]
      unfold licenseKey
      by_cases h1 : d.LicenseType = ""
      · simp [h1]; omega
      · by_cases h2 : d.LicenseType = "UNKNOWN"
        · simp [h2]; omega
        · simp [h1, h2]
  · intro h1 h2
    rw [hG]
    apply List.countP_congr
    intro d _
    unfold licenseKey
    by_cases h3 : d.LicenseType = ""
    · have h4 : ¬ ("" = l) := fun h => h1 h.symm
      have h5 : ¬ ("UNKNOWN" = l) := fun h => h2 h.symm
      simp [h3, h4, h5]
    · simp [h3]
  · rw [calculateSummary_eq]
    simp only [hfresh.1]
    rw [sum_foldl_incr]
    simp
  · rw [calculateSummary_eq]
    simp only [hfresh.2]
    rw [sum_foldl_incr]
    simp
  · intro hperm
    rw [hL result hfresh.1 l, hL result2 hfresh2.1 l, hP result hfresh.2 t,
      hP result2 hfresh2.2 t, hperm.countP_eq, hperm.countP_eq]
    exact ⟨rfl, rfl⟩
  · intro s env r hscan
    unfold Scan at hscan
    simp only at hscan
    cases h1 : scanPaths s env s.config.ScanPaths
        { Timestamp := env.now
          ScanPath := ""
          Dependencies := []
          Issues := []
          Summary :=
            { TotalDependencies := 0, LicenseBreakdown := [], PackageBreakdown := [],
              IssueBreakdown := [] } } with
    | error sig => rw [h1] at hscan; simp at hscan
    | ok result1 =>
      rw [h1] at hscan
      have hsum := scanPaths_summary s env _ _ result1 h1
      simp only [Except.ok.injEq] at hscan
      subst hscan
      refine ⟨⟨result1.Dependencies, by rw [calculateSummary_eq]⟩, by rw [calculateSummary_eq], ?_⟩
      have hfr : ({ result1 with
          Dependencies := applyLicenseOverrides s result1.Dependencies } :
            ScanResult).Summary.LicenseBreakdown = [] := by
        show result1.Summary.LicenseBreakdown = []
        rw [hsum]
      rw [hL _ hfr l]
      rw [calculateSummary_eq]

end scanner

namespace scanner

open types gomap

/-- Witness for C18: a dependency without license type and one of type
`UNKNOWN` are both counted under `UNKNOWN`, in either order. -/
theorem summary_histograms_witness :
    (calculateSummary
        (freshResult [audit.licensed "" "", audit.licensed "UNKNOWN" ""])).Summary.LicenseBreakdown.lookup
        "UNKNOWN" = some 2 ∧
    (calculateSummary
        (freshResult [audit.licensed "" "", audit.licensed "UNKNOWN" ""])).Summary.LicenseBreakdown.lookup
        "" = none :=
  ⟨(summary_histograms (freshResult [audit.licensed "" "", audit.licensed "UNKNOWN" ""])
      (freshResult [audit.licensed "UNKNOWN" "", audit.licensed "" ""]) "UNKNOWN" ""
      ⟨rfl, rfl⟩ ⟨rfl, rfl⟩).2.1.trans (by decide),
    (summary_histograms (freshResult [audit.licensed "" "", audit.licensed "UNKNOWN" ""])
      (freshResult [audit.licensed "UNKNOWN" "", audit.licensed "" ""]) "UNKNOWN" ""
      ⟨rfl, rfl⟩ ⟨rfl, rfl⟩).2.2.1⟩

end scanner

/-! ## Theorems: the parsers -/

namespace golang

open types

theorem new_goOnly (others : scanner.Parsers) (g : scanner.PackageScanner) :
    scanner.New (fun _ => ignore.FileState.notExist) { others with golang := g } goOnlyConfig =
      { config := goOnlyConfig, matcher := some { patterns := [] }, scanners := [g] } := rfl

/-- C19 (the code at the failing input): two runs of `Scan` over the same
files with the same configuration, which differ only in the order in which
the `range` loop of `detectLicenseType` visits its table (both orders are
permutations of the table), succeed and return different license types for
the same module and different license histograms. -/
theorem scan_depends_on_map_order (others : scanner.Parsers) :
    licensePatterns.reverse.Perm licensePatterns ∧
    (scanner.Scan
        (scanner.New (fun _ => ignore.FileState.notExist)
          { others with golang := NewScanner (vendoredEnv licensePatterns) } goOnlyConfig)
        vendoredRun).toOption.map
      (fun r => (r.Dependencies.map (fun d => (d.Name, d.Version, d.LicenseType)),
        r.Summary.LicenseBreakdown)) =
      some ([("example.com/m", "v1.0.0", "MIT")], [("MIT", 1)]) ∧
    (scanner.Scan
        (scanner.New (fun _ => ignore.FileState.notExist)
          { others with golang := NewScanner (vendoredEnv licensePatterns.reverse) }
          goOnlyConfig)
        vendoredRun).toOption.map
      (fun r => (r.Dependencies.map (fun d => (d.Name, d.Version, d.LicenseType)),
        r.Summary.LicenseBreakdown)) =
      some ([("example.com/m", "v1.0.0", "GPL-3.0")], [("GPL-3.0", 1)]) := by
  rw [new_goOnly, new_goOnly]
  exact ⟨List.reverse_perm _, by decide, by decide⟩

end golang

namespace nodejs

open types

/-- C20 (the code at the failing input): for a `package-lock.json` whose
`packages` map has the workspace key `packages/foo` without an explicit name,
and for a `package.json` whose `dependencies` map has the empty key, `Scan` of
the Node parser succeeds and returns a dependency whose `Name` is empty. -/
theorem node_scan_returns_empty_name :
    ((NewScanner workspaceEnv).Scan "package-lock.json").toOption.map
        (fun deps => deps.map (fun d => (d.Name, d.Version, d.LicenseType, d.PackageType))) =
      some [("", "1.0.0", "UNKNOWN", "npm")] ∧
    ((NewScanner workspaceEnv).Scan "package.json").toOption.map
        (fun deps => deps.map (fun d => (d.Name, d.Version, d.LicenseType, d.PackageType))) =
      some [("", "1.0.0", "UNKNOWN", "npm")] := by
  constructor <;> decide

end nodejs

/-! ## Theorems: the Node and Go parsers, continued -/

namespace nodejs

open types strings

/-- C30: `parseLicense` resolves the three shapes of the license field: a
non-empty string gives itself, an object whose `type` is a string gives that
string, an array whose first element is such an object gives that string; nil,
the empty string, a number, a boolean, an object without a string `type`, the
empty array and an array whose first element is not such an object give
`UNKNOWN`. -/
theorem parseLicense_shapes :
    (∀ s, s ≠ "" → parseLicense (JSON.str s) = s) ∧
    (∀ fields t, fields.lookup "type" = some (JSON.str t) →
      parseLicense (JSON.obj fields) = t) ∧
    (∀ fields t rest, fields.lookup "type" = some (JSON.str t) →
      parseLicense (JSON.arr (JSON.obj fields :: rest)) = t) ∧
    parseLicense JSON.null = "UNKNOWN" ∧
    parseLicense (JSON.str "") = "UNKNOWN" ∧
    (∀ n, parseLicense (JSON.number n) = "UNKNOWN") ∧
    (∀ b, parseLicense (JSON.bool b) = "UNKNOWN") ∧
    (∀ fields, (∀ t, fields.lookup "type" ≠ some (JSON.str t)) →
      parseLicense (JSON.obj fields) = "UNKNOWN") ∧
    parseLicense (JSON.arr []) = "UNKNOWN" ∧
    (∀ first rest,
      (∀ fields t, first = JSON.obj fields → fields.lookup "type" ≠ some (JSON.str t)) →
      parseLicense (JSON.arr (first :: rest)) = "UNKNOWN") := by
  have hts : ∀ fields t, fields.lookup "type" = some (JSON.str t) → typeString fields = some t := by
    intro fields t h
    unfold typeString
    rw [h]
  have htn : ∀ fields, (∀ t, fields.lookup "type" ≠ some (JSON.str t)) →
      typeString fields = none := by
    intro fields h
    unfold typeString
    cases hl : fields.lookup "type" with
    | none => rfl
    | some v =>
      cases v with
      | str t => exact absurd hl (h t)
      | null => rfl
      | bool b => rfl
      | number n => rfl
      | arr xs => rfl
      | obj kvs => rfl
  refine ⟨?_, ?_, ?_, rfl, rfl, fun _ => rfl, fun _ => rfl, ?_, rfl, ?_⟩
  · intro s hs
    unfold parseLicense
    simp [hs]
  · intro fields t h
    simp only [parseLicense, hts fields t h]
  · intro fields t rest h
    simp only [parseLicense, hts fields t h]
  · intro fields h
    simp only [parseLicense, htn fields h]
  · intro first rest h
    cases first with
    | obj fields =>
      simp only [parseLicense, htn fields (fun t => h fields t rfl)]
    | null => rfl
    | bool b => rfl
    | number n => rfl
    | str s => rfl
    | arr xs => rfl

theorem foldl_append_singleton {α β : Type} (f : α → β) (xs : List α) (acc : List β) :
    xs.foldl (fun acc x => acc ++ [f x]) acc = acc ++ xs.map f := by
  induction xs generalizing acc with
  | nil => simp
  | cons x rest ih => rw [List.foldl_cons, ih]; simp

theorem foldl_append_filtered {α β : Type} (p : α → Bool) (f : α → β) (xs : List α)
    (acc : List β) :
    xs.foldl (fun acc x => if p x then acc else acc ++ [f x]) acc =
      acc ++ (xs.filter (fun x => !p x)).map f := by
  induction xs generalizing acc with
  | nil => simp
  | cons x rest ih =>
    rw [List.foldl_cons, ih]
    cases hp : p x <;> simp [hp]

/-- C29: `scanPackageLock` prefers the modern map. When `packages` is not
empty the result has, in the order of the map, one dependency for every
non-empty key of `packages`, with the version and parsed license of the entry
and package type `npm`, and nothing from `dependencies`; when `packages` is
empty the result has one dependency for every entry of `dependencies`, with
its version and license type `UNKNOWN`. -/
theorem scanPackageLock_prefers_packages (env : NodeEnv) (path : String)
    (lockFile : PackageLockJSON) (hread : env.readPackageLock path = Except.ok lockFile) :
    (lockFile.Packages ≠ [] →
      scanPackageLock env path =
        Except.ok
          ((lockFile.Packages.filter (fun entry => !(entry.1 == ""))).map
            (fun entry =>
              { Name := lockPackageName entry.1 entry.2
                Version := entry.2.Version
                LicenseType := parseLicense entry.2.License
                LicenseText := ""
                Repository := ""
                Homepage := ""
                LicenseURL := ""
                PackageType := "npm"
                FilePath := path }))) ∧
    (lockFile.Packages = [] →
      scanPackageLock env path =
        Except.ok
          (lockFile.Dependencies.map
            (fun entry =>
              { Name := entry.1
                Version := entry.2.Version
                LicenseType := "UNKNOWN"
                LicenseText := ""
                Repository := ""
                Homepage := ""
                LicenseURL := ""
                PackageType := "npm"
                FilePath := path }))) := by
  constructor
  · intro hne
    unfold scanPackageLock
    rw [hread]
    have hlen : lockFile.Packages.length > 0 := List.length_pos.2 hne
    simp only [hlen, decide_True, if_true]
    rw [foldl_append_filtered (fun (entry : String × PackageLockPackage) => entry.1 == "")]
    simp
  · intro he
    unfold scanPackageLock
    rw [hread]
    simp only [he, List.length_nil, gt_iff_lt, Nat.lt_irrefl, decide_False, if_false]
    rw [foldl_append_singleton]
    simp

/-- Witness for C29: a lock file with both maps gives the one entry of
`packages` that has a non-empty key and nothing from `dependencies`. -/
theorem scanPackageLock_prefers_packages_witness :
    mixedEnv.readPackageLock "package-lock.json" = Except.ok mixedLock ∧
    mixedLock.Packages ≠ [] ∧
    (scanPackageLock mixedEnv "package-lock.json").toOption.map
        (List.map (fun d => (d.Name, d.Version, d.LicenseType, d.PackageType))) =
      some [("lodash", "4.17.21", "MIT", "npm")] :=
  ⟨rfl, List.cons_ne_nil _ _, by
    rw [(scanPackageLock_prefers_packages mixedEnv "package-lock.json" mixedLock rfl).1
      (List.cons_ne_nil _ _)]
    decide⟩

end nodejs

namespace golang

open types strings

theorem find?_perm_mem {α : Type} (p : α → Bool) (l1 l2 : List α) (h : l1.Perm l2) (x : α)
    (hx : l1.find? p = some x) : x ∈ l2 ∧ p x = true :=
  ⟨h.subset (List.mem_of_find?_eq_some hx), List.find?_some hx⟩

theorem detect_of_found (order : List (String × String)) (text : String)
    (e : String × String) (h : order.find? (fun entry => Contains (ToLower text) entry.1) = some e) :
    detectLicenseType order text = e.2 := by
  unfold detectLicenseType
  simp only [h]

theorem detect_of_none (order : List (String × String)) (text : String)
    (h : order.find? (fun entry => Contains (ToLower text) entry.1) = none) :
    detectLicenseType order text = "UNKNOWN" := by
  unfold detectLicenseType
  simp only [h]

/-- What `detectLicenseType` returns when the table is visited in an order
that is a permutation of it. -/
theorem detect_cases (order : List (String × String)) (text : String)
    (horder : order.Perm licensePatterns) :
    (detectLicenseType order text = "UNKNOWN" ∧
      ∀ e ∈ licensePatterns, Contains (ToLower text) e.1 = false) ∨
    (∃ e ∈ licensePatterns, Contains (ToLower text) e.1 = true ∧
      detectLicenseType order text = e.2) := by
  cases hf : order.find? (fun entry => Contains (ToLower text) entry.1) with
  | none =>
    left
    refine ⟨detect_of_none order text hf, ?_⟩
    intro e he
    have := List.find?_eq_none.1 hf e (horder.symm.subset he)
    simpa using this
  | some e =>
    right
    obtain ⟨hm, hp⟩ := find?_perm_mem _ order licensePatterns horder e hf
    exact ⟨e, hm, hp, detect_of_found order text e hf⟩

theorem table_has_no_unknown : ∀ e ∈ licensePatterns, e.2 ≠ "UNKNOWN" := by decide

theorem detect_single_identifier (order : List (String × String)) (text ident : String)
    (horder : order.Perm licensePatterns)
    (hsome : ∃ e ∈ licensePatterns, Contains (ToLower text) e.1 = true)
    (hall : ∀ e ∈ licensePatterns, Contains (ToLower text) e.1 = true → e.2 = ident) :
    detectLicenseType order text = ident := by
  rcases detect_cases order text horder with hleft | ⟨e, he, hc, hd⟩
  · obtain ⟨e, he, hc⟩ := hsome
    rw [hleft.2 e he] at hc
    exact absurd hc (by decide)
  · rw [hd]
    exact hall e he hc

/-- C26: `detectLicenseType` classifies by case-insensitive substring,
whatever the order in which the table is visited. It returns `UNKNOWN` exactly
when the lower-cased text contains none of the ten phrases, and otherwise the
identifier of a phrase the text contains; when all phrases the text contains
have one identifier it returns that identifier, as for the seven texts of
`TestDetectLicenseType`. -/
theorem detectLicenseType_classifies (order : List (String × String)) (text : String)
    (horder : order.Perm licensePatterns) :
    (detectLicenseType order text = "UNKNOWN" ↔
      ∀ e ∈ licensePatterns, Contains (ToLower text) e.1 = false) ∧
    ((∃ e ∈ licensePatterns, Contains (ToLower text) e.1 = true) →
      ∃ e ∈ licensePatterns, Contains (ToLower text) e.1 = true ∧
        detectLicenseType order text = e.2) ∧
    (∀ ident, (∃ e ∈ licensePatterns, Contains (ToLower text) e.1 = true) →
      (∀ e ∈ licensePatterns, Contains (ToLower text) e.1 = true → e.2 = ident) →
      detectLicenseType order text = ident) ∧
    detectLicenseType order "MIT License\n\nPermission is hereby granted..." = "MIT" ∧
    detectLicenseType order "Apache License, Version 2.0" = "Apache-2.0" ∧
    detectLicenseType order "BSD 3-Clause License" = "BSD-3-Clause" ∧
    detectLicenseType order "GNU General Public License" = "GPL-3.0" ∧
    detectLicenseType order "This is unlicense" = "Unlicense" ∧
    detectLicenseType order "Some random text" = "UNKNOWN" ∧
    detectLicenseType order "" = "UNKNOWN" := by
  have hiff : ∀ t, detectLicenseType order t = "UNKNOWN" ↔
      ∀ e ∈ licensePatterns, Contains (ToLower t) e.1 = false := by
    intro t
    constructor
    · intro hu
      rcases detect_cases order t horder with hleft | ⟨e, he, hc, hd⟩
      · exact hleft.2
      · rw [hd] at hu
        exact absurd hu (table_has_no_unknown e he)
    · intro hnone
      rcases detect_cases order t horder with hleft | ⟨e, he, hc, hd⟩
      · exact hleft.1
      · rw [hnone e he] at hc
        exact absurd hc (by decide)
  refine ⟨hiff text, ?_, ?_, ?_, ?_, ?_, ?_, ?_, ?_, ?_⟩
  · intro hex
    rcases detect_cases order text horder with hleft | h
    · obtain ⟨e, he, hc⟩ := hex
      rw [hleft.2 e he] at hc
      exact absurd hc (by decide)
    · exact h
  · intro ident hsome hall
    exact detect_single_identifier order text ident horder hsome hall
  · exact detect_single_identifier order _ "MIT" horder (by decide) (by decide)
  · exact detect_single_identifier order _ "Apache-2.0" horder (by decide) (by decide)
  · exact detect_single_identifier order _ "BSD-3-Clause" horder (by decide) (by decide)
  · exact detect_single_identifier order _ "GPL-3.0" horder (by decide) (by decide)
  · exact detect_single_identifier order _ "Unlicense" horder (by decide) (by decide)
  · exact (hiff _).2 (by decide)
  · exact (hiff _).2 (by decide)

/-- Witness for C26: the table visited backwards still classifies the MIT
text of the test as `MIT`. -/
theorem detectLicenseType_classifies_witness :
    licensePatterns.reverse.Perm licensePatterns ∧
    detectLicenseType licensePatterns.reverse
      "MIT License\n\nPermission is hereby granted..." = "MIT" :=
  ⟨List.reverse_perm _,
   (detectLicenseType_classifies licensePatterns.reverse "" (List.reverse_perm _)).2.2.2.1⟩

/-- C27 (the code at the failing input): for a text that contains both
`mit license` and `gnu general public license`, `detectLicenseType` returns
`MIT` when the `range` loop visits the table in the order of the source and
`GPL-3.0` when it visits it backwards; both orders are permutations of the
table. -/
theorem detectLicenseType_depends_on_order :
    licensePatterns.reverse.Perm licensePatterns ∧
    Contains (ToLower dualLicenseText) "mit license" = true ∧
    Contains (ToLower dualLicenseText) "gnu general public license" = true ∧
    detectLicenseType licensePatterns dualLicenseText = "MIT" ∧
    detectLicenseType licensePatterns.reverse dualLicenseText = "GPL-3.0" :=
  ⟨List.reverse_perm _, by decide, by decide, by decide, by decide⟩

end golang

namespace strings

theorem indexList_some_spec (sub : List Char) (l : List Char) (i : Nat)
    (h : indexList sub l = some i) : sub.isPrefixOf (l.drop i) = true ∧ i ≤ l.length := by
  induction l generalizing i with
  | nil =>
    unfold indexList at h
    by_cases he : sub.isEmpty = true
    · rw [if_pos he] at h
      have hi : i = 0 := by simpa using h.symm
      subst hi
      have : sub = [] := by simpa using he
      subst this
      simp
    · rw [if_neg he] at h
      simp at h
  | cons c cs ih =>
    unfold indexList at h
    by_cases hp : sub.isPrefixOf (c :: cs) = true
    · rw [if_pos hp] at h
      have hi : i = 0 := by simpa using h.symm
      subst hi
      exact ⟨by simpa using hp, Nat.zero_le _⟩
    · rw [if_neg hp] at h
      cases hr : indexList sub cs with
      | none => rw [hr] at h; simp at h
      | some j =>
        rw [hr] at h
        have hi : i = j + 1 := by simpa using h.symm
        subst hi
        have := ih j hr
        exact ⟨by simpa using this.1, by simpa using this.2⟩

theorem indexList_le (sub : List Char) (l : List Char) (j : Nat)
    (hj : sub.isPrefixOf (l.drop j) = true) (hjl : j ≤ l.length) :
    ∃ i, indexList sub l = some i ∧ i ≤ j := by
  induction l generalizing j with
  | nil =>
    have hj0 : j = 0 := by simpa using hjl
    subst hj0
    have hs : sub = [] := by
      cases sub with
      | nil => rfl
      | cons a as => simp at hj
    subst hs
    exact ⟨0, by simp [indexList], Nat.le_refl _⟩
  | cons c cs ih =>
    unfold indexList
    by_cases hp : sub.isPrefixOf (c :: cs) = true
    · exact ⟨0, by rw [if_pos hp], Nat.zero_le _⟩
    · rw [if_neg hp]
      cases j with
      | zero => exact absurd (by simpa using hj) hp
      | succ j2 =>
        obtain ⟨i, hi, hle⟩ := ih j2 (by simpa using hj) (by simpa using hjl)
        exact ⟨i + 1, by rw [hi]; rfl, by omega⟩

theorem containsList_eq_isSome (l sub : List Char) :
    containsList l sub = (indexList sub l).isSome := by
  induction l with
  | nil =>
    unfold containsList indexList
    cases sub <;> simp
  | cons c cs ih =>
    unfold containsList indexList
    rw [ih]
    by_cases hp : sub.isPrefixOf (c :: cs) = true
    · simp [hp]
    · have hp2 : sub.isPrefixOf (c :: cs) = false := Bool.eq_false_iff.2 hp
      rw [hp2]
      cases indexList sub cs <;> simp

theorem occurrence_not_overlapping (sep P T : List Char) (hsep : Unbordered sep) (i : Nat)
    (hi : i < P.length) (hocc : sep.isPrefixOf ((P ++ (sep ++ T)).drop i) = true) :
    i + sep.length ≤ P.length := by
  by_contra hcon
  have hd : P.length - i < sep.length := by omega
  have hd0 : 0 < P.length - i := by omega
  have hdrop : (P ++ (sep ++ T)).drop i = P.drop i ++ (sep ++ T) := by
    rw [List.drop_append_of_le_length (Nat.le_of_lt hi)]
  rw [hdrop] at hocc
  have hpre : sep <+: P.drop i ++ (sep ++ T) := List.isPrefixOf_iff_prefix.1 hocc
  have hlen : (P.drop i).length = P.length - i := List.length_drop _ _
  have hP : P.drop i <+: sep :=
    List.prefix_of_prefix_length_le (List.prefix_append _ _) hpre (by omega)
  obtain ⟨X, hX⟩ := hP
  have hXd : X = sep.drop (P.length - i) := by
    rw [← hX, ← hlen, List.drop_left]
  have hpre2 : P.drop i ++ X <+: P.drop i ++ (sep ++ T) := by
    rw [hX]; exact hpre
  have h2 : X <+: sep ++ T := (List.prefix_append_right_inj _).1 hpre2
  have hXlen : X.length ≤ sep.length := by
    rw [hXd, List.length_drop]; omega
  have h3 : X <+: sep :=
    List.prefix_of_prefix_length_le h2 (List.prefix_append _ _) hXlen
  have h4 := hsep (P.length - i) hd0 hd
  rw [← hXd] at h4
  have h5 : X.isPrefixOf sep = true := List.isPrefixOf_iff_prefix.2 h3
  rw [h5] at h4
  exact absurd h4 (by decide)

theorem splitList_no_occurrence (sep T : List Char) (fuel : Nat)
    (hT : indexList sep T = none) : splitList sep fuel T = [T] := by
  cases fuel with
  | zero => rfl
  | succ n => unfold splitList; rw [hT]

/-- The pieces of `P ++ sep ++ T` when `sep` does not occur in `T`: there are
at least two and the last one is `T`. -/
theorem splitList_last (sep T : List Char) (hsep : Unbordered sep)
    (hT : indexList sep T = none) :
    ∀ (fuel : Nat) (P : List Char), P.length < fuel →
      1 < (splitList sep fuel (P ++ (sep ++ T))).length ∧
      (splitList sep fuel (P ++ (sep ++ T))).getLast? = some T := by
  intro fuel
  induction fuel with
  | zero => intro P h; omega
  | succ n ih =>
    intro P hP
    have hocc : sep.isPrefixOf ((P ++ (sep ++ T)).drop P.length) = true := by
      rw [List.drop_left]
      exact List.isPrefixOf_iff_prefix.2 (List.prefix_append _ _)
    obtain ⟨i, hi, hle⟩ := indexList_le sep (P ++ (sep ++ T)) P.length hocc (by simp)
    have hpre := (indexList_some_spec sep _ i hi).1
    unfold splitList
    rw [hi]
    simp only
    by_cases hiP : i = P.length
    · subst hiP
      have hdrop : (P ++ (sep ++ T)).drop (P.length + sep.length) = T := by
        rw [← List.append_assoc]
        have : P.length + sep.length = (P ++ sep).length := by simp
        rw [this, List.drop_left]
      rw [hdrop, splitList_no_occurrence sep T n hT]
      simp
    · have hlt : i < P.length := by omega
      have hno := occurrence_not_overlapping sep P T hsep i hlt hpre
      have hdrop : (P ++ (sep ++ T)).drop (i + sep.length) =
          P.drop (i + sep.length) ++ (sep ++ T) := by
        rw [List.drop_append_of_le_length hno]
      rw [hdrop]
      have hsl : 0 < sep.length := by
        cases sep with
        | nil => cases T <;> simp [indexList] at hT
        | cons a as => simp
      have hlen : (P.drop (i + sep.length)).length < n := by
        rw [List.length_drop]; omega
      obtain ⟨h1, h2⟩ := ih (P.drop (i + sep.length)) hlen
      constructor
      · simp only [List.length_cons]; omega
      · rw [List.getLast?_cons]
        rw [h2]
        simp

end strings

namespace nodejs

open types strings

theorem unbordered_node_modules : Unbordered "node_modules/".data := by
  intro d h0 hd
  have hd13 : d < 13 := hd
  interval_cases d <;> decide

theorem Split_key_tail (P T : String) (hT : Contains T "node_modules/" = false) :
    1 < (Split (P ++ "node_modules/" ++ T) "node_modules/").length ∧
    (Split (P ++ "node_modules/" ++ T) "node_modules/").getLastD "" = T := by
  have hidx : indexList "node_modules/".data T.data = none := by
    have h := containsList_eq_isSome T.data "node_modules/".data
    unfold Contains at hT
    rw [hT] at h
    cases hi : indexList "node_modules/".data T.data with
    | none => rfl
    | some i => rw [hi] at h; simp at h
  have hdata : (P ++ "node_modules/" ++ T).data =
      P.data ++ ("node_modules/".data ++ T.data) := by
    simp [String.data_append]
  have hfuel : P.data.length < (P ++ "node_modules/" ++ T).data.length := by
    have h13 : ("node_modules/".data ++ T.data).length = 13 + T.data.length := by
      rw [List.length_append]; rfl
    rw [hdata, List.length_append, h13]
    omega
  obtain ⟨h1, h2⟩ := splitList_last "node_modules/".data T.data unbordered_node_modules hidx
    (P ++ "node_modules/" ++ T).data.length P.data hfuel
  unfold Split
  rw [hdata] at h1 h2 ⊢
  constructor
  · rw [List.length_map]; exact h1
  · rw [List.getLastD_eq_getLast?, List.getLast?_map, h2]
    rfl

/-- C28: an entry of the `packages` map without an explicit name is named by
the tail of its key. For a key `P ++ "node_modules/" ++ T` where `T` does not
contain `node_modules/`, the name is `T`, and a lock file with that single
entry gives one dependency named `T`; `node_modules/lodash` gives `lodash`,
`node_modules/@scope/pkg` gives `@scope/pkg`, `node_modules/a/node_modules/b`
gives `b`; an entry with an explicit name keeps that name whatever its key. -/
theorem lockPackageName_key_tail (P T : String) (pkg : PackageLockPackage)
    (hT : Contains T "node_modules/" = false) :
    (pkg.Name = "" → lockPackageName (P ++ "node_modules/" ++ T) pkg = T) ∧
    (pkg.Name = "" → ∀ (env : NodeEnv) (path : String) (lockFile : PackageLockJSON),
      env.readPackageLock path = Except.ok lockFile →
      lockFile.Packages = [(P ++ "node_modules/" ++ T, pkg)] →
      (scanPackageLock env path).toOption.map (List.map (fun d => d.Name)) = some [T]) ∧
    (pkg.Name = "" → lockPackageName "node_modules/lodash" pkg = "lodash" ∧
      lockPackageName "node_modules/@scope/pkg" pkg = "@scope/pkg" ∧
      lockPackageName "node_modules/a/node_modules/b" pkg = "b") ∧
    (pkg.Name ≠ "" → ∀ key, lockPackageName key pkg = pkg.Name) := by
  have htail : pkg.Name = "" → lockPackageName (P ++ "node_modules/" ++ T) pkg = T := by
    intro hname
    obtain ⟨h1, h2⟩ := Split_key_tail P T hT
    unfold lockPackageName
    rw [hname]
    simp only [beq_self_eq_true, if_true]
    rw [if_pos (by simpa using h1)]
    exact h2
  refine ⟨htail, ?_, ?_, ?_⟩
  · intro hname env path lockFile hread hpk
    have hkey : P ++ "node_modules/" ++ T ≠ "" := by
      intro h
      have hd := congrArg (fun s => s.data.length) h
      simp [String.data_append] at hd
    simp [scanPackageLock, hread, hpk, hkey, htail hname, Except.toOption]
  · intro hname
    unfold lockPackageName
    rw [hname]
    decide
  · intro hname key
    unfold lockPackageName
    have : (pkg.Name == "") = false := by rw [beq_eq_false_iff_ne]; exact hname
    rw [this]
    rfl

theorem lockPackageName_key_tail_witness :
    Contains "@scope/pkg" "node_modules/" = false ∧
    lockPackageName ("node_modules/a/" ++ "node_modules/" ++ "@scope/pkg")
      { Name := "", Version := "2.0.0", License := JSON.null, Resolved := "" } = "@scope/pkg" :=
  ⟨by decide,
   (lockPackageName_key_tail "node_modules/a/" "@scope/pkg"
      { Name := "", Version := "2.0.0", License := JSON.null, Resolved := "" }
      (by decide)).1 rfl⟩

end nodejs

namespace strings

theorem fieldsList_cons (c : Char) (cs : List Char) :
    fieldsList (c :: cs) =
      if isSpace c then fieldsList cs
      else
        match cs with
        | [] => [[c]]
        | d :: _ =>
          if isSpace d then [c] :: fieldsList cs
          else
            match fieldsList cs with
            | f :: fs => (c :: f) :: fs
            | [] => [[c]] := rfl

theorem fieldsList_nonspace_single (a : Char) (ha : ¬ isSpace a = true) :
    fieldsList [a] = [[a]] := by
  rw [fieldsList_cons, if_neg ha]

theorem fieldsList_nonspace_space (a d : Char) (ds : List Char) (ha : ¬ isSpace a = true)
    (hd : isSpace d = true) : fieldsList (a :: d :: ds) = [a] :: fieldsList (d :: ds) := by
  rw [fieldsList_cons, if_neg ha]
  simp only [hd, if_true]

theorem fieldsList_nonspace_nonspace (a d : Char) (ds : List Char) (ha : ¬ isSpace a = true)
    (hd : ¬ isSpace d = true) :
    fieldsList (a :: d :: ds) =
      match fieldsList (d :: ds) with
      | f :: fs => (a :: f) :: fs
      | [] => [[a]] := by
  rw [fieldsList_cons, if_neg ha]
  simp only [hd]
  rfl

theorem fieldsList_space_cons (c : Char) (l : List Char) (hc : isSpace c = true) :
    fieldsList (c :: l) = fieldsList l := by
  rw [fieldsList_cons, if_pos hc]

theorem fieldsList_dropWhile (l : List Char) :
    fieldsList (l.dropWhile isSpace) = fieldsList l := by
  induction l with
  | nil => rfl
  | cons c cs ih =>
    by_cases hc : isSpace c = true
    · rw [List.dropWhile_cons_of_pos hc, ih, fieldsList_space_cons c cs hc]
    · rw [List.dropWhile_cons_of_neg hc]

theorem fieldsList_append_space (c : Char) (hc : isSpace c = true) (l : List Char) :
    fieldsList (l ++ [c]) = fieldsList l := by
  induction l with
  | nil => rw [List.nil_append, fieldsList_space_cons c [] hc]
  | cons a as ih =>
    by_cases ha : isSpace a = true
    · rw [List.cons_append, fieldsList_space_cons a _ ha, fieldsList_space_cons a _ ha, ih]
    · cases as with
      | nil =>
        simp only [List.cons_append, List.nil_append]
        rw [fieldsList_nonspace_space a c [] ha hc, fieldsList_space_cons c [] hc,
          fieldsList_nonspace_single a ha]
        rfl
      | cons d ds =>
        simp only [List.cons_append] at ih ⊢
        by_cases hd : isSpace d = true
        · rw [fieldsList_nonspace_space a d _ ha hd, fieldsList_nonspace_space a d _ ha hd, ih]
        · rw [fieldsList_nonspace_nonspace a d _ ha hd, fieldsList_nonspace_nonspace a d _ ha hd,
            ih]

theorem fieldsList_trim (l : List Char) :
    fieldsList ((l.dropWhile isSpace).reverse.dropWhile isSpace).reverse = fieldsList l := by
  have hright : ∀ l : List Char, fieldsList (l.reverse.dropWhile isSpace).reverse = fieldsList l := by
    intro l
    induction l using List.reverseRecOn with
    | nil => rfl
    | append_singleton xs c ih =>
      rw [List.reverse_append, List.reverse_singleton, List.singleton_append]
      by_cases hc : isSpace c = true
      · rw [List.dropWhile_cons_of_pos hc, ih, fieldsList_append_space c hc]
      · rw [List.dropWhile_cons_of_neg hc, List.reverse_cons, List.reverse_reverse]
  rw [hright, fieldsList_dropWhile]

theorem Fields_TrimSpace (s : String) : Fields (TrimSpace s) = Fields s := by
  unfold Fields TrimSpace
  rw [fieldsList_trim]

/-- A token: a non-empty run of characters none of which is white space. -/
theorem fieldsList_token (m : List Char) (hne : m ≠ []) (hm : ∀ c ∈ m, isSpace c = false) :
    fieldsList m = [m] := by
  induction m with
  | nil => exact absurd rfl hne
  | cons a as ih =>
    have ha : ¬ isSpace a = true := by simp [hm a (List.mem_cons_self _ _)]
    cases as with
    | nil => exact fieldsList_nonspace_single a ha
    | cons d ds =>
      have hd : ¬ isSpace d = true := by
        simp [hm d (List.mem_cons_of_mem _ (List.mem_cons_self _ _))]
      rw [fieldsList_nonspace_nonspace a d _ ha hd,
        ih (List.cons_ne_nil _ _) (fun c hc => hm c (List.mem_cons_of_mem _ hc))]

theorem fieldsList_token_space (m : List Char) (hne : m ≠ []) (hm : ∀ c ∈ m, isSpace c = false)
    (c : Char) (hc : isSpace c = true) (rest : List Char) :
    fieldsList (m ++ c :: rest) = m :: fieldsList rest := by
  induction m with
  | nil => exact absurd rfl hne
  | cons a as ih =>
    have ha : ¬ isSpace a = true := by simp [hm a (List.mem_cons_self _ _)]
    cases as with
    | nil =>
      simp only [List.cons_append, List.nil_append]
      rw [fieldsList_nonspace_space a c rest ha hc, fieldsList_space_cons c rest hc]
    | cons d ds =>
      have hd : ¬ isSpace d = true := by
        simp [hm d (List.mem_cons_of_mem _ (List.mem_cons_self _ _))]
      simp only [List.cons_append] at ih ⊢
      rw [fieldsList_nonspace_nonspace a d _ ha hd,
        ih (List.cons_ne_nil _ _) (fun c hc => hm c (List.mem_cons_of_mem _ hc))]

theorem trim_no_space (l : List Char) (hl : ∀ c ∈ l, isSpace c = false) :
    ((l.dropWhile isSpace).reverse.dropWhile isSpace).reverse = l := by
  have h : ∀ l : List Char, (∀ c ∈ l, isSpace c = false) → l.dropWhile isSpace = l := by
    intro l hl
    cases l with
    | nil => rfl
    | cons a as =>
      have ha : ¬ isSpace a = true := by simp [hl a (List.mem_cons_self _ _)]
      rw [List.dropWhile_cons_of_neg ha]
  rw [h l hl, h l.reverse (fun c hc => hl c (List.mem_reverse.1 hc)), List.reverse_reverse]

end strings

namespace golang

open types strings

theorem moduleDependency_fields (env : GoEnv) (name version filePath workDir : String) :
    (moduleDependency env name version filePath workDir).Name = name ∧
    (moduleDependency env name version filePath workDir).Version = version ∧
    (moduleDependency env name version filePath workDir).PackageType = "go" ∧
    (moduleDependency env name version filePath workDir).FilePath = filePath := by
  unfold moduleDependency
  simp only
  split <;> exact ⟨rfl, rfl, rfl, rfl⟩

theorem not_hasPrefix_require (m rest : List Char) (hne : m ≠ [])
    (hm : ∀ c ∈ m, isSpace c = false) (hreq : m ≠ "require".data) :
    ("require ".data).isPrefixOf (m ++ ' ' :: rest) = false := by
  rw [Bool.eq_false_iff]
  intro hp
  have h : "require ".data <+: m ++ ' ' :: rest := List.isPrefixOf_iff_prefix.1 hp
  rcases List.prefix_or_prefix_of_prefix h (List.prefix_append m (' ' :: rest)) with h1 | h2
  · have hmem : ' ' ∈ m := h1.subset (by decide)
    have := hm ' ' hmem
    exact absurd this (by decide)
  · have hlen : m.length ≤ 8 := h2.length_le
    have htake : m = List.take m.length "require ".data := List.prefix_iff_eq_take.1 h2
    have hpos : 0 < m.length := List.length_pos.2 hne
    generalize m.length = k at htake hlen hpos
    interval_cases k
    all_goals (subst htake; first | exact absurd rfl hreq | simp at h)
    have := hm ' ' (by decide)
    exact absurd this (by decide)

theorem parseRequireLine_of_fields (env : GoEnv) (line filePath name version : String)
    (rest : List String)
    (hf : Fields (TrimPrefix line "require ") = name :: version :: rest) :
    parseRequireLine env line filePath =
      moduleDependency env name
        (match Index version "//" with
         | some idx => TrimSpace ⟨version.data.take idx⟩
         | none => version)
        filePath (filepath.Dir filePath) := by
  have hf2 : Fields (TrimSpace (TrimPrefix line "require ")) = name :: version :: rest := by
    rw [Fields_TrimSpace, hf]
  have hskip : (TrimSpace (TrimPrefix line "require ") == "" ||
      TrimSpace (TrimPrefix line "require ") == "(" ||
      TrimSpace (TrimPrefix line "require ") == ")") = false := by
    generalize TrimSpace (TrimPrefix line "require ") = t at hf2
    rw [Bool.eq_false_iff]
    intro h
    simp only [Bool.or_eq_true, beq_iff_eq] at h
    have hlen : 2 ≤ (Fields t).length := by
      rw [hf2]; simp only [List.length_cons]; omega
    rcases h with (h | h) | h <;> subst h <;> exact absurd hlen (by decide)
  unfold parseRequireLine
  simp only [hskip, hf2]
  rfl

theorem parseRequireLine_few_fields (env : GoEnv) (line filePath : String)
    (hf : (Fields (TrimPrefix line "require ")).length < 2) :
    parseRequireLine env line filePath = emptyDependency := by
  have hf2 : (Fields (TrimSpace (TrimPrefix line "require "))).length < 2 := by
    rw [Fields_TrimSpace]; exact hf
  unfold parseRequireLine
  simp only
  split
  · rfl
  · split
    · rename_i heq
      rw [heq] at hf2
      simp only [List.length_cons] at hf2
      omega
    · rfl

theorem TrimPrefix_prefixed (pre s : String) : TrimPrefix (pre ++ s) pre = s := by
  unfold TrimPrefix HasPrefix
  have hp : pre.data.isPrefixOf (pre ++ s).data = true := by
    rw [String.data_append]
    exact List.isPrefixOf_iff_prefix.2 (List.prefix_append _ _)
  rw [if_pos hp, String.data_append, List.drop_left]

theorem fields_module_version (m v suf : String)
    (hm : m ≠ "") (hms : ∀ c ∈ m.data, isSpace c = false)
    (hv : v ≠ "") (hvs : ∀ c ∈ v.data, isSpace c = false)
    (hsuf : suf = "" ∨ suf = " // indirect") :
    ∃ rest, Fields (m ++ " " ++ v ++ suf) = m :: v :: rest := by
  have hmd : m.data ≠ [] := fun h => hm (String.ext h)
  have hvd : v.data ≠ [] := fun h => hv (String.ext h)
  have hdata : (m ++ " " ++ v ++ suf).data = m.data ++ ' ' :: (v.data ++ suf.data) := by
    simp [String.data_append]
  unfold Fields
  rw [hdata, fieldsList_token_space m.data hmd hms ' ' (by decide)]
  rcases hsuf with h | h
  · subst h
    refine ⟨[], ?_⟩
    have : v.data ++ "".data = v.data := List.append_nil _
    rw [this, fieldsList_token v.data hvd hvs]
    rfl
  · subst h
    refine ⟨["//", "indirect"], ?_⟩
    have : v.data ++ " // indirect".data = v.data ++ ' ' :: "// indirect".data := rfl
    rw [this, fieldsList_token_space v.data hvd hvs ' ' (by decide)]
    have h2 : fieldsList "// indirect".data = ["//".data, "indirect".data] := by decide
    rw [h2]
    rfl

theorem TrimPrefix_require_unprefixed (m v suf : String)
    (hm : m ≠ "") (hms : ∀ c ∈ m.data, isSpace c = false) (hreq : m ≠ "require") :
    TrimPrefix (m ++ " " ++ v ++ suf) "require " = m ++ " " ++ v ++ suf := by
  have hmd : m.data ≠ [] := fun h => hm (String.ext h)
  have hrd : m.data ≠ "require".data := fun h => hreq (String.ext h)
  have hdata : (m ++ " " ++ v ++ suf).data = m.data ++ ' ' :: (v.data ++ suf.data) := by
    simp [String.data_append]
  unfold TrimPrefix HasPrefix
  rw [hdata, not_hasPrefix_require m.data _ hmd hms hrd]
  simp

theorem Fields_TrimPrefix_length (line pre : String) (hpre : pre = "require ") :
    (Fields (TrimPrefix line pre)).length ≤ (Fields line).length := by
  unfold TrimPrefix
  by_cases hp : HasPrefix line pre = true
  · rw [if_pos hp]
    unfold HasPrefix at hp
    obtain ⟨rest, hrest⟩ := List.isPrefixOf_iff_prefix.1 hp
    unfold Fields
    rw [← hrest, List.drop_left]
    subst hpre
    have h8 : "require ".data ++ rest = "require".data ++ ' ' :: rest := rfl
    rw [h8, fieldsList_token_space "require".data (by decide) (by decide) ' ' (by decide)]
    simp
  · rw [if_neg hp]

theorem versionWithoutComment_token (v : String) (hvs : ∀ c ∈ v.data, isSpace c = false) :
    (match Index v "//" with
     | some idx => TrimSpace ⟨v.data.take idx⟩
     | none => v) = versionWithoutComment v := by
  unfold versionWithoutComment
  cases Index v "//" with
  | none => rfl
  | some idx =>
    simp only
    unfold TrimSpace
    rw [trim_no_space _ (fun c hc => hvs c (List.mem_of_mem_take hc))]

theorem parseRequireLine_nameVersionType (env1 env2 : GoEnv) (line path1 path2 : String) :
    nameVersionType (parseRequireLine env1 line path1) =
      nameVersionType (parseRequireLine env2 line path2) := by
  unfold parseRequireLine
  simp only
  split
  · rfl
  · split
    · unfold nameVersionType
      simp only [moduleDependency_fields]
    · rfl

theorem parseGoModLines_nameVersionType (env1 env2 : GoEnv) (path1 path2 : String)
    (lines : List String) :
    ∀ (b : Bool) (acc1 acc2 : List Dependency),
      acc1.map nameVersionType = acc2.map nameVersionType →
      (parseGoModLines env1 path1 lines b acc1).map nameVersionType =
        (parseGoModLines env2 path2 lines b acc2).map nameVersionType := by
  induction lines with
  | nil => intro b acc1 acc2 h; exact h
  | cons text rest ih =>
    intro b acc1 acc2 h
    have hp := parseRequireLine_nameVersionType env1 env2 (TrimSpace text) path1 path2
    have hn : (parseRequireLine env1 (TrimSpace text) path1).Name =
        (parseRequireLine env2 (TrimSpace text) path2).Name := congrArg Prod.fst hp
    unfold parseGoModLines
    simp only
    split
    · exact ih _ _ _ h
    · split
      · exact ih _ _ _ h
      · split
        · exact ih _ _ _ h
        · split
          · rw [hn]
            split
            · apply ih
              rw [List.map_append, List.map_append, h]
              simp only [List.map_cons, List.map_nil, hp]
            · exact ih _ _ _ h
          · exact ih _ _ _ h

/-- C23: direct parsing of `go.mod`. For a module token other than the
keyword `require` and a version token (non-empty, without white space), the
lines `<module> <version>`, the same followed by ` // indirect`, and both
prefixed by `require `, give a record named by the module, with the version
cut at its first `//` (the version itself when it has none), package type `go`
and the path of the file; the lines of `TestParseRequireLine` give the names
the test expects. A line with fewer than two fields gives the empty record, as
do the empty line and the lines `(` and `)`. A `go.mod` whose require block
holds the gin and sonic lines gives exactly these two records, in the order of
the file, both with version `v1.9.1`. -/
theorem parseRequireLine_parses_module_and_version (env : GoEnv) (filePath : String) :
    (∀ m v : String, m ≠ "" → (∀ c ∈ m.data, isSpace c = false) → m ≠ "require" →
      v ≠ "" → (∀ c ∈ v.data, isSpace c = false) →
      ∀ line ∈ [m ++ " " ++ v, m ++ " " ++ v ++ " // indirect",
                "require " ++ (m ++ " " ++ v), "require " ++ (m ++ " " ++ v ++ " // indirect")],
        (parseRequireLine env line filePath).Name = m ∧
        (parseRequireLine env line filePath).Version = versionWithoutComment v ∧
        (parseRequireLine env line filePath).PackageType = "go" ∧
        (parseRequireLine env line filePath).FilePath = filePath) ∧
    (∀ v : String, Index v "//" = none → versionWithoutComment v = v) ∧
    nameVersionType (parseRequireLine env "github.com/gin-gonic/gin v1.9.1" filePath) =
      ("github.com/gin-gonic/gin", "v1.9.1", "go") ∧
    nameVersionType (parseRequireLine env "require github.com/stretchr/testify v1.8.4" filePath) =
      ("github.com/stretchr/testify", "v1.8.4", "go") ∧
    nameVersionType (parseRequireLine env "github.com/bytedance/sonic v1.9.1 // indirect" filePath) =
      ("github.com/bytedance/sonic", "v1.9.1", "go") ∧
    (∀ line : String, (Fields line).length < 2 →
      parseRequireLine env line filePath = emptyDependency) ∧
    parseRequireLine env "" filePath = emptyDependency ∧
    parseRequireLine env "(" filePath = emptyDependency ∧
    parseRequireLine env ")" filePath = emptyDependency ∧
    (env.openLines filePath = some (ginSonicGoMod, false) →
      (parseGoMod env filePath).toOption.map (List.map nameVersionType) =
        some [("github.com/gin-gonic/gin", "v1.9.1", "go"),
              ("github.com/bytedance/sonic", "v1.9.1", "go")]) := by
  have hfew : ∀ line : String, (Fields line).length < 2 →
      parseRequireLine env line filePath = emptyDependency := by
    intro line h
    exact parseRequireLine_few_fields env line filePath
      (Nat.lt_of_le_of_lt (Fields_TrimPrefix_length line "require " rfl) h)
  have hex : ∀ line : String,
      nameVersionType (parseRequireLine env line filePath) =
        nameVersionType (parseRequireLine (vendoredEnv licensePatterns) line "go.mod") :=
    fun line => parseRequireLine_nameVersionType _ _ _ _ _
  refine ⟨?_, ?_, ?_, ?_, ?_, hfew, hfew "" (by decide), hfew "(" (by decide),
    hfew ")" (by decide), ?_⟩
  · intro m v hm hms hreq hv hvs line hline
    have hcore : ∀ suf : String, suf = "" ∨ suf = " // indirect" →
        ∀ l : String, TrimPrefix l "require " = m ++ " " ++ v ++ suf →
        (parseRequireLine env l filePath).Name = m ∧
        (parseRequireLine env l filePath).Version = versionWithoutComment v ∧
        (parseRequireLine env l filePath).PackageType = "go" ∧
        (parseRequireLine env l filePath).FilePath = filePath := by
      intro suf hsuf l hl
      obtain ⟨rest, hrest⟩ := fields_module_version m v suf hm hms hv hvs hsuf
      rw [← hl] at hrest
      rw [parseRequireLine_of_fields env l filePath m v rest hrest,
        versionWithoutComment_token v hvs]
      exact moduleDependency_fields env m (versionWithoutComment v) filePath _
    simp only [List.mem_cons, List.mem_singleton, List.not_mem_nil, or_false] at hline
    rcases hline with h | h | h | h
    · subst h
      refine hcore "" (Or.inl rfl) _ ?_
      have h := TrimPrefix_require_unprefixed m v "" hm hms hreq
      simp only [String.append_empty] at h ⊢
      exact h
    · subst h
      exact hcore " // indirect" (Or.inr rfl) _
        (TrimPrefix_require_unprefixed m v " // indirect" hm hms hreq)
    · subst h
      refine hcore "" (Or.inl rfl) _ ?_
      rw [TrimPrefix_prefixed, String.append_empty]
    · subst h
      exact hcore " // indirect" (Or.inr rfl) _ (TrimPrefix_prefixed _ _)
  · intro v hv
    unfold versionWithoutComment
    rw [hv]
  · rw [hex]; decide
  · rw [hex]; decide
  · rw [hex]; decide
  · intro hopen
    unfold parseGoMod
    rw [hopen]
    simp only [Bool.false_eq_true, if_false, Except.toOption, Option.map_some']
    rw [parseGoModLines_nameVersionType env (vendoredEnv licensePatterns) filePath "go.mod"
      ginSonicGoMod false [] [] rfl]
    decide

end golang

namespace golang

open types strings

theorem lookup_isSome_iff_mem_keys {β : Type} (k : String) (l : List (String × β)) :
    (l.lookup k).isSome = true ↔ k ∈ l.map Prod.fst := by
  induction l with
  | nil => simp
  | cons e rest ih =>
    obtain ⟨a, b⟩ := e
    rw [List.lookup_cons]
    by_cases h : (k == a) = true
    · rw [h]
      have : k = a := by simpa using h
      simp [this]
    · have hne : k ≠ a := by simpa using h
      have hf : (k == a) = false := by simpa using h
      rw [hf]
      simp only [List.map_cons, List.mem_cons]
      rw [ih]
      constructor
      · intro hm; exact Or.inr hm
      · intro hm
        rcases hm with hm | hm
        · exact absurd hm hne
        · exact hm

theorem key_injective_aux (a c b d : List Char) (ha : '@' ∉ a) (hc : '@' ∉ c)
    (h : a ++ '@' :: b = c ++ '@' :: d) : a = c ∧ b = d := by
  induction a generalizing c with
  | nil =>
    cases c with
    | nil => simpa using h
    | cons y ys =>
      simp only [List.nil_append, List.cons_append, List.cons.injEq] at h
      exact absurd (h.1 ▸ List.mem_cons_self _ _) hc
  | cons x xs ih =>
    cases c with
    | nil =>
      simp only [List.nil_append, List.cons_append, List.cons.injEq] at h
      exact absurd (h.1 ▸ List.mem_cons_self _ _) ha
    | cons y ys =>
      simp only [List.cons_append, List.cons.injEq] at h
      obtain ⟨h1, h2⟩ := ih ys (fun hm => ha (List.mem_cons_of_mem _ hm))
        (fun hm => hc (List.mem_cons_of_mem _ hm)) h.2
      exact ⟨by rw [h.1, h1], h2⟩

/-- The key `name@version` determines the name and the version when the names
have no `@`. -/
theorem key_injective (p q : String × String) (hp : '@' ∉ p.1.data) (hq : '@' ∉ q.1.data)
    (h : p.1 ++ "@" ++ p.2 = q.1 ++ "@" ++ q.2) : p = q := by
  have hd := congrArg String.data h
  simp only [String.data_append] at hd
  have hd2 : p.1.data ++ '@' :: p.2.data = q.1.data ++ '@' :: q.2.data := by
    simpa using hd
  obtain ⟨h1, h2⟩ := key_injective_aux _ _ _ _ hp hq hd2
  exact Prod.ext (String.ext h1) (String.ext h2)

/-- One round of the loop of `scanGoSum`. -/
theorem scanGoSumLines_cons (env : GoEnv) (path text : String) (rest : List String)
    (dm : List (String × Dependency)) :
    scanGoSumLines env path (text :: rest) dm =
      scanGoSumLines env path rest
        (match sumPair text with
         | none => dm
         | some p =>
           if p.1 ++ "@" ++ p.2 ∈ dm.map Prod.fst then dm
           else dm ++ [(p.1 ++ "@" ++ p.2,
             moduleDependency env p.1 p.2 path (filepath.Dir path))]) := by
  have hF : Fields (TrimSpace text) = Fields text := Fields_TrimSpace text
  conv_lhs => unfold scanGoSumLines
  unfold sumPair
  simp only
  rw [hF]
  by_cases hempty : (TrimSpace text == "") = true
  · have he : TrimSpace text = "" := by simpa using hempty
    have : Fields text = [] := by rw [← hF, he]; decide
    rw [if_pos hempty, this]
  · rw [if_neg hempty]
    cases hf : Fields text with
    | nil => rfl
    | cons name tl =>
      cases tl with
      | nil => rfl
      | cons version tl2 =>
        simp only
        by_cases h1 : HasSuffix version "/go.mod" = true
        · simp [h1]
        · by_cases h2 : Contains version "h1:" = true
          · simp [h1, h2]
          · have h1f : HasSuffix version "/go.mod" = false := by simpa using h1
            have h2f : Contains version "h1:" = false := by simpa using h2
            simp only [h1f, h2f, Bool.false_eq_true, if_false, Bool.or_self]
            by_cases hk : name ++ "@" ++ version ∈ dm.map Prod.fst
            · rw [if_pos hk, if_pos ((lookup_isSome_iff_mem_keys _ _).2 hk)]
            · rw [if_neg hk, if_neg (fun h => hk ((lookup_isSome_iff_mem_keys _ _).1 h))]

/-- The invariant of the loop of `scanGoSum`: every entry of the map is
stored under the key of its record, its name has no `@`, and it is a Go
record for the file. -/
theorem scanGoSumLines_spec (env : GoEnv) (path : String) (lines : List String) :
    ∀ dm : List (String × Dependency),
      (∀ e ∈ dm, e.1 = e.2.Name ++ "@" ++ e.2.Version ∧ '@' ∉ e.2.Name.data ∧
        e.2.PackageType = "go" ∧ e.2.FilePath = path) →
      (dm.map Prod.fst).Nodup →
      (∀ text ∈ lines, ∀ p, sumPair text = some p → '@' ∉ p.1.data) →
      (∀ e ∈ scanGoSumLines env path lines dm,
        e.1 = e.2.Name ++ "@" ++ e.2.Version ∧ '@' ∉ e.2.Name.data ∧
        e.2.PackageType = "go" ∧ e.2.FilePath = path) ∧
      ((scanGoSumLines env path lines dm).map Prod.fst).Nodup ∧
      ∀ p, p ∈ (scanGoSumLines env path lines dm).map (fun e => nameVersion e.2) ↔
        (p ∈ dm.map (fun e => nameVersion e.2) ∨ ∃ text ∈ lines, sumPair text = some p) := by
  induction lines with
  | nil =>
    intro dm hinv hnd _
    refine ⟨hinv, hnd, ?_⟩
    intro p
    simp [scanGoSumLines]
  | cons text rest ih =>
    intro dm hinv hnd hlines
    have hrest : ∀ t ∈ rest, ∀ p, sumPair t = some p → '@' ∉ p.1.data :=
      fun t ht => hlines t (List.mem_cons_of_mem _ ht)
    rw [scanGoSumLines_cons]
    cases hsp : sumPair text with
    | none =>
      simp only
      obtain ⟨h1, h2, h3⟩ := ih dm hinv hnd hrest
      refine ⟨h1, h2, ?_⟩
      intro p
      rw [h3 p]
      constructor
      · rintro (h | ⟨t, ht, hp⟩)
        · exact Or.inl h
        · exact Or.inr ⟨t, List.mem_cons_of_mem _ ht, hp⟩
      · rintro (h | ⟨t, ht, hp⟩)
        · exact Or.inl h
        · rcases List.mem_cons.1 ht with hh | hh
          · subst hh
            rw [hsp] at hp
            exact absurd hp (by simp)
          · exact Or.inr ⟨t, hh, hp⟩
    | some q =>
      simp only
      have hq : '@' ∉ q.1.data := hlines text (List.mem_cons_self _ _) q hsp
      by_cases hk : q.1 ++ "@" ++ q.2 ∈ dm.map Prod.fst
      · rw [if_pos hk]
        obtain ⟨h1, h2, h3⟩ := ih dm hinv hnd hrest
        refine ⟨h1, h2, ?_⟩
        have hqin : q ∈ dm.map (fun e => nameVersion e.2) := by
          obtain ⟨e, he, hkey⟩ := List.mem_map.1 hk
          obtain ⟨hi1, hi2, _, _⟩ := hinv e he
          have : nameVersion e.2 = q := by
            apply key_injective _ _ hi2 hq
            show e.2.Name ++ "@" ++ e.2.Version = q.1 ++ "@" ++ q.2
            rw [← hi1, hkey]
          exact List.mem_map.2 ⟨e, he, this⟩
        intro p
        rw [h3 p]
        constructor
        · rintro (h | ⟨t, ht, hp⟩)
          · exact Or.inl h
          · exact Or.inr ⟨t, List.mem_cons_of_mem _ ht, hp⟩
        · rintro (h | ⟨t, ht, hp⟩)
          · exact Or.inl h
          · rcases List.mem_cons.1 ht with hh | hh
            · subst hh
              rw [hsp] at hp
              have : q = p := by simpa using hp
              subst this
              exact Or.inl hqin
            · exact Or.inr ⟨t, hh, hp⟩
      · rw [if_neg hk]
        obtain ⟨f1, f2, f3, f4⟩ := moduleDependency_fields env q.1 q.2 path (filepath.Dir path)
        have hinv2 : ∀ e ∈ dm ++ [(q.1 ++ "@" ++ q.2,
            moduleDependency env q.1 q.2 path (filepath.Dir path))],
            e.1 = e.2.Name ++ "@" ++ e.2.Version ∧ '@' ∉ e.2.Name.data ∧
            e.2.PackageType = "go" ∧ e.2.FilePath = path := by
          intro e he
          rcases List.mem_append.1 he with h | h
          · exact hinv e h
          · have : e = (q.1 ++ "@" ++ q.2,
                moduleDependency env q.1 q.2 path (filepath.Dir path)) := by simpa using h
            subst this
            refine ⟨?_, ?_, f3, f4⟩
            · show q.1 ++ "@" ++ q.2 = _
              rw [f1, f2]
            · show '@' ∉ (moduleDependency env q.1 q.2 path (filepath.Dir path)).Name.data
              rw [f1]; exact hq
        have hnd2 : ((dm ++ [(q.1 ++ "@" ++ q.2,
            moduleDependency env q.1 q.2 path (filepath.Dir path))]).map Prod.fst).Nodup := by
          rw [List.map_append, List.map_cons, List.map_nil]
          apply List.Nodup.append hnd (List.nodup_singleton _)
          intro a ha1 ha2
          have : a = q.1 ++ "@" ++ q.2 := by simpa using ha2
          subst this
          exact hk ha1
        obtain ⟨h1, h2, h3⟩ := ih _ hinv2 hnd2 hrest
        refine ⟨h1, h2, ?_⟩
        have hnv : nameVersion (moduleDependency env q.1 q.2 path (filepath.Dir path)) = q := by
          unfold nameVersion
          rw [f1, f2]
        intro p
        rw [h3 p]
        simp only [List.map_append, List.map_cons, List.map_nil, List.mem_append,
          List.mem_singleton, hnv]
        constructor
        · rintro ((h | h) | ⟨t, ht, hp⟩)
          · exact Or.inl h
          · exact Or.inr ⟨text, List.mem_cons_self _ _, by rw [hsp, h]⟩
          · exact Or.inr ⟨t, List.mem_cons_of_mem _ ht, hp⟩
        · rintro (h | ⟨t, ht, hp⟩)
          · exact Or.inl (Or.inl h)
          · rcases List.mem_cons.1 ht with hh | hh
            · subst hh
              rw [hsp] at hp
              have : q = p := by simpa using hp
              exact Or.inl (Or.inr this.symm)
            · exact Or.inr ⟨t, hh, hp⟩

/-- C25 (counterexample): the lines `a@b c` and `a b@c` carry the two distinct
pairs (`a@b`, `c`) and (`a`, `b@c`), which have the same key `a@b@c`;
`scanGoSum` returns one record, for the first pair only. -/
theorem scanGoSum_merges_colliding_keys :
    sumPair "a@b c" = some ("a@b", "c") ∧
    sumPair "a b@c" = some ("a", "b@c") ∧
    (scanGoSum (sumEnv ["a@b c", "a b@c"]) "go.sum").toOption.map (List.map nameVersion) =
      some [("a@b", "c")] := by
  decide

/-- C25 (amended): `scanGoSum` deduplicates by name and version when no name
has the character `@`. For a readable `go.sum` in which the first field of
every qualifying line has no `@`, the call succeeds, no two records of the
result have the same name and version, the pairs of name and version of the
result are exactly the pairs of the qualifying lines (at least two fields, the
second neither ending with `/go.mod` nor containing `h1:`), and every record
has package type `go` and the path of the file. -/
theorem scanGoSum_deduplicates (env : GoEnv) (path : String) (lines : List String)
    (hopen : env.openLines path = some (lines, false))
    (hnames : ∀ text ∈ lines, ∀ p, sumPair text = some p → '@' ∉ p.1.data) :
    ∃ deps, scanGoSum env path = Except.ok deps ∧
      (deps.map nameVersion).Nodup ∧
      (∀ p, p ∈ deps.map nameVersion ↔ ∃ text ∈ lines, sumPair text = some p) ∧
      ∀ d ∈ deps, d.PackageType = "go" ∧ d.FilePath = path := by
  obtain ⟨h1, h2, h3⟩ := scanGoSumLines_spec env path lines []
    (fun e he => absurd he (List.not_mem_nil _)) List.nodup_nil hnames
  refine ⟨(scanGoSumLines env path lines []).map Prod.snd, ?_, ?_, ?_, ?_⟩
  · unfold scanGoSum
    rw [hopen]
    rfl
  · rw [List.map_map]
    have hkeys : (scanGoSumLines env path lines []).map Prod.fst =
        ((scanGoSumLines env path lines []).map (nameVersion ∘ Prod.snd)).map
          (fun p => p.1 ++ "@" ++ p.2) := by
      rw [List.map_map]
      apply List.map_congr_left
      intro e he
      exact (h1 e he).1
    rw [hkeys] at h2
    exact List.Nodup.of_map _ h2
  · intro p
    rw [List.map_map]
    have := h3 p
    simp only [List.map_nil, List.not_mem_nil, false_or] at this
    exact this
  · intro d hd
    obtain ⟨e, he, hed⟩ := List.mem_map.1 hd
    subst hed
    exact ⟨(h1 e he).2.2.1, (h1 e he).2.2.2⟩

/-- Witness for C25: a `go.sum` with the two lines of one module and a repeated
line gives one record for the module. -/
theorem scanGoSum_deduplicates_witness :
    (sumEnv ["example.com/m v1.0.0 h1:abc=", "example.com/m v1.0.0/go.mod h1:def=",
      "example.com/m v1.0.0 h1:abc="]).openLines "go.sum" =
      some (["example.com/m v1.0.0 h1:abc=", "example.com/m v1.0.0/go.mod h1:def=",
        "example.com/m v1.0.0 h1:abc="], false) ∧
    ∃ deps, scanGoSum (sumEnv ["example.com/m v1.0.0 h1:abc=",
        "example.com/m v1.0.0/go.mod h1:def=", "example.com/m v1.0.0 h1:abc="]) "go.sum" =
        Except.ok deps ∧
      (deps.map nameVersion).Nodup ∧
      (∀ p, p ∈ deps.map nameVersion ↔
        ∃ text ∈ ["example.com/m v1.0.0 h1:abc=", "example.com/m v1.0.0/go.mod h1:def=",
          "example.com/m v1.0.0 h1:abc="], sumPair text = some p) ∧
      ∀ d ∈ deps, d.PackageType = "go" ∧ d.FilePath = "go.sum" :=
  ⟨rfl, scanGoSum_deduplicates _ "go.sum" _ rfl (by decide)⟩

end golang

namespace golang

open types strings nodejs

theorem decodeGoModMembers_without_module (fields : List (String × JSON))
    (hno : ∀ member ∈ fields, keyMatches "Module" member.1 = false) :
    ∀ current result, decodeGoModMembers fields current = some result →
      result.ModulePath = current := by
  induction fields with
  | nil =>
    intro current result h
    simp only [decodeGoModMembers, Option.some.injEq] at h
    rw [← h]
  | cons member rest ih =>
    intro current result h
    obtain ⟨key, v⟩ := member
    have hk : keyMatches "Module" key = false := hno (key, v) (List.mem_cons_self _ _)
    have hrest : ∀ member ∈ rest, keyMatches "Module" member.1 = false :=
      fun m hm => hno m (List.mem_cons_of_mem _ hm)
    simp only [decodeGoModMembers, hk, Bool.false_eq_true, if_false] at h
    split at h
    · split at h
      · exact ih hrest current result h
      · exact absurd h (by simp)
    · exact ih hrest current result h

theorem decodeStream_without_module (output : List JSON)
    (hno : ∀ v ∈ output, lacksMember "Module" v = true) :
    ∀ mod ∈ decodeStream output, mod.ModulePath = "" := by
  intro mod hmod
  unfold decodeStream at hmod
  obtain ⟨v, hv, hdec⟩ := List.mem_filterMap.1 hmod
  cases v with
  | obj fields =>
    have hl := hno _ hv
    simp only [lacksMember, List.all_eq_true, Bool.not_eq_true'] at hl
    exact decodeGoModMembers_without_module fields hl "" mod hdec
  | null =>
    simp only [decodeGoMod, Option.some.injEq] at hdec
    rw [← hdec]
  | bool b => simp [decodeGoMod] at hdec
  | number n => simp [decodeGoMod] at hdec
  | str s => simp [decodeGoMod] at hdec
  | arr xs => simp [decodeGoMod] at hdec

theorem foldl_skip_all (env : GoEnv) (path dir : String) (mods : List GoMod)
    (h : ∀ mod ∈ mods, mod.ModulePath = "") (acc : List Dependency) :
    mods.foldl
      (fun (dependencies : List Dependency) mod =>
        if mod.ModulePath == "" then dependencies
        else dependencies ++ [moduleDependency env mod.ModulePath "" path dir]) acc = acc := by
  induction mods generalizing acc with
  | nil => rfl
  | cons m rest ih =>
    rw [List.foldl_cons]
    have hm : m.ModulePath = "" := h m (List.mem_cons_self _ _)
    simp only [hm, beq_self_eq_true, if_true]
    exact ih (fun mod hmod => h mod (List.mem_cons_of_mem _ hmod)) acc

/-- C24 (the code at the failing input): the objects of `go list -m -json all`
carry the module path in the member `Path`, but `GoMod` reads it from the
member `Module`. On a machine where the tool succeeds with an output none of
whose objects has a member that selects `Module`, every decoded value has the empty
`Module.Path`, so `scanWithGoList` and `scanGoMod` return the empty list
without error, and `parseGoMod` is not tried. For the output that lists the
main module, gin and sonic, the result is empty, whereas the fallback parser
finds the two requirements. -/
theorem scanWithGoList_returns_no_module :
    (∀ (env : GoEnv) (path : String) (output : List JSON),
      env.lookPathGo = true →
      env.goListAll (filepath.Dir path) = some (decodeStream output) →
      (∀ v ∈ output, lacksMember "Module" v = true) →
      scanWithGoList env path = Except.ok [] ∧ scanGoMod env path = Except.ok []) ∧
    ginListEnv.lookPathGo = true ∧
    ginListEnv.goListAll (filepath.Dir "go.mod") = some (decodeStream ginListOutput) ∧
    (∀ v ∈ ginListOutput, lacksMember "Module" v = true) ∧
    (decodeStream ginListOutput).map (fun mod => mod.ModulePath) = ["", "", ""] ∧
    scanWithGoList ginListEnv "go.mod" = Except.ok [] ∧
    scanGoMod ginListEnv "go.mod" = Except.ok [] ∧
    Scan ginListEnv "go.mod" = Except.ok [] ∧
    (parseGoMod ginListEnv "go.mod").toOption.map (List.map nameVersionType) =
      some [("github.com/gin-gonic/gin", "v1.9.1", "go"),
            ("github.com/bytedance/sonic", "v1.9.1", "go")] := by
  have hgen : ∀ (env : GoEnv) (path : String) (output : List JSON),
      env.lookPathGo = true →
      env.goListAll (filepath.Dir path) = some (decodeStream output) →
      (∀ v ∈ output, lacksMember "Module" v = true) →
      scanWithGoList env path = Except.ok [] ∧ scanGoMod env path = Except.ok [] := by
    intro env path output hgo hout hno
    have h1 : scanWithGoList env path = Except.ok [] := by
      unfold scanWithGoList
      simp only [hgo, Bool.not_true, Bool.false_eq_true, if_false, hout]
      rw [foldl_skip_all env path _ _ (decodeStream_without_module output hno)]
    refine ⟨h1, ?_⟩
    unfold scanGoMod
    rw [h1]
  have hc := hgen ginListEnv "go.mod" ginListOutput rfl (by decide) (by decide)
  refine ⟨hgen, rfl, by decide, by decide, by decide, hc.1, hc.2, ?_, by decide⟩
  have hs : Scan ginListEnv "go.mod" = scanGoMod ginListEnv "go.mod" := by
    unfold Scan
    simp only
    rw [if_pos (by decide)]
  rw [hs, hc.2]

end golang

/-! ## Theorems: package types and versions of all parsers -/

namespace parsers

open types strings

/-! ### Package types of the Go parser -/

theorem parseRequireLine_shape (env : golang.GoEnv) (line filePath : String) :
    golang.parseRequireLine env line filePath = golang.emptyDependency ∨
    (golang.parseRequireLine env line filePath).PackageType = "go" := by
  unfold golang.parseRequireLine
  simp only
  split
  · exact Or.inl rfl
  · split
    · exact Or.inr (golang.moduleDependency_fields env _ _ _ _).2.2.1
    · exact Or.inl rfl

theorem parseGoModLines_type (env : golang.GoEnv) (path : String) (lines : List String) :
    ∀ (b : Bool) (acc : List Dependency), (∀ d ∈ acc, d.PackageType = "go") →
      ∀ d ∈ golang.parseGoModLines env path lines b acc, d.PackageType = "go" := by
  induction lines with
  | nil => intro b acc h; exact h
  | cons text rest ih =>
    intro b acc h
    unfold golang.parseGoModLines
    simp only
    split
    · exact ih _ _ h
    · split
      · exact ih _ _ h
      · split
        · exact ih _ _ h
        · split
          · split
            · rename_i hname
              apply ih
              intro d hd
              rcases List.mem_append.1 hd with hd | hd
              · exact h d hd
              · have hd2 : d = golang.parseRequireLine env (TrimSpace text) path := by
                  simpa using hd
                rcases parseRequireLine_shape env (TrimSpace text) path with he | ht
                · rw [he] at hname
                  exact absurd hname (by decide)
                · rw [hd2]; exact ht
            · exact ih _ _ h
          · exact ih _ _ h

theorem scanGoSumLines_type (env : golang.GoEnv) (path : String) (lines : List String) :
    ∀ dm : List (String × Dependency), (∀ e ∈ dm, e.2.PackageType = "go") →
      ∀ e ∈ golang.scanGoSumLines env path lines dm, e.2.PackageType = "go" := by
  induction lines with
  | nil => intro dm h; exact h
  | cons text rest ih =>
    intro dm h
    rw [golang.scanGoSumLines_cons]
    apply ih
    split
    · exact h
    · split
      · exact h
      · intro e he
        rcases List.mem_append.1 he with he | he
        · exact h e he
        · rw [List.mem_singleton.1 he]
          exact (golang.moduleDependency_fields env _ _ _ _).2.2.1

theorem foldl_goList_type (env : golang.GoEnv) (path dir : String) (mods : List golang.GoMod) :
    ∀ acc : List Dependency, (∀ d ∈ acc, d.PackageType = "go" ∧ d.Version = "") →
      ∀ d ∈ mods.foldl
        (fun (dependencies : List Dependency) mod =>
          if mod.ModulePath == "" then dependencies
          else dependencies ++ [golang.moduleDependency env mod.ModulePath "" path dir]) acc,
        d.PackageType = "go" ∧ d.Version = "" := by
  induction mods with
  | nil => intro acc h; exact h
  | cons m rest ih =>
    intro acc h
    rw [List.foldl_cons]
    apply ih
    split
    · exact h
    · intro d hd
      rcases List.mem_append.1 hd with hd | hd
      · exact h d hd
      · have hd2 : d = golang.moduleDependency env m.ModulePath "" path dir := by simpa using hd
        rw [hd2]
        exact ⟨(golang.moduleDependency_fields env _ _ _ _).2.2.1,
          (golang.moduleDependency_fields env _ _ _ _).2.1⟩

theorem scanWithGoList_type (env : golang.GoEnv) (path : String) (deps : List Dependency)
    (h : golang.scanWithGoList env path = Except.ok deps) :
    ∀ d ∈ deps, d.PackageType = "go" ∧ d.Version = "" := by
  unfold golang.scanWithGoList at h
  simp only at h
  split at h
  · exact absurd h (by simp)
  · split at h
    · exact absurd h (by simp)
    · injection h with h
      rw [← h]
      exact foldl_goList_type env path _ _ [] (fun d hd => absurd hd (List.not_mem_nil _))

theorem golang_Scan_type (env : golang.GoEnv) (path : String) (deps : List Dependency)
    (h : golang.Scan env path = Except.ok deps) : ∀ d ∈ deps, d.PackageType = "go" := by
  unfold golang.Scan at h
  simp only at h
  split at h
  · unfold golang.scanGoMod at h
    split at h
    · rename_i deps2 hlist
      injection h with h
      rw [← h]
      exact fun d hd => (scanWithGoList_type env path deps2 hlist d hd).1
    · unfold golang.parseGoMod at h
      split at h
      · exact absurd h (by simp)
      · split at h
        · exact absurd h (by simp)
        · injection h with h
          rw [← h]
          exact parseGoModLines_type env path _ false []
            (fun d hd => absurd hd (List.not_mem_nil _))
  · split at h
    · unfold golang.scanGoSum at h
      split at h
      · exact absurd h (by simp)
      · split at h
        · exact absurd h (by simp)
        · injection h with h
          rw [← h]
          intro d hd
          obtain ⟨e, he, hed⟩ := List.mem_map.1 hd
          rw [← hed]
          exact scanGoSumLines_type env path _ []
            (fun d hd => absurd hd (List.not_mem_nil _)) e he
    · exact absurd h (by simp)

/-! ### Package types of the other parsers -/

theorem foldl_append_one_type {α : Type} (P : Dependency → Prop) (f : α → Dependency)
    (hf : ∀ x, P (f x)) (xs : List α) :
    ∀ acc : List Dependency, (∀ d ∈ acc, P d) →
      ∀ d ∈ xs.foldl (fun (dependencies : List Dependency) x => dependencies ++ [f x]) acc,
        P d := by
  induction xs with
  | nil => intro acc h; exact h
  | cons x rest ih =>
    intro acc h
    rw [List.foldl_cons]
    apply ih
    intro d hd
    rcases List.mem_append.1 hd with hd | hd
    · exact h d hd
    · rw [List.mem_singleton.1 hd]; exact hf x

theorem createDependency_type (env : nodejs.NodeEnv) (name version filePath : String) :
    (nodejs.createDependency env name version filePath).PackageType = "npm" := by
  unfold nodejs.createDependency
  simp only
  split <;> rfl

theorem nodejs_Scan_type (env : nodejs.NodeEnv) (path : String) (deps : List Dependency)
    (h : nodejs.Scan env path = Except.ok deps) : ∀ d ∈ deps, d.PackageType = "npm" := by
  unfold nodejs.Scan at h
  simp only at h
  split at h
  · unfold nodejs.scanPackageJSON at h
    split at h
    · exact absurd h (by simp)
    · injection h with h
      rw [← h]
      apply foldl_append_one_type (fun d => d.PackageType = "npm")
        (fun (entry : String × String) => nodejs.createDependency env entry.1 entry.2 path)
        (fun x => createDependency_type env _ _ _)
      exact foldl_append_one_type (fun d => d.PackageType = "npm")
        (fun (entry : String × String) => nodejs.createDependency env entry.1 entry.2 path)
        (fun x => createDependency_type env _ _ _) _ []
        (fun d hd => absurd hd (List.not_mem_nil _))
  · split at h
    · unfold nodejs.scanPackageLock at h
      split at h
      · exact absurd h (by simp)
      · split at h
        · injection h with h
          rw [← h, nodejs.foldl_append_filtered
            (fun (entry : String × nodejs.PackageLockPackage) => entry.1 == "")]
          intro d hd
          simp only [List.nil_append, List.mem_map] at hd
          obtain ⟨e, _, hed⟩ := hd
          rw [← hed]
        · injection h with h
          rw [← h, nodejs.foldl_append_singleton]
          intro d hd
          simp only [List.nil_append, List.mem_map] at hd
          obtain ⟨e, _, hed⟩ := hd
          rw [← hed]
    · exact absurd h (by simp)

theorem java_Scan_type (readPOM : String → Except String java.POM) (path : String)
    (deps : List Dependency) (h : java.Scan readPOM path = Except.ok deps) :
    ∀ d ∈ deps, d.PackageType = "maven" := by
  unfold java.Scan at h
  simp only at h
  split at h
  · unfold java.scanPOM at h
    split at h
    · exact absurd h (by simp)
    · injection h with h
      rw [← h]
      exact foldl_append_one_type (fun d => d.PackageType = "maven") _ (fun x => rfl) _ []
        (fun d hd => absurd hd (List.not_mem_nil _))
  · split at h
    · unfold java.scanGradle at h
      injection h with h
      rw [← h]
      exact fun d hd => absurd hd (List.not_mem_nil _)
    · exact absurd h (by simp)

theorem parseRequirement_shape (line filePath : String) :
    python.parseRequirement line filePath = golang.emptyDependency ∨
    (python.parseRequirement line filePath).PackageType = "python" := by
  unfold python.parseRequirement
  simp only
  split
  · exact Or.inl rfl
  · split
    · exact Or.inl rfl
    · exact Or.inr rfl

theorem scanRequirementsLines_type (path : String) (lines : List String) :
    ∀ acc : List Dependency, (∀ d ∈ acc, d.PackageType = "python") →
      ∀ d ∈ python.scanRequirementsLines path lines acc, d.PackageType = "python" := by
  induction lines with
  | nil => intro acc h; exact h
  | cons text rest ih =>
    intro acc h
    unfold python.scanRequirementsLines
    simp only
    split
    · exact ih _ h
    · split
      · rename_i hname
        apply ih
        intro d hd
        rcases List.mem_append.1 hd with hd | hd
        · exact h d hd
        · rw [List.mem_singleton.1 hd]
          rcases parseRequirement_shape (TrimSpace text) path with he | ht
          · rw [he] at hname
            exact absurd hname (by decide)
          · exact ht
      · exact ih _ h

theorem python_Scan_type (openLines : String → Option (List String × Bool)) (path : String)
    (deps : List Dependency) (h : python.Scan openLines path = Except.ok deps) :
    ∀ d ∈ deps, d.PackageType = "python" := by
  unfold python.Scan at h
  simp only at h
  split at h
  · unfold python.scanRequirements at h
    split at h
    · exact absurd h (by simp)
    · split at h
      · exact absurd h (by simp)
      · injection h with h
        rw [← h]
        exact scanRequirementsLines_type path _ [] (fun d hd => absurd hd (List.not_mem_nil _))
  · split at h
    · unfold python.scanOtherFormats at h
      injection h with h
      rw [← h]
      exact fun d hd => absurd hd (List.not_mem_nil _)
    · exact absurd h (by simp)

theorem scanGemfileLines_type (path : String) (lines : List String) :
    ∀ acc : List Dependency, (∀ d ∈ acc, d.PackageType = "ruby") →
      ∀ d ∈ ruby.scanGemfileLines path lines acc, d.PackageType = "ruby" := by
  induction lines with
  | nil => intro acc h; exact h
  | cons text rest ih =>
    intro acc h
    unfold ruby.scanGemfileLines
    simp only
    split
    · exact ih _ h
    · split
      · apply ih
        intro d hd
        rcases List.mem_append.1 hd with hd | hd
        · exact h d hd
        · rw [List.mem_singleton.1 hd]
      · exact ih _ h

theorem scanGemfileLockLines_type (path : String) (lines : List String) :
    ∀ (b : Bool) (acc : List Dependency), (∀ d ∈ acc, d.PackageType = "ruby") →
      ∀ d ∈ ruby.scanGemfileLockLines path lines b acc, d.PackageType = "ruby" := by
  induction lines with
  | nil => intro b acc h; exact h
  | cons line rest ih =>
    intro b acc h
    have hstep : ∀ d ∈ (if (HasPrefix line "  " && !HasPrefix line "    ") = true then
          match Fields (TrimSpace line) with
          | name :: second :: _ =>
            acc ++
              [{ Name := name, Version := Trim second "()", LicenseType := "UNKNOWN",
                 LicenseText := "", Repository := "", Homepage := "", LicenseURL := "",
                 PackageType := "ruby", FilePath := path }]
          | _ => acc
        else acc), d.PackageType = "ruby" := by
      split
      · split
        · intro d hd
          rcases List.mem_append.1 hd with hd | hd
          · exact h d hd
          · rw [List.mem_singleton.1 hd]
        · exact h
      · exact h
    unfold ruby.scanGemfileLockLines
    simp only
    split
    · exact ih _ _ h
    · split
      · exact ih _ _ h
      · split
        · split
          · exact hstep
          · exact ih _ _ hstep
        · exact ih _ _ h

theorem ruby_Scan_type (openLines : String → Option (List String × Bool)) (path : String)
    (deps : List Dependency) (h : ruby.Scan openLines path = Except.ok deps) :
    ∀ d ∈ deps, d.PackageType = "ruby" := by
  unfold ruby.Scan at h
  simp only at h
  split at h
  · unfold ruby.scanGemfile at h
    split at h
    · exact absurd h (by simp)
    · split at h
      · exact absurd h (by simp)
      · injection h with h
        rw [← h]
        exact scanGemfileLines_type path _ [] (fun d hd => absurd hd (List.not_mem_nil _))
  · split at h
    · unfold ruby.scanGemfileLock at h
      split at h
      · exact absurd h (by simp)
      · split at h
        · exact absurd h (by simp)
        · injection h with h
          rw [← h]
          exact scanGemfileLockLines_type path _ false []
            (fun d hd => absurd hd (List.not_mem_nil _))
    · split at h
      · unfold ruby.scanGemspec at h
        injection h with h
        rw [← h]
        exact fun d hd => absurd hd (List.not_mem_nil _)
      · exact absurd h (by simp)

theorem matchDependencies_type (P : Dependency → Prop) (pkgManager filePath : String)
    (hP : ∀ d : Dependency, d.PackageType = pkgManager → P d) (submatches : List String) :
    ∀ acc : List Dependency, (∀ d ∈ acc, P d) →
      ∀ d ∈ docker.matchDependencies pkgManager filePath submatches acc, P d := by
  induction submatches with
  | nil => intro acc h; exact h
  | cons s rest ih =>
    intro acc h
    unfold docker.matchDependencies
    simp only
    split
    · exact ih _ h
    · apply ih
      intro d hd
      rcases List.mem_append.1 hd with hd | hd
      · exact h d hd
      · rw [List.mem_singleton.1 hd]
        exact hP _ rfl

theorem parseRunCommand_type (line filePath : String)
    (patterns : List (String × regexp.InstallPattern)) :
    ∀ d ∈ docker.parseRunCommand line patterns filePath,
      d.PackageType ∈ patterns.map Prod.fst := by
  unfold docker.parseRunCommand
  simp only
  generalize TrimSpace (TrimPrefix (TrimPrefix line "RUN") "run") = command
  have hgen : ∀ (ps : List (String × regexp.InstallPattern)) (acc : List Dependency),
      (∀ e ∈ ps, e.1 ∈ patterns.map Prod.fst) →
      (∀ d ∈ acc, d.PackageType ∈ patterns.map Prod.fst) →
      ∀ d ∈ ps.foldl
        (fun dependencies entry =>
          docker.matchDependencies entry.1 filePath (regexp.FindAllInstall entry.2 command)
            dependencies) acc, d.PackageType ∈ patterns.map Prod.fst := by
    intro ps
    induction ps with
    | nil => intro acc _ h; exact h
    | cons e rest ih =>
      intro acc hps h
      rw [List.foldl_cons]
      apply ih
      · exact fun e2 he2 => hps e2 (List.mem_cons_of_mem _ he2)
      · apply matchDependencies_type (fun d => d.PackageType ∈ patterns.map Prod.fst)
        · intro d hd
          show d.PackageType ∈ patterns.map Prod.fst
          rw [hd]
          exact hps e (List.mem_cons_self _ _)
        · exact h
  exact hgen patterns [] (fun e he => List.mem_map.2 ⟨e, he, rfl⟩)
    (fun d hd => absurd hd (List.not_mem_nil _))

theorem parseFromCommand_shape (line filePath : String) :
    docker.parseFromCommand line filePath = golang.emptyDependency ∨
    (docker.parseFromCommand line filePath).PackageType = "docker-image" := by
  unfold docker.parseFromCommand
  split
  · simp only
    split
    · exact Or.inl rfl
    · exact Or.inr rfl
  · exact Or.inl rfl

theorem docker_scanLines_type (path : String) (lines : List String) :
    ∀ acc : List Dependency, (∀ d ∈ acc, d.PackageType ∈ dockerPackageTypes) →
      ∀ d ∈ docker.scanLines path lines acc, d.PackageType ∈ dockerPackageTypes := by
  induction lines with
  | nil => intro acc h; exact h
  | cons text rest ih =>
    intro acc h
    have hrun : ∀ d ∈ (if HasPrefix (ToUpper (TrimSpace text)) "RUN " = true then
          acc ++ docker.parseRunCommand (TrimSpace text) docker.patterns path
        else acc), d.PackageType ∈ dockerPackageTypes := by
      split
      · intro d hd
        rcases List.mem_append.1 hd with hd | hd
        · exact h d hd
        · have hm := parseRunCommand_type (TrimSpace text) path docker.patterns d hd
          have hsub : ∀ t ∈ docker.patterns.map Prod.fst, t ∈ dockerPackageTypes := by decide
          exact hsub _ hm
      · exact h
    unfold docker.scanLines
    simp only
    split
    · exact ih _ h
    · apply ih
      split
      · split
        · rename_i hname
          intro d hd
          rcases List.mem_append.1 hd with hd | hd
          · exact hrun d hd
          · rw [List.mem_singleton.1 hd]
            rcases parseFromCommand_shape (TrimSpace text) path with he | ht
            · rw [he] at hname
              exact absurd hname (by decide)
            · rw [ht]; decide
        · exact hrun
      · exact hrun

theorem docker_Scan_type (openLines : String → Option (List String × Bool)) (path : String)
    (deps : List Dependency) (h : docker.Scan openLines path = Except.ok deps) :
    ∀ d ∈ deps, d.PackageType ∈ dockerPackageTypes := by
  unfold docker.Scan at h
  split at h
  · exact absurd h (by simp)
  · split at h
    · exact absurd h (by simp)
    · injection h with h
      rw [← h]
      exact docker_scanLines_type path _ [] (fun d hd => absurd hd (List.not_mem_nil _))

end parsers

namespace parsers

open types strings

/-- C21 (counterexample): the Dockerfile with the lines `FROM python:3.11`,
`RUN pip install flask` and `RUN gem install bundler` gives records with the
package types `pip` and `gem`, which the spec does not enumerate. -/
theorem docker_emits_pip_and_gem :
    (docker.Scan
        (fileWithLines "Dockerfile"
          ["FROM python:3.11", "RUN pip install flask", "RUN gem install bundler"])
        "Dockerfile").toOption.map (List.map golang.nameVersionType) =
      some [("python", "3.11", "docker-image"), ("flask", "UNKNOWN", "pip"),
            ("bundler", "UNKNOWN", "gem")] ∧
    "pip" ∉ claimedPackageTypes ∧ "gem" ∉ claimedPackageTypes := by
  decide

/-- C21 (amended): every record a parser returns has a package type of the
enumeration npm, go, docker-image, apt, yum, apk, pip, gem, python, ruby,
maven. The Go parser returns `go`, the Node parser `npm`, the Python parser
`python`, the Ruby parser `ruby`, the Java parser `maven`, and the Docker
parser one of docker-image, apt, yum, apk, npm, pip, gem. -/
theorem parsers_emit_enumerated_package_types (goEnv : golang.GoEnv) (nodeEnv : nodejs.NodeEnv)
    (openLines : String → Option (List String × Bool))
    (readPOM : String → Except String java.POM) (path : String) :
    (∀ deps, golang.Scan goEnv path = Except.ok deps →
      ∀ d ∈ deps, d.PackageType = "go" ∧ d.PackageType ∈ packageTypes) ∧
    (∀ deps, nodejs.Scan nodeEnv path = Except.ok deps →
      ∀ d ∈ deps, d.PackageType = "npm" ∧ d.PackageType ∈ packageTypes) ∧
    (∀ deps, docker.Scan openLines path = Except.ok deps →
      ∀ d ∈ deps, d.PackageType ∈ dockerPackageTypes ∧ d.PackageType ∈ packageTypes) ∧
    (∀ deps, python.Scan openLines path = Except.ok deps →
      ∀ d ∈ deps, d.PackageType = "python" ∧ d.PackageType ∈ packageTypes) ∧
    (∀ deps, ruby.Scan openLines path = Except.ok deps →
      ∀ d ∈ deps, d.PackageType = "ruby" ∧ d.PackageType ∈ packageTypes) ∧
    (∀ deps, java.Scan readPOM path = Except.ok deps →
      ∀ d ∈ deps, d.PackageType = "maven" ∧ d.PackageType ∈ packageTypes) := by
  have hsub : ∀ t ∈ dockerPackageTypes, t ∈ packageTypes := by decide
  refine ⟨?_, ?_, ?_, ?_, ?_, ?_⟩
  · intro deps h d hd
    have := golang_Scan_type goEnv path deps h d hd
    exact ⟨this, by rw [this]; decide⟩
  · intro deps h d hd
    have := nodejs_Scan_type nodeEnv path deps h d hd
    exact ⟨this, by rw [this]; decide⟩
  · intro deps h d hd
    have := docker_Scan_type openLines path deps h d hd
    exact ⟨this, hsub _ this⟩
  · intro deps h d hd
    have := python_Scan_type openLines path deps h d hd
    exact ⟨this, by rw [this]; decide⟩
  · intro deps h d hd
    have := ruby_Scan_type openLines path deps h d hd
    exact ⟨this, by rw [this]; decide⟩
  · intro deps h d hd
    have := java_Scan_type readPOM path deps h d hd
    exact ⟨this, by rw [this]; decide⟩

/-- C22 (the code at the failing inputs): four parsers return records with the
empty version. The requirements line `pkg==` gives version `""` although a
line without an operator gives `UNKNOWN`; an entry of `packages` without a
version gives `""`; the Dockerfile line `FROM node:` gives `""` although
`FROM node` gives `latest`; every record of `scanWithGoList` has version `""`.
The Java parser, by contrast, gives `UNKNOWN` for a dependency without a
version. -/
theorem parsers_emit_empty_version :
    (python.Scan (fileWithLines "requirements.txt" ["pkg==", "flask"])
        "requirements.txt").toOption.map (List.map golang.nameVersionType) =
      some [("pkg", "", "python"), ("flask", "UNKNOWN", "python")] ∧
    (nodejs.Scan nodejs.unversionedEnv "package-lock.json").toOption.map
        (List.map golang.nameVersionType) = some [("lodash", "", "npm")] ∧
    (docker.Scan (fileWithLines "Dockerfile" ["FROM node:", "FROM node"])
        "Dockerfile").toOption.map (List.map golang.nameVersionType) =
      some [("node", "", "docker-image"), ("node", "latest", "docker-image")] ∧
    (golang.Scan golang.moduleListEnv "go.mod").toOption.map
        (List.map golang.nameVersionType) = some [("example.com/m", "", "go")] ∧
    (∀ (env : golang.GoEnv) (path : String) (deps : List Dependency),
      golang.scanWithGoList env path = Except.ok deps → ∀ d ∈ deps, d.Version = "") ∧
    (java.Scan java.unversionedPOM "pom.xml").toOption.map (List.map golang.nameVersionType) =
      some [("junit:junit", "UNKNOWN", "maven")] := by
  refine ⟨by decide, by decide, by decide, by decide, ?_, by decide⟩
  intro env path deps h d hd
  exact (scanWithGoList_type env path deps h d hd).2

end parsers

/-! ## Theorems: sentinels and messages -/

namespace nodejs

open types strings

theorem typeString_eq_some (fields : List (String × JSON)) (t : String) :
    typeString fields = some t ↔ fields.lookup "type" = some (JSON.str t) := by
  unfold typeString
  cases hl : fields.lookup "type" with
  | none => simp
  | some v =>
    cases v with
    | str s => simp
    | null => simp
    | bool b => simp
    | number n => simp
    | arr xs => simp
    | obj kvs => simp

theorem parseLicense_obj (fields : List (String × JSON)) :
    parseLicense (JSON.obj fields) = (typeString fields).getD "UNKNOWN" := by
  simp only [parseLicense]
  cases typeString fields <;> rfl

theorem parseLicense_arr_obj (fields : List (String × JSON)) (rest : List JSON) :
    parseLicense (JSON.arr (JSON.obj fields :: rest)) = (typeString fields).getD "UNKNOWN" := by
  simp only [parseLicense]
  cases typeString fields <;> rfl

/-- C31 (the code at the failing input): `parseLicense` returns the empty
string for the license object `{"type": ""}` and for the array
`[{"type": ""}]`, although it maps the empty string itself to `UNKNOWN`; it
returns the empty string exactly for an object, or an array with a first
object, whose `type` is the empty string. A lock file whose entry carries such
a license gives an npm record with the empty license type. -/
theorem parseLicense_returns_empty_string :
    parseLicense (JSON.obj [("type", JSON.str "")]) = "" ∧
    parseLicense (JSON.arr [JSON.obj [("type", JSON.str "")]]) = "" ∧
    parseLicense (JSON.str "") = "UNKNOWN" ∧
    parseLicense JSON.null = "UNKNOWN" ∧
    (∀ v, parseLicense v = "" ↔
      ∃ fields, fields.lookup "type" = some (JSON.str "") ∧
        (v = JSON.obj fields ∨ ∃ rest, v = JSON.arr (JSON.obj fields :: rest))) ∧
    (Scan emptyTypeEnv "package-lock.json").toOption.map
        (List.map (fun d => (d.Name, d.LicenseType))) = some [("lodash", "")] := by
  have hopt : ∀ fields : List (String × JSON),
      (typeString fields).getD "UNKNOWN" = "" ↔ fields.lookup "type" = some (JSON.str "") := by
    intro fields
    rw [← typeString_eq_some]
    cases typeString fields with
    | none => simp
    | some t => simp
  refine ⟨rfl, rfl, rfl, rfl, ?_, by decide⟩
  intro v
  constructor
  · intro h
    cases v with
    | null => exact absurd h (by decide)
    | bool b => simp [parseLicense] at h
    | number n => simp [parseLicense] at h
    | str s =>
      simp only [parseLicense] at h
      by_cases hs : s = ""
      · subst hs; exact absurd h (by decide)
      · rw [if_neg (by simpa using hs)] at h
        exact absurd h hs
    | obj fields =>
      rw [parseLicense_obj] at h
      exact ⟨fields, (hopt fields).1 h, Or.inl rfl⟩
    | arr xs =>
      cases xs with
      | nil => exact absurd h (by decide)
      | cons first rest =>
        cases first with
        | obj fields =>
          rw [parseLicense_arr_obj] at h
          exact ⟨fields, (hopt fields).1 h, Or.inr ⟨rest, rfl⟩⟩
        | null => simp [parseLicense] at h
        | bool b => simp [parseLicense] at h
        | number n => simp [parseLicense] at h
        | str s => simp [parseLicense] at h
        | arr ys => simp [parseLicense] at h
  · rintro ⟨fields, hl, hv | ⟨rest, hv⟩⟩
    · rw [hv, parseLicense_obj]; exact (hopt fields).2 hl
    · rw [hv, parseLicense_arr_obj]; exact (hopt fields).2 hl

end nodejs

namespace audit

open types strings

theorem lookup_default_of_not_mem (l : List (String × String)) (k d : String)
    (h : k ∉ l.map Prod.fst) :
    (match l.lookup k with
     | some m => m
     | none => d) = d := by
  cases hl : l.lookup k with
  | none => rfl
  | some m =>
    have : (l.lookup k).isSome = true := by rw [hl]; rfl
    exact absurd ((golang.lookup_isSome_iff_mem_keys k l).1 this) h

/-- C37 (the code at the failing input): the dangerous rule compares license
types ignoring letter case, but the two tables are looked up with the license
type as written. Under the default configuration the type `gpl-3.0` triggers
the rule and gets the generic message and suggestion, whereas `GPL-3.0` gets
the entries of the tables; a type gets table entries exactly when it is one of
the twelve identifiers letter for letter. -/
theorem dangerous_message_lookup_is_case_sensitive :
    isDangerousLicense config.getDefaultConfig "gpl-3.0" = true ∧
    ToUpper "gpl-3.0" = ToUpper "GPL-3.0" ∧
    "GPL-3.0" ∈ listedIdentifiers ∧
    (Audit config.getDefaultConfig [licensed "gpl-3.0" ""]).map issueText =
      [("dangerous_license",
        "This license may have restrictions that could affect your project",
        "Review the license terms carefully and consult with legal counsel if necessary")] ∧
    (Audit config.getDefaultConfig [licensed "GPL-3.0" ""]).map issueText =
      [("dangerous_license",
        "GPL-3.0 is a copyleft license that may require releasing your source code under the same license",
        "Consider using MIT, Apache-2.0, or BSD licensed alternatives")] ∧
    (∀ t : String, t ∉ listedIdentifiers →
      getDangerousLicenseMessage t =
        "This license may have restrictions that could affect your project" ∧
      getDangerousLicenseSuggestion t =
        "Review the license terms carefully and consult with legal counsel if necessary") ∧
    (∀ t ∈ listedIdentifiers,
      getDangerousLicenseMessage t ≠
        "This license may have restrictions that could affect your project" ∧
      getDangerousLicenseSuggestion t ≠
        "Review the license terms carefully and consult with legal counsel if necessary") := by
  refine ⟨by decide, by decide, by decide, by decide, by decide, ?_, by decide⟩
  intro t ht
  constructor
  · unfold getDangerousLicenseMessage
    exact lookup_default_of_not_mem _ t _ ht
  · unfold getDangerousLicenseSuggestion
    exact lookup_default_of_not_mem _ t _ ht

/-- C39: the empty license type and `UNKNOWN` are classified differently and
counted alike. Under the default configuration a dependency with the empty
license type and no license text gets exactly one issue, `unclear_license`
with the message `No license information found`; with the license type
`UNKNOWN` it gets exactly two, `unclear_license` and `missing_license`;
`calculateSummary` counts the two dependencies under the one key `UNKNOWN`. -/
theorem empty_and_unknown_license (dep : Dependency) :
    Audit config.getDefaultConfig [{ dep with LicenseType := "", LicenseText := "" }] =
      [unclearIssue { dep with LicenseType := "", LicenseText := "" }] ∧
    (unclearIssue { dep with LicenseType := "", LicenseText := "" }).Type_ = "unclear_license" ∧
    (unclearIssue { dep with LicenseType := "", LicenseText := "" }).Message =
      "No license information found" ∧
    issuesOfType "missing_license"
      (Audit config.getDefaultConfig [{ dep with LicenseType := "", LicenseText := "" }]) = [] ∧
    Audit config.getDefaultConfig [{ dep with LicenseType := "UNKNOWN", LicenseText := "" }] =
      [unclearIssue { dep with LicenseType := "UNKNOWN", LicenseText := "" },
       missingIssue { dep with LicenseType := "UNKNOWN", LicenseText := "" }] ∧
    (Audit config.getDefaultConfig
        [{ dep with LicenseType := "UNKNOWN", LicenseText := "" }]).map (fun i => i.Type_) =
      ["unclear_license", "missing_license"] ∧
    (scanner.calculateSummary
        (scanner.freshResult
          [{ dep with LicenseType := "", LicenseText := "" },
           { dep with LicenseType := "UNKNOWN", LicenseText := "" }])).Summary.LicenseBreakdown =
      [("UNKNOWN", 2)] := by
  have hd1 : isDangerousLicense config.getDefaultConfig "" = false := by decide
  have hu1 : isUnclearLicense config.getDefaultConfig "" = true := by decide
  have hd2 : isDangerousLicense config.getDefaultConfig "UNKNOWN" = false := by decide
  have hu2 : isUnclearLicense config.getDefaultConfig "UNKNOWN" = true := by decide
  have ht1 : isPotentiallyTaintedLicense { dep with LicenseType := "", LicenseText := "" } =
      false := by
    show isPotentiallyTaintedLicense (licensed "" "") = false
    decide
  have ht2 : isPotentiallyTaintedLicense { dep with LicenseType := "UNKNOWN", LicenseText := "" } =
      false := by
    show isPotentiallyTaintedLicense (licensed "UNKNOWN" "") = false
    decide
  have ha1 : Audit config.getDefaultConfig [{ dep with LicenseType := "", LicenseText := "" }] =
      [unclearIssue { dep with LicenseType := "", LicenseText := "" }] := by
    rw [Audit_single, auditDep_eq, ht1]
    simp only [hd1, hu1]
    rfl
  have ha2 : Audit config.getDefaultConfig
        [{ dep with LicenseType := "UNKNOWN", LicenseText := "" }] =
      [unclearIssue { dep with LicenseType := "UNKNOWN", LicenseText := "" },
       missingIssue { dep with LicenseType := "UNKNOWN", LicenseText := "" }] := by
    rw [Audit_single, auditDep_eq, ht2]
    simp only [hd2, hu2]
    rfl
  refine ⟨ha1, rfl, rfl, ?_, ha2, ?_, ?_⟩
  · rw [ha1]; rfl
  · rw [ha2]; rfl
  · rw [scanner.calculateSummary_eq]
    rfl

end audit

/-! ## Theorems: the `Detect` predicates -/

namespace filepath

theorem takeWhile_append_stop {α : Type} (p : α → Bool) (a : List α) (x : α) (b : List α)
    (ha : ∀ c ∈ a, p c = true) (hx : p x = false) : (a ++ x :: b).takeWhile p = a := by
  induction a with
  | nil => simp [List.takeWhile, hx]
  | cons c cs ih =>
    rw [List.cons_append, List.takeWhile_cons, if_pos (ha c (List.mem_cons_self _ _)),
      ih (fun c2 hc2 => ha c2 (List.mem_cons_of_mem _ hc2))]

theorem takeWhile_all {α : Type} (p : α → Bool) (a : List α)
    (ha : ∀ c ∈ a, p c = true) : a.takeWhile p = a := by
  induction a with
  | nil => rfl
  | cons c cs ih =>
    rw [List.takeWhile_cons, if_pos (ha c (List.mem_cons_self _ _)),
      ih (fun c2 hc2 => ha c2 (List.mem_cons_of_mem _ hc2))]

/-- The base name of a path that ends in a file name is the file name. -/
theorem Base_of_file_name (pre : List Char) (f : String) (hf : f ≠ "")
    (hslash : '/' ∉ f.data) (hpre : pre = [] ∨ ∃ d, pre = d ++ ['/']) :
    Base ⟨pre ++ f.data⟩ = f := by
  have hfd : f.data ≠ [] := fun h => hf (String.ext h)
  have hne : (pre ++ f.data) ≠ [] := by
    intro h
    exact hfd (List.append_eq_nil.1 h).2
  have hrev : (pre ++ f.data).reverse = f.data.reverse ++ pre.reverse := List.reverse_append _ _
  have hnot : ∀ c ∈ f.data.reverse, (c != '/') = true := by
    intro c hc
    have hc2 : c ∈ f.data := List.mem_reverse.1 hc
    rw [bne_iff_ne]
    intro h
    exact hslash (h ▸ hc2)
  have hdrop : (pre ++ f.data).reverse.dropWhile (fun c => c == '/') = (pre ++ f.data).reverse := by
    rw [hrev]
    cases hr : f.data.reverse with
    | nil => exact absurd (List.reverse_eq_nil_iff.1 hr) hfd
    | cons c cs =>
      have hc : (c != '/') = true := hnot c (by rw [hr]; exact List.mem_cons_self _ _)
      have hc2 : ¬ (c == '/') = true := by
        rw [bne_iff_ne] at hc
        simpa using hc
      rw [List.cons_append]
      exact List.dropWhile_cons_of_neg hc2
  have htake : ((pre ++ f.data).reverse).takeWhile (fun c => c != '/') = f.data.reverse := by
    rw [hrev]
    rcases hpre with h | ⟨d, h⟩
    · subst h
      rw [List.reverse_nil, List.append_nil]
      exact takeWhile_all _ _ hnot
    · subst h
      rw [List.reverse_append, List.reverse_singleton, List.singleton_append]
      exact takeWhile_append_stop _ _ _ _ hnot (by decide)
  unfold Base
  have hemp : (pre ++ f.data).isEmpty = false := by
    cases h : pre ++ f.data with
    | nil => exact absurd h hne
    | cons c cs => rfl
  simp only [hemp, Bool.false_eq_true, if_false, hdrop, List.reverse_reverse, htake]
  have hemp2 : f.data.isEmpty = false := by
    cases h : f.data with
    | nil => exact absurd h hfd
    | cons c cs => rfl
  rw [hemp2]
  rfl

theorem Base_file_name (f : String) (hf : f ≠ "") (hslash : '/' ∉ f.data) : Base f = f :=
  Base_of_file_name [] f hf hslash (Or.inl rfl)

theorem Base_dir_file_name (d f : String) (hf : f ≠ "") (hslash : '/' ∉ f.data) :
    Base (d ++ "/" ++ f) = f := by
  have h := Base_of_file_name (d.data ++ ['/']) f hf hslash (Or.inr ⟨d.data, rfl⟩)
  have hd : (d ++ "/" ++ f) = ⟨(d.data ++ ['/']) ++ f.data⟩ := by
    apply String.ext
    simp [String.data_append]
  rw [hd]
  exact h

end filepath

namespace parsers

open types strings

/-- C38: each parser's `Detect` is decided by the final path element. For a
file name `f` (non-empty, without a slash) and every prefix `d`, the base name
of `d/f` is `f` and each of the six predicates gives the same answer for `d/f`
as for `f`. The Go parser accepts exactly the paths whose base name is
`go.mod` or `go.sum`, the Node parser exactly those whose base name is
`package.json` or `package-lock.json`; both reject the empty path, and the
paths of the two `TestDetect` tables get the answers the tests expect. -/
theorem detect_decided_by_file_name (d f : String) (hf : f ≠ "") (hslash : '/' ∉ f.data) :
    filepath.Base (d ++ "/" ++ f) = f ∧ filepath.Base f = f ∧
    golang.Detect (d ++ "/" ++ f) = golang.Detect f ∧
    nodejs.Detect (d ++ "/" ++ f) = nodejs.Detect f ∧
    docker.Detect (d ++ "/" ++ f) = docker.Detect f ∧
    python.Detect (d ++ "/" ++ f) = python.Detect f ∧
    ruby.Detect (d ++ "/" ++ f) = ruby.Detect f ∧
    java.Detect (d ++ "/" ++ f) = java.Detect f ∧
    (golang.Detect (d ++ "/" ++ f) = true ↔ f = "go.mod" ∨ f = "go.sum") ∧
    (nodejs.Detect (d ++ "/" ++ f) = true ↔ f = "package.json" ∨ f = "package-lock.json") ∧
    (∀ path, golang.Detect path = true ↔
      filepath.Base path = "go.mod" ∨ filepath.Base path = "go.sum") ∧
    (∀ path, nodejs.Detect path = true ↔
      filepath.Base path = "package.json" ∨ filepath.Base path = "package-lock.json") ∧
    golang.Detect "" = false ∧ nodejs.Detect "" = false ∧
    ["go.mod", "go.sum", "vendor/go.mod", "package.json", "requirements.txt", ""].map
      golang.Detect = [true, true, true, false, false, false] ∧
    ["package.json", "package-lock.json", "node_modules/package.json", "go.mod",
      "requirements.txt", ""].map nodejs.Detect = [true, true, true, false, false, false] := by
  have hb1 := filepath.Base_dir_file_name d f hf hslash
  have hb2 := filepath.Base_file_name f hf hslash
  have hgo : ∀ path, golang.Detect path = true ↔
      filepath.Base path = "go.mod" ∨ filepath.Base path = "go.sum" := by
    intro path
    simp [golang.Detect]
  have hnode : ∀ path, nodejs.Detect path = true ↔
      filepath.Base path = "package.json" ∨ filepath.Base path = "package-lock.json" := by
    intro path
    simp [nodejs.Detect]
  refine ⟨hb1, hb2, ?_, ?_, ?_, ?_, ?_, ?_, ?_, ?_, hgo, hnode, by decide, by decide,
    by decide, by decide⟩
  · simp only [golang.Detect, hb1, hb2]
  · simp only [nodejs.Detect, hb1, hb2]
  · simp only [docker.Detect, hb1, hb2]
  · simp only [python.Detect, hb1, hb2]
  · simp only [ruby.Detect, hb1, hb2]
  · simp only [java.Detect, hb1, hb2]
  · rw [hgo, hb1]
  · rw [hnode, hb1]

/-- Witness for C38: the path `vendor/go.mod`. -/
theorem detect_decided_by_file_name_witness :
    "go.mod" ≠ "" ∧ '/' ∉ "go.mod".data ∧
    golang.Detect ("vendor" ++ "/" ++ "go.mod") = golang.Detect "go.mod" ∧
    golang.Detect ("vendor" ++ "/" ++ "go.mod") = true :=
  ⟨by decide, by decide,
   (detect_decided_by_file_name "vendor" "go.mod" (by decide) (by decide)).2.2.1,
   by decide⟩

theorem suffixes_exclusive (b : String) (hd : HasSuffix b ".dockerfile" = true)
    (hr : HasSuffix b ".gemspec" = true) : False := by
  unfold HasSuffix at hd hr
  generalize b.data.reverse = r at hd hr
  have h1 : ".dockerfile".data.reverse = 'e' :: "lifrekcod.".data := rfl
  have h2 : ".gemspec".data.reverse = 'c' :: "epsmeg.".data := rfl
  rw [h1] at hd
  rw [h2] at hr
  cases r with
  | nil => simp [List.isPrefixOf] at hd
  | cons c cs =>
    simp only [List.isPrefixOf, Bool.and_eq_true, beq_iff_eq] at hd hr
    have h : 'e' = 'c' := hd.1.trans hr.1.symm
    exact absurd h (by decide)

theorem detections_at_most_one (path : String) : (detections path).count true ≤ 1 := by
  unfold detections nodejs.Detect golang.Detect docker.Detect python.Detect ruby.Detect
    java.Detect
  simp only
  generalize filepath.Base path = b
  by_cases h : b ∈ fixedNames
  · simp only [fixedNames, List.mem_cons, List.mem_singleton, List.not_mem_nil, or_false] at h
    rcases h with h | h | h | h | h | h | h | h | h | h | h | h | h | h | h <;> subst h <;> decide
  · simp only [fixedNames, List.mem_cons, List.mem_singleton, List.not_mem_nil, or_false,
      not_or] at h
    obtain ⟨h1, h2, h3, h4, h5, h6, h7, h8, h9, h10, h11, h12, h13, h14, h15⟩ := h
    have e : ∀ lit : String, b ≠ lit → (b == lit) = false := fun lit hne => by
      rw [beq_eq_false_iff_ne]; exact hne
    rw [e _ h1, e _ h2, e _ h3, e _ h4, e _ h5, e _ h6, e _ h7, e _ h8, e _ h9, e _ h10,
      e _ h11, e _ h12, e _ h13, e _ h14, e _ h15]
    cases hd : HasSuffix b ".dockerfile" <;> cases hr : HasSuffix b ".gemspec"
    · decide
    · decide
    · decide
    · exact absurd (suffixes_exclusive b hd hr) id

theorem New_scanners (fs : String → ignore.FileState) (p : scanner.Parsers) (config : Config) :
    (scanner.New fs p config).scanners =
      (if config.Scanners.NodeJS then [p.nodejs] else []) ++
      ((if config.Scanners.Go then [p.golang] else []) ++
      ((if config.Scanners.Docker then [p.docker] else []) ++
      ((if config.Scanners.Python then [p.python] else []) ++
      ((if config.Scanners.Ruby then [p.ruby] else []) ++
      (if config.Scanners.Java then [p.java] else []))))) := by
  unfold scanner.New
  cases config.Scanners.NodeJS <;> cases config.Scanners.Go <;>
  cases config.Scanners.Docker <;> cases config.Scanners.Python <;>
  cases config.Scanners.Ruby <;> cases config.Scanners.Java <;> rfl

theorem scanFile_runs_accepting (path : String) (scanners : List scanner.PackageScanner) :
    ∀ deps : List Dependency,
      scanner.scanFile scanners path deps =
        (scanners.filter (fun s => s.Detect path)).foldl
          (fun deps s =>
            match s.Scan path with
            | Except.error _ => deps
            | Except.ok found => deps ++ found.map (fun d => { d with FilePath := path }))
          deps := by
  induction scanners with
  | nil => intro deps; rfl
  | cons s rest ih =>
    intro deps
    have hstep : scanner.scanFile (s :: rest) path deps =
        scanner.scanFile rest path
          (if s.Detect path then
            match s.Scan path with
            | Except.error _ => deps
            | Except.ok found => deps ++ found.map (fun d => { d with FilePath := path })
          else deps) := rfl
    rw [hstep, ih]
    cases hdet : s.Detect path
    · rw [List.filter_cons_of_neg (by simp [hdet])]
      rfl
    · rw [List.filter_cons_of_pos (by simp [hdet]), List.foldl_cons]
      rfl

/-- C40: the six `Detect` predicates are pairwise disjoint. For every path at
most one of them answers true; so among the parsers `New` registers, whatever
the configuration, at most one accepts a visited file, and the dispatch loop
of the walk either leaves the records as they are or appends the records of
that one parser. -/
theorem detect_predicates_disjoint (path : String) (fs : String → ignore.FileState)
    (nodeEnv : nodejs.NodeEnv) (goEnv : golang.GoEnv)
    (openLines : String → Option (List String × Bool))
    (readPOM : String → Except String java.POM) (config : Config) (deps : List Dependency) :
    (detections path).count true ≤ 1 ∧
    ((scanner.New fs (registered nodeEnv goEnv openLines readPOM) config).scanners.filter
      (fun s => s.Detect path)).length ≤ 1 ∧
    (scanner.scanFile (scanner.New fs (registered nodeEnv goEnv openLines readPOM) config).scanners
        path deps = deps ∨
      ∃ s ∈ (scanner.New fs (registered nodeEnv goEnv openLines readPOM) config).scanners,
        s.Detect path = true ∧
        ∃ found, s.Scan path = Except.ok found ∧
          scanner.scanFile
              (scanner.New fs (registered nodeEnv goEnv openLines readPOM) config).scanners
              path deps =
            deps ++ found.map (fun d => { d with FilePath := path })) := by
  have hcount := detections_at_most_one path
  have hsum : ∀ d1 d2 d3 d4 d5 d6 : Bool, [d1, d2, d3, d4, d5, d6].count true ≤ 1 →
      (if d1 then 1 else 0) + ((if d2 then 1 else 0) + ((if d3 then 1 else 0) +
        ((if d4 then 1 else 0) + ((if d5 then 1 else 0) + (if d6 then 1 else 0))))) ≤ 1 := by
    decide
  have key : ∀ (c : Bool) (p : scanner.PackageScanner),
      ((if c then [p] else ([] : List scanner.PackageScanner)).filter
        (fun s => s.Detect path)).length ≤ if p.Detect path then 1 else 0 := by
    intro c p
    cases c <;> cases h : p.Detect path <;> simp [h]
  have hlen : ((scanner.New fs (registered nodeEnv goEnv openLines readPOM) config).scanners.filter
      (fun s => s.Detect path)).length ≤ 1 := by
    rw [New_scanners]
    simp only [List.filter_append, List.length_append]
    have k1 := key config.Scanners.NodeJS (registered nodeEnv goEnv openLines readPOM).nodejs
    have k2 := key config.Scanners.Go (registered nodeEnv goEnv openLines readPOM).golang
    have k3 := key config.Scanners.Docker (registered nodeEnv goEnv openLines readPOM).docker
    have k4 := key config.Scanners.Python (registered nodeEnv goEnv openLines readPOM).python
    have k5 := key config.Scanners.Ruby (registered nodeEnv goEnv openLines readPOM).ruby
    have k6 := key config.Scanners.Java (registered nodeEnv goEnv openLines readPOM).java
    have hs := hsum (nodejs.Detect path) (golang.Detect path) (docker.Detect path)
      (python.Detect path) (ruby.Detect path) (java.Detect path) hcount
    have e1 : (registered nodeEnv goEnv openLines readPOM).nodejs.Detect path =
        nodejs.Detect path := rfl
    have e2 : (registered nodeEnv goEnv openLines readPOM).golang.Detect path =
        golang.Detect path := rfl
    have e3 : (registered nodeEnv goEnv openLines readPOM).docker.Detect path =
        docker.Detect path := rfl
    have e4 : (registered nodeEnv goEnv openLines readPOM).python.Detect path =
        python.Detect path := rfl
    have e5 : (registered nodeEnv goEnv openLines readPOM).ruby.Detect path =
        ruby.Detect path := rfl
    have e6 : (registered nodeEnv goEnv openLines readPOM).java.Detect path =
        java.Detect path := rfl
    rw [e1] at k1
    rw [e2] at k2
    rw [e3] at k3
    rw [e4] at k4
    rw [e5] at k5
    rw [e6] at k6
    omega
  refine ⟨hcount, hlen, ?_⟩
  rw [scanFile_runs_accepting]
  generalize hsc : (scanner.New fs (registered nodeEnv goEnv openLines readPOM) config).scanners =
    scanners at hlen ⊢
  cases hf : scanners.filter (fun s => s.Detect path) with
  | nil => exact Or.inl rfl
  | cons s rest =>
    rw [hf] at hlen
    have hrest : rest = [] := by
      cases rest with
      | nil => rfl
      | cons x xs => simp at hlen
    subst hrest
    have hmem : s ∈ scanners.filter (fun s => s.Detect path) := by
      rw [hf]; exact List.mem_singleton.2 rfl
    obtain ⟨hin, hdet⟩ := List.mem_filter.1 hmem
    rw [List.foldl_cons, List.foldl_nil]
    cases hscan : s.Scan path with
    | error e => exact Or.inl rfl
    | ok found => exact Or.inr ⟨s, hin, hdet, found, hscan, rfl⟩

end parsers

/-! ## Theorems: the Docker parser -/

namespace strings

theorem fieldsList_nonempty (l : List Char) : ∀ f ∈ fieldsList l, f ≠ [] := by
  induction l with
  | nil =>
    intro f hf
    have h0 : fieldsList [] = [] := rfl
    rw [h0] at hf
    exact absurd hf (List.not_mem_nil _)
  | cons c cs ih =>
    intro f hf
    by_cases hc : isSpace c = true
    · rw [fieldsList_space_cons c cs hc] at hf
      exact ih f hf
    · cases cs with
      | nil =>
        rw [fieldsList_nonspace_single c hc] at hf
        rw [List.mem_singleton.1 hf]
        exact List.cons_ne_nil _ _
      | cons d ds =>
        by_cases hd : isSpace d = true
        · rw [fieldsList_nonspace_space c d ds hc hd] at hf
          rcases List.mem_cons.1 hf with h | h
          · rw [h]; exact List.cons_ne_nil _ _
          · exact ih f h
        · rw [fieldsList_nonspace_nonspace c d ds hc hd] at hf
          cases hfl : fieldsList (d :: ds) with
          | nil =>
            rw [hfl] at hf
            rw [List.mem_singleton.1 hf]
            exact List.cons_ne_nil _ _
          | cons g gs =>
            rw [hfl] at hf
            rcases List.mem_cons.1 hf with h | h
            · rw [h]; exact List.cons_ne_nil _ _
            · exact ih f (by rw [hfl]; exact List.mem_cons_of_mem _ h)

theorem Fields_nonempty (s f : String) (hf : f ∈ Fields s) : f ≠ "" := by
  unfold Fields at hf
  obtain ⟨l, hl, hlf⟩ := List.mem_map.1 hf
  intro h
  rw [h] at hlf
  have : l = [] := by
    have := congrArg String.data hlf
    simpa using this
  exact fieldsList_nonempty s.data l hl this

/-- The first occurrence of a character: it is not in the part before the
position found, and the list continues with it there. -/
theorem indexList_char (c : Char) (l : List Char) :
    match indexList [c] l with
    | none => c ∉ l
    | some i => c ∉ l.take i ∧ l.drop i = c :: l.drop (i + 1) := by
  induction l with
  | nil => simp [indexList]
  | cons x xs ih =>
    unfold indexList
    by_cases hx : c = x
    · subst hx
      simp [List.isPrefixOf]
    · have hp : [c].isPrefixOf (x :: xs) = false := by
        simp [List.isPrefixOf, hx]
      rw [hp]
      simp only [Bool.false_eq_true, if_false]
      cases hi : indexList [c] xs with
      | none =>
        rw [hi] at ih
        simp only [Option.map_none']
        intro hm
        rcases List.mem_cons.1 hm with h | h
        · exact hx h
        · exact ih h
      | some i =>
        rw [hi] at ih
        simp only [Option.map_some']
        refine ⟨?_, ?_⟩
        · intro hm
          rw [List.take_succ_cons] at hm
          rcases List.mem_cons.1 hm with h | h
          · exact hx h
          · exact ih.1 h
        · rw [List.drop_succ_cons, List.drop_succ_cons]
          exact ih.2

theorem Contains_char_false (s : String) (c : Char) (h : c ∉ s.data) :
    Contains s ⟨[c]⟩ = false := by
  unfold Contains
  rw [containsList_eq_isSome]
  have := indexList_char c s.data
  cases hi : indexList [c] s.data with
  | none => rfl
  | some i =>
    rw [hi] at this
    have hmem : c ∈ s.data.drop i := by rw [this.2]; exact List.mem_cons_self _ _
    exact absurd (List.mem_of_mem_drop hmem) h

end strings

namespace docker

open types strings

/-- The two pieces `strings.SplitN(image, ":", 2)` gives for an image that
contains a colon. -/
theorem SplitN_colon (image : String) (h : Contains image ":" = true) :
    ∃ name version : String, SplitN image ":" 2 = [name, version] ∧
      name ++ ":" ++ version = image ∧ ':' ∉ name.data := by
  unfold Contains at h
  rw [containsList_eq_isSome] at h
  have hspec := indexList_char ':' image.data
  have hcolon : ":".data = [':'] := rfl
  rw [hcolon] at h
  cases hi : indexList [':'] image.data with
  | none => rw [hi] at h; exact absurd h (by decide)
  | some i =>
    rw [hi] at hspec
    refine ⟨⟨image.data.take i⟩, ⟨image.data.drop (i + 1)⟩, ?_, ?_, hspec.1⟩
    · unfold SplitN
      rw [hcolon]
      show (splitList [':'] 1 image.data).map String.mk = _
      unfold splitList
      rw [hi]
      rfl
    · apply String.ext
      simp only [String.data_append]
      rw [List.append_assoc, List.singleton_append, ← hspec.2, List.take_append_drop]

/-- C34: `parseFromCommand` splits the image reference at its first colon. For
a line whose fields are a first field, the image and possibly more, the result
is the empty record when the image is `scratch`; otherwise the package type is
`docker-image`, and the name is the image with version `latest` when the image
has no colon, or else the name is the part before the first colon and the
version the part after it, so that name, colon and version make up the image.
A line with fewer than two fields gives the empty record. The Dockerfile with
`FROM node:18-alpine`, `FROM ubuntu` and `FROM scratch` gives the two
records. -/
theorem parseFromCommand_splits_image (line filePath : String) :
    (∀ (first image : String) (rest : List String), Fields line = first :: image :: rest →
      (image = "scratch" → parseFromCommand line filePath = golang.emptyDependency) ∧
      (image ≠ "scratch" →
        (parseFromCommand line filePath).PackageType = "docker-image" ∧
        (parseFromCommand line filePath).LicenseType = "UNKNOWN" ∧
        (parseFromCommand line filePath).FilePath = filePath ∧
        (Contains image ":" = false →
          (parseFromCommand line filePath).Name = image ∧
          (parseFromCommand line filePath).Version = "latest") ∧
        (Contains image ":" = true →
          (parseFromCommand line filePath).Name ++ ":" ++
            (parseFromCommand line filePath).Version = image ∧
          ':' ∉ (parseFromCommand line filePath).Name.data))) ∧
    ((Fields line).length < 2 → parseFromCommand line filePath = golang.emptyDependency) ∧
    (Scan (parsers.fileWithLines "Dockerfile"
        ["FROM node:18-alpine", "FROM ubuntu", "FROM scratch"]) "Dockerfile").toOption.map
      (List.map golang.nameVersionType) =
      some [("node", "18-alpine", "docker-image"), ("ubuntu", "latest", "docker-image")] := by
  refine ⟨?_, ?_, by decide⟩
  · intro first image rest hf
    have hne : image ≠ "" :=
      Fields_nonempty line image (by rw [hf]; exact List.mem_cons_of_mem _ (List.mem_cons_self _ _))
    constructor
    · intro hs
      unfold parseFromCommand
      rw [hf]
      simp [hs]
    · intro hs
      have hcond : (image == "scratch" || image == "") = false := by
        simp [hs, hne]
      unfold parseFromCommand
      rw [hf]
      simp only [hcond, Bool.false_eq_true, if_false]
      refine ⟨trivial, trivial, trivial, ?_, ?_⟩
      · intro hc
        simp [hc]
      · intro hc
        obtain ⟨name, version, hsplit, hjoin, hno⟩ := SplitN_colon image hc
        simp only [hc, if_true, hsplit]
        exact ⟨hjoin, hno⟩
  · intro hlen
    unfold parseFromCommand
    cases hf : Fields line with
    | nil => rfl
    | cons a tl =>
      cases tl with
      | nil => rfl
      | cons b tl2 =>
        rw [hf] at hlen
        simp only [List.length_cons] at hlen
        omega

end docker

namespace docker

open types strings

theorem matchDependencies_names (pkgManager filePath : String) (submatches : List String) :
    ∀ acc : List Dependency,
      (∀ d ∈ acc, d.Name ≠ "" ∧ Contains d.Name " " = false) →
      ∀ d ∈ matchDependencies pkgManager filePath submatches acc,
        d.Name ≠ "" ∧ Contains d.Name " " = false := by
  induction submatches with
  | nil => intro acc h; exact h
  | cons s rest ih =>
    intro acc h
    unfold matchDependencies
    simp only
    split
    · exact ih _ h
    · rename_i hcond
      apply ih
      intro d hd
      rcases List.mem_append.1 hd with hd | hd
      · exact h d hd
      · rw [List.mem_singleton.1 hd]
        simp only [Bool.or_eq_true, beq_iff_eq, not_or, Bool.not_eq_true] at hcond
        exact ⟨hcond.1, hcond.2⟩

theorem parseRunCommand_names (line filePath : String)
    (patterns : List (String × regexp.InstallPattern)) :
    ∀ d ∈ parseRunCommand line patterns filePath,
      d.Name ≠ "" ∧ Contains d.Name " " = false := by
  unfold parseRunCommand
  simp only
  generalize TrimSpace (TrimPrefix (TrimPrefix line "RUN") "run") = command
  have hgen : ∀ (ps : List (String × regexp.InstallPattern)) (acc : List Dependency),
      (∀ d ∈ acc, d.Name ≠ "" ∧ Contains d.Name " " = false) →
      ∀ d ∈ ps.foldl
        (fun dependencies entry =>
          matchDependencies entry.1 filePath (regexp.FindAllInstall entry.2 command)
            dependencies) acc, d.Name ≠ "" ∧ Contains d.Name " " = false := by
    intro ps
    induction ps with
    | nil => intro acc h; exact h
    | cons e rest ih =>
      intro acc h
      rw [List.foldl_cons]
      exact ih _ (matchDependencies_names e.1 filePath _ acc h)
  exact hgen patterns [] (fun d hd => absurd hd (List.not_mem_nil _))

/-- C35 (the code at the failing input): the expressions capture the first
token after the verb, whatever it is. The line `RUN apt-get install -y curl`
gives one record, named `-y`, and no record named `curl`; the flags of
`npm install -g`, `pip install --no-cache-dir`, `apk add --no-cache` and
`yum install -y` are captured likewise, whereas `RUN apt-get install curl`
gives `curl`. What does hold for every line is that a name is not empty and
has no space. -/
theorem parseRunCommand_captures_option_flag :
    (parseRunCommand "RUN apt-get install -y curl" patterns "Dockerfile").map
        golang.nameVersionType = [("-y", "UNKNOWN", "apt")] ∧
    (Scan (parsers.fileWithLines "Dockerfile" ["FROM ubuntu:22.04", "RUN apt-get install -y curl"])
        "Dockerfile").toOption.map (List.map golang.nameVersionType) =
      some [("ubuntu", "22.04", "docker-image"), ("-y", "UNKNOWN", "apt")] ∧
    (parseRunCommand "RUN npm install -g typescript" patterns "Dockerfile").map
        golang.nameVersionType = [("-g", "UNKNOWN", "npm")] ∧
    (parseRunCommand "RUN pip install --no-cache-dir -r requirements.txt" patterns
        "Dockerfile").map golang.nameVersionType = [("--no-cache-dir", "UNKNOWN", "pip")] ∧
    (parseRunCommand "RUN apk add --no-cache git" patterns "Dockerfile").map
        golang.nameVersionType = [("--no-cache", "UNKNOWN", "apk")] ∧
    (parseRunCommand "RUN yum install -y httpd" patterns "Dockerfile").map
        golang.nameVersionType = [("-y", "UNKNOWN", "yum")] ∧
    (parseRunCommand "RUN apt-get install curl" patterns "Dockerfile").map
        golang.nameVersionType = [("curl", "UNKNOWN", "apt")] ∧
    (∀ (line filePath : String), ∀ d ∈ parseRunCommand line patterns filePath,
      d.Name ≠ "" ∧ Contains d.Name " " = false) := by
  refine ⟨by decide, by decide, by decide, by decide, by decide, by decide, by decide, ?_⟩
  intro line filePath
  exact parseRunCommand_names line filePath patterns

end docker

/-! ## Theorems: the Python parser -/

namespace python

open types strings

theorem find?_congr_mem {α : Type} (p q : α → Bool) (l : List α)
    (h : ∀ x ∈ l, p x = q x) : l.find? p = l.find? q := by
  induction l with
  | nil => rfl
  | cons x xs ih =>
    rw [List.find?_cons, List.find?_cons, h x (List.mem_cons_self _ _),
      ih (fun y hy => h y (List.mem_cons_of_mem _ hy))]

/-- The two pieces of `strings.SplitN(line, sep, 2)` for a separator the line
contains. -/
theorem SplitN_two (line sep : String) (h : Contains line sep = true) :
    SplitN line sep 2 = [before line sep, after line sep] := by
  unfold Contains at h
  rw [containsList_eq_isSome] at h
  cases hi : indexList sep.data line.data with
  | none => rw [hi] at h; exact absurd h (by decide)
  | some i =>
    unfold SplitN before after Index
    rw [hi]
    show (splitList sep.data 1 line.data).map String.mk = _
    unfold splitList
    rw [hi]
    rfl

/-- The loop of `parseRequirement` in closed form. -/
theorem splitRequirement_eq (line : String) (seps : List String) (unsplit : String × String) :
    splitRequirement line seps unsplit =
      match seps.find? (fun sep => Contains line sep) with
      | some sep => (TrimSpace (before line sep), TrimSpace (after line sep))
      | none => unsplit := by
  induction seps with
  | nil => rfl
  | cons sep rest ih =>
    unfold splitRequirement
    rw [List.find?_cons]
    by_cases hc : Contains line sep = true
    · rw [if_pos hc, hc, SplitN_two line sep hc]
      rfl
    · have hf : Contains line sep = false := by simpa using hc
      rw [if_neg hc, hf, ih]

theorem parseRequirement_eq (line filePath : String)
    (hed : (HasPrefix line "-e " || HasPrefix line "--editable ") = false) :
    parseRequirement line filePath =
      match firstListed line with
      | some sep =>
        if Trim (TrimSpace (before line sep)) "\"'" == "" then golang.emptyDependency
        else requirement (Trim (TrimSpace (before line sep)) "\"'")
          (TrimSpace (after line sep)) filePath
      | none =>
        if Trim line "\"'" == "" then golang.emptyDependency
        else requirement (Trim line "\"'") "UNKNOWN" filePath := by
  unfold parseRequirement
  rw [hed]
  simp only [Bool.false_eq_true, if_false]
  rw [splitRequirement_eq]
  unfold firstListed operators
  cases List.find? (fun sep => Contains line sep) ["==", ">=", "<=", "~=", ">", "<"] with
  | none => rfl
  | some sep => rfl

end python

namespace strings

theorem isPrefixOf_cons_cons (s x : Char) (ss xs : List Char) :
    (s :: ss).isPrefixOf (x :: xs) = (s == x && ss.isPrefixOf xs) := rfl

theorem isPrefixOf_cons_nil (s : Char) (ss : List Char) :
    (s :: ss).isPrefixOf ([] : List Char) = false := rfl

/-- A separator made of characters of `S` does not start in a text without
characters of `S`. -/
theorem isPrefixOf_foreign (S : List Char) (sep v : List Char) (hne : sep ≠ [])
    (hsep : ∀ c ∈ sep, c ∈ S) (hv : ∀ c ∈ v, c ∉ S) : sep.isPrefixOf v = false := by
  cases sep with
  | nil => exact absurd rfl hne
  | cons s ss =>
    cases v with
    | nil => rfl
    | cons x xs =>
      rw [isPrefixOf_cons_cons]
      have hsx : s ≠ x := by
        intro h
        exact hv x (List.mem_cons_self _ _) (h ▸ hsep s (List.mem_cons_self _ _))
      have : (s == x) = false := by rw [beq_eq_false_iff_ne]; exact hsx
      rw [this]
      rfl

theorem containsList_foreign (S : List Char) (sep v : List Char) (hne : sep ≠ [])
    (hsep : ∀ c ∈ sep, c ∈ S) (hv : ∀ c ∈ v, c ∉ S) : containsList v sep = false := by
  induction v with
  | nil =>
    unfold containsList
    cases sep with
    | nil => exact absurd rfl hne
    | cons s ss => rfl
  | cons x xs ih =>
    unfold containsList
    rw [isPrefixOf_foreign S sep (x :: xs) hne hsep hv,
      ih (fun c hc => hv c (List.mem_cons_of_mem _ hc))]
    rfl

theorem indexList_foreign (S : List Char) (sep v : List Char) (hne : sep ≠ [])
    (hsep : ∀ c ∈ sep, c ∈ S) (hv : ∀ c ∈ v, c ∉ S) : indexList sep v = none := by
  have h := containsList_eq_isSome v sep
  rw [containsList_foreign S sep v hne hsep hv] at h
  cases hi : indexList sep v with
  | none => rfl
  | some i => rw [hi] at h; simp at h

/-- Whether a separator made of characters of `S` starts at the beginning of
`a ++ v` does not depend on a tail `v` without characters of `S`. -/
theorem isPrefixOf_append_foreign (S : List Char) (v : List Char) (hv : ∀ c ∈ v, c ∉ S) :
    ∀ (sep a : List Char), (∀ c ∈ sep, c ∈ S) → sep.isPrefixOf (a ++ v) = sep.isPrefixOf a := by
  intro sep
  induction sep with
  | nil => intro a _; cases a <;> cases v <;> rfl
  | cons s ss ih =>
    intro a hsep
    cases a with
    | nil =>
      rw [List.nil_append, isPrefixOf_cons_nil]
      exact isPrefixOf_foreign S (s :: ss) v (List.cons_ne_nil _ _) hsep hv
    | cons x xs =>
      rw [List.cons_append, isPrefixOf_cons_cons, isPrefixOf_cons_cons,
        ih xs (fun c hc => hsep c (List.mem_cons_of_mem _ hc))]

theorem containsList_append_foreign (S : List Char) (sep v : List Char) (hne : sep ≠ [])
    (hsep : ∀ c ∈ sep, c ∈ S) (hv : ∀ c ∈ v, c ∉ S) :
    ∀ a : List Char, containsList (a ++ v) sep = containsList a sep := by
  intro a
  induction a with
  | nil =>
    rw [List.nil_append, containsList_foreign S sep v hne hsep hv]
    unfold containsList
    cases sep with
    | nil => exact absurd rfl hne
    | cons s ss => rfl
  | cons x xs ih =>
    have h1 : containsList (x :: xs ++ v) sep =
        (sep.isPrefixOf (x :: xs ++ v) || containsList (xs ++ v) sep) := rfl
    have h2 : containsList (x :: xs) sep =
        (sep.isPrefixOf (x :: xs) || containsList xs sep) := rfl
    rw [h1, h2, ih, isPrefixOf_append_foreign S v hv sep (x :: xs) hsep]

theorem containsList_foreign_append (S : List Char) (sep : List Char) (hne : sep ≠ [])
    (hsep : ∀ c ∈ sep, c ∈ S) (r : List Char) :
    ∀ n : List Char, (∀ c ∈ n, c ∉ S) → containsList (n ++ r) sep = containsList r sep := by
  intro n
  induction n with
  | nil => intro _; rfl
  | cons x xs ih =>
    intro hn
    have h1 : containsList (x :: xs ++ r) sep =
        (sep.isPrefixOf (x :: xs ++ r) || containsList (xs ++ r) sep) := rfl
    rw [h1, ih (fun c hc => hn c (List.mem_cons_of_mem _ hc))]
    cases sep with
    | nil => exact absurd rfl hne
    | cons s ss =>
      rw [List.cons_append, isPrefixOf_cons_cons]
      have hsx : s ≠ x := by
        intro h
        exact hn x (List.mem_cons_self _ _) (h ▸ hsep s (List.mem_cons_self _ _))
      have : (s == x) = false := by rw [beq_eq_false_iff_ne]; exact hsx
      rw [this]
      rfl

theorem indexList_foreign_append (S : List Char) (sep : List Char) (hne : sep ≠ [])
    (hsep : ∀ c ∈ sep, c ∈ S) (r : List Char) :
    ∀ n : List Char, (∀ c ∈ n, c ∉ S) →
      indexList sep (n ++ r) = (indexList sep r).map (fun i => i + n.length) := by
  intro n
  induction n with
  | nil =>
    intro _
    rw [List.nil_append]
    cases indexList sep r with
    | none => rfl
    | some i => rfl
  | cons x xs ih =>
    intro hn
    have h1 : indexList sep (x :: xs ++ r) =
        if sep.isPrefixOf (x :: xs ++ r) then some 0
        else (indexList sep (xs ++ r)).map (fun i => i + 1) := rfl
    rw [h1, ih (fun c hc => hn c (List.mem_cons_of_mem _ hc))]
    cases sep with
    | nil => exact absurd rfl hne
    | cons s ss =>
      rw [List.cons_append, isPrefixOf_cons_cons]
      have hsx : s ≠ x := by
        intro h
        exact hn x (List.mem_cons_self _ _) (h ▸ hsep s (List.mem_cons_self _ _))
      have : (s == x) = false := by rw [beq_eq_false_iff_ne]; exact hsx
      rw [this]
      simp only [Bool.false_and, Bool.false_eq_true, if_false, List.length_cons]
      cases indexList (s :: ss) r with
      | none => rfl
      | some i => simp [Nat.add_assoc]

theorem indexList_self_append (sep v : List Char) (hne : sep ≠ []) :
    indexList sep (sep ++ v) = some 0 := by
  cases sep with
  | nil => exact absurd rfl hne
  | cons s ss =>
    have h1 : indexList (s :: ss) (s :: ss ++ v) =
        if (s :: ss).isPrefixOf (s :: ss ++ v) then some 0
        else (indexList (s :: ss) (ss ++ v)).map (fun i => i + 1) := rfl
    rw [h1, if_pos (List.isPrefixOf_iff_prefix.2 (List.prefix_append _ _))]

/-- A prefix of `n ++ r` that is not a prefix of `n` continues into `r`: the
first character of `r` is one of its characters. -/
theorem prefix_reaches_tail (p n r : List Char) (h : p.isPrefixOf (n ++ r) = true)
    (hn : p.isPrefixOf n = false) : ∃ x rs, r = x :: rs ∧ x ∈ p := by
  have h1 : p <+: n ++ r := List.isPrefixOf_iff_prefix.1 h
  rcases List.prefix_or_prefix_of_prefix h1 (List.prefix_append n r) with hp | hp
  · have := List.isPrefixOf_iff_prefix.2 hp
    rw [hn] at this
    exact absurd this (by decide)
  · obtain ⟨q, hq⟩ := hp
    rw [← hq] at h1
    have h2 : q <+: r := (List.prefix_append_right_inj n).1 h1
    cases q with
    | nil =>
      rw [List.append_nil] at hq
      have : p.isPrefixOf n = true := by
        rw [← hq]; exact List.isPrefixOf_iff_prefix.2 (List.prefix_refl _)
      rw [hn] at this
      exact absurd this (by decide)
    | cons x qs =>
      obtain ⟨t, ht⟩ := h2
      refine ⟨x, qs ++ t, ?_, ?_⟩
      · rw [← ht]; rfl
      · rw [← hq]; exact List.mem_append_right _ (List.mem_cons_self _ _)

end strings

namespace python

open types strings

theorem operators_made_of_operatorChars :
    ∀ sep ∈ operators, sep.data ≠ [] ∧ ∀ c ∈ sep.data, c ∈ operatorChars := by decide

theorem operator_found_in_itself :
    ∀ op ∈ operators, operators.find? (fun sep => containsList op.data sep.data) = some op := by
  decide

theorem data_name_op_version (n op v : String) :
    (n ++ op ++ v).data = n.data ++ (op.data ++ v.data) := by
  simp [String.data_append]

theorem not_editable_of_name (n op v p : String) (hop : op ∈ operators)
    (hp : ∀ c ∈ p.data, c ∉ operatorChars) (hn : HasPrefix n p = false) :
    HasPrefix (n ++ op ++ v) p = false := by
  cases h : HasPrefix (n ++ op ++ v) p with
  | false => rfl
  | true =>
    unfold HasPrefix at h hn
    rw [data_name_op_version] at h
    obtain ⟨x, rs, hr, hx⟩ := prefix_reaches_tail p.data n.data (op.data ++ v.data) h hn
    obtain ⟨hne, hall⟩ := operators_made_of_operatorChars op hop
    cases hd : op.data with
    | nil => exact absurd hd hne
    | cons o os =>
      rw [hd, List.cons_append] at hr
      have hox : o = x := (List.cons.inj hr).1
      have ho : o ∈ operatorChars := hall o (by rw [hd]; exact List.mem_cons_self _ _)
      exact absurd (hox ▸ ho) (hp x hx)

theorem firstListed_name_op_version (n op v : String) (hop : op ∈ operators)
    (hnc : ∀ c ∈ n.data, c ∉ operatorChars) (hvc : ∀ c ∈ v.data, c ∉ operatorChars) :
    firstListed (n ++ op ++ v) = some op := by
  unfold firstListed
  rw [find?_congr_mem (fun sep => Contains (n ++ op ++ v) sep)
    (fun sep => containsList op.data sep.data) operators]
  · exact operator_found_in_itself op hop
  · intro sep hsep
    obtain ⟨hne, hall⟩ := operators_made_of_operatorChars sep hsep
    show Contains (n ++ op ++ v) sep = containsList op.data sep.data
    unfold Contains
    rw [data_name_op_version,
      containsList_foreign_append operatorChars sep.data hne hall _ n.data hnc,
      containsList_append_foreign operatorChars sep.data v.data hne hall hvc]

theorem index_name_op_version (n op v : String) (hop : op ∈ operators)
    (hnc : ∀ c ∈ n.data, c ∉ operatorChars) :
    Index (n ++ op ++ v) op = some n.data.length := by
  obtain ⟨hne, hall⟩ := operators_made_of_operatorChars op hop
  unfold Index
  rw [data_name_op_version,
    indexList_foreign_append operatorChars op.data hne hall _ n.data hnc,
    indexList_self_append op.data v.data hne]
  simp

theorem before_after_name_op_version (n op v : String) (hop : op ∈ operators)
    (hnc : ∀ c ∈ n.data, c ∉ operatorChars) :
    before (n ++ op ++ v) op = n ∧ after (n ++ op ++ v) op = v := by
  unfold before after
  rw [index_name_op_version n op v hop hnc]
  constructor
  · apply String.ext
    show (n ++ op ++ v).data.take n.data.length = n.data
    rw [data_name_op_version, List.take_left]
  · apply String.ext
    show (n ++ op ++ v).data.drop (n.data.length + op.length) = v.data
    rw [data_name_op_version, ← List.append_assoc]
    have : n.data.length + op.length = (n.data ++ op.data).length := by
      rw [List.length_append]; rfl
    rw [this, List.drop_left]

theorem firstListed_none_of_name (n : String) (hnc : ∀ c ∈ n.data, c ∉ operatorChars) :
    firstListed n = none := by
  unfold firstListed
  rw [List.find?_eq_none]
  intro sep hsep
  obtain ⟨hne, hall⟩ := operators_made_of_operatorChars sep hsep
  have : Contains n sep = false := containsList_foreign operatorChars sep.data n.data hne hall hnc
  rw [this]
  decide

/-- C33: a requirement made of a name, an operator and a version. For a name
(not empty, unchanged by trimming white space and quotes, not starting with
`-e ` or `--editable `) and a version text, both without any of the characters
`=`, `<`, `>`, `~`, and each of the six operators, `parseRequirement` gives the
record with that name, the trimmed version, license type `UNKNOWN` and package
type `python`; the name alone gives the version `UNKNOWN`; a line starting
with `-e ` or `--editable ` gives the empty record. -/
theorem parseRequirement_name_operator_version (n v filePath : String)
    (hn : n ≠ "") (hspace : TrimSpace n = n) (hquote : Trim n "\"'" = n)
    (he1 : HasPrefix n "-e " = false) (he2 : HasPrefix n "--editable " = false)
    (hnc : ∀ c ∈ n.data, c ∉ operatorChars) (hvc : ∀ c ∈ v.data, c ∉ operatorChars) :
    (∀ op ∈ operators,
      parseRequirement (n ++ op ++ v) filePath = requirement n (TrimSpace v) filePath) ∧
    parseRequirement n filePath = requirement n "UNKNOWN" filePath ∧
    (requirement n (TrimSpace v) filePath).LicenseType = "UNKNOWN" ∧
    (requirement n (TrimSpace v) filePath).PackageType = "python" ∧
    (∀ line : String, HasPrefix line "-e " = true ∨ HasPrefix line "--editable " = true →
      parseRequirement line filePath = golang.emptyDependency) := by
  have hne : (n == "") = false := by rw [beq_eq_false_iff_ne]; exact hn
  refine ⟨?_, ?_, rfl, rfl, ?_⟩
  · intro op hop
    have hed : (HasPrefix (n ++ op ++ v) "-e " || HasPrefix (n ++ op ++ v) "--editable ") =
        false := by
      rw [not_editable_of_name n op v "-e " hop (by decide) he1,
        not_editable_of_name n op v "--editable " hop (by decide) he2]
      rfl
    obtain ⟨hb, ha⟩ := before_after_name_op_version n op v hop hnc
    rw [parseRequirement_eq _ _ hed, firstListed_name_op_version n op v hop hnc hvc]
    simp only [hb, ha, hspace, hquote, hne, Bool.false_eq_true, if_false]
  · have hed : (HasPrefix n "-e " || HasPrefix n "--editable ") = false := by
      rw [he1, he2]; rfl
    rw [parseRequirement_eq _ _ hed, firstListed_none_of_name n hnc]
    simp only [hquote, hne, Bool.false_eq_true, if_false]
  · intro line hline
    unfold parseRequirement
    have : (HasPrefix line "-e " || HasPrefix line "--editable ") = true := by
      rcases hline with h | h <;> simp [h]
    rw [this]
    rfl

/-- Witness for C33: the name `requests` and the version text ` 2.31.0`. -/
theorem parseRequirement_name_operator_version_witness :
    parseRequirement ("requests" ++ ">=" ++ " 2.31.0") "requirements.txt" =
      requirement "requests" "2.31.0" "requirements.txt" ∧
    parseRequirement "requests" "requirements.txt" =
      requirement "requests" "UNKNOWN" "requirements.txt" :=
  ⟨(parseRequirement_name_operator_version "requests" " 2.31.0" "requirements.txt"
      (by decide) (by decide) (by decide) (by decide) (by decide) (by decide) (by decide)).1
      ">=" (by decide),
   (parseRequirement_name_operator_version "requests" " 2.31.0" "requirements.txt"
      (by decide) (by decide) (by decide) (by decide) (by decide) (by decide) (by decide)).2.1⟩

/-- C32 (counterexample): in the line `a<2,>=1` the leftmost operator is `<`,
at position 1, with the text `a` before it; `parseRequirement` splits the line
at `>=`, which starts at position 4, and gives the name `a<2,` and the
version `1`. -/
theorem parseRequirement_splits_at_later_operator :
    Index "a<2,>=1" "<" = some 1 ∧
    Index "a<2,>=1" ">=" = some 4 ∧
    Index "a<2,>=1" ">" = some 4 ∧
    Index "a<2,>=1" "==" = none ∧ Index "a<2,>=1" "<=" = none ∧ Index "a<2,>=1" "~=" = none ∧
    before "a<2,>=1" "<" = "a" ∧
    golang.nameVersionType (parseRequirement "a<2,>=1" "requirements.txt") =
      ("a<2,", "1", "python") := by
  decide

/-- C32 (amended): `parseRequirement` splits a line that does not start with
`-e ` or `--editable ` at the leftmost occurrence of the operator that comes
first in the list `==`, `>=`, `<=`, `~=`, `>`, `<` among those the line
contains. The text before that occurrence, operator and the text after it make
up the line; the name is the text before it, trimmed of white space and then
of quotes, the version the trimmed text after it; when the name comes out
empty the result is the empty record. A line that contains no operator gives
the line without surrounding quotes as the name and the version `UNKNOWN`. -/
theorem parseRequirement_splits_at_first_listed (line filePath : String)
    (hed : (HasPrefix line "-e " || HasPrefix line "--editable ") = false) :
    (∀ sep, firstListed line = some sep →
      sep ∈ operators ∧ Contains line sep = true ∧
      before line sep ++ sep ++ after line sep = line ∧
      (Trim (TrimSpace (before line sep)) "\"'" ≠ "" →
        parseRequirement line filePath =
          requirement (Trim (TrimSpace (before line sep)) "\"'") (TrimSpace (after line sep))
            filePath) ∧
      (Trim (TrimSpace (before line sep)) "\"'" = "" →
        parseRequirement line filePath = golang.emptyDependency)) ∧
    (firstListed line = none →
      (∀ sep ∈ operators, Contains line sep = false) ∧
      (Trim line "\"'" ≠ "" →
        parseRequirement line filePath = requirement (Trim line "\"'") "UNKNOWN" filePath) ∧
      (Trim line "\"'" = "" → parseRequirement line filePath = golang.emptyDependency)) := by
  constructor
  · intro sep hsep
    have hmem : sep ∈ operators := List.mem_of_find?_eq_some hsep
    have hcon : Contains line sep = true := by
      have := List.find?_some hsep
      simpa using this
    refine ⟨hmem, hcon, ?_, ?_, ?_⟩
    · have hc := hcon
      unfold Contains at hc
      rw [containsList_eq_isSome] at hc
      cases hi : indexList sep.data line.data with
      | none => rw [hi] at hc; simp at hc
      | some i =>
        obtain ⟨hpre, hle⟩ := indexList_some_spec sep.data line.data i hi
        obtain ⟨t, ht⟩ := List.isPrefixOf_iff_prefix.1 hpre
        have hdrop : line.data.drop (i + sep.length) = t := by
          have h1 : line.data.drop (i + sep.length) = (line.data.drop i).drop sep.data.length := by
            rw [List.drop_drop]
            rfl
          rw [h1, ← ht, List.drop_left]
        unfold before after Index
        rw [hi]
        apply String.ext
        simp only [String.data_append]
        rw [hdrop, List.append_assoc, ht, List.take_append_drop]
    · intro hname
      rw [parseRequirement_eq _ _ hed, hsep]
      have : (Trim (TrimSpace (before line sep)) "\"'" == "") = false := by
        rw [beq_eq_false_iff_ne]; exact hname
      simp only [this, Bool.false_eq_true, if_false]
    · intro hname
      rw [parseRequirement_eq _ _ hed, hsep]
      simp only [hname, beq_self_eq_true, if_true]
  · intro hnone
    refine ⟨?_, ?_, ?_⟩
    · intro sep hsep
      have := List.find?_eq_none.1 hnone sep hsep
      simpa using this
    · intro hname
      rw [parseRequirement_eq _ _ hed, hnone]
      have : (Trim line "\"'" == "") = false := by
        rw [beq_eq_false_iff_ne]; exact hname
      simp only [this, Bool.false_eq_true, if_false]
    · intro hname
      rw [parseRequirement_eq _ _ hed, hnone]
      simp only [hname, beq_self_eq_true, if_true]

/-- Witness for C32: the line `a<2,>=1` is split at `>=`. -/
theorem parseRequirement_splits_at_first_listed_witness :
    (HasPrefix "a<2,>=1" "-e " || HasPrefix "a<2,>=1" "--editable ") = false ∧
    firstListed "a<2,>=1" = some ">=" ∧
    parseRequirement "a<2,>=1" "requirements.txt" =
      requirement "a<2," "1" "requirements.txt" :=
  ⟨by decide, by decide,
   ((parseRequirement_splits_at_first_listed "a<2,>=1" "requirements.txt" (by decide)).1
      ">=" (by decide)).2.2.2.1 (by decide)⟩

end python

/-! ## Theorems: the Ruby parser -/

namespace ruby

open types strings

theorem scanGemfileLockLines_cons (path line : String) (rest : List String) (b : Bool)
    (acc : List Dependency) :
    scanGemfileLockLines path (line :: rest) b acc =
      if TrimSpace line == "GEM" then scanGemfileLockLines path rest b acc
      else if HasPrefix (TrimSpace line) "specs:" then scanGemfileLockLines path rest true acc
      else if b then
        if !HasPrefix line " " && TrimSpace line != "" then
          (if HasPrefix line "  " && !HasPrefix line "    " then
            match Fields (TrimSpace line) with
            | name :: second :: _ =>
              acc ++
                [{ Name := name, Version := Trim second "()", LicenseType := "UNKNOWN",
                   LicenseText := "", Repository := "", Homepage := "", LicenseURL := "",
                   PackageType := "ruby", FilePath := path }]
            | _ => acc
          else acc)
        else
          scanGemfileLockLines path rest b
            (if HasPrefix line "  " && !HasPrefix line "    " then
              match Fields (TrimSpace line) with
              | name :: second :: _ =>
                acc ++
                  [{ Name := name, Version := Trim second "()", LicenseType := "UNKNOWN",
                     LicenseText := "", Repository := "", Homepage := "", LicenseURL := "",
                     PackageType := "ruby", FilePath := path }]
              | _ => acc
            else acc)
      else scanGemfileLockLines path rest b acc := rfl

theorem two_spaces_one_space (line : String) (h : HasPrefix line "  " = true) :
    HasPrefix line " " = true := by
  unfold HasPrefix at h ⊢
  have h2 : "  ".data = [' ', ' '] := rfl
  have h1 : " ".data = [' '] := rfl
  rw [h2] at h
  rw [h1]
  cases hd : line.data with
  | nil => rw [hd] at h; exact absurd h (by decide)
  | cons c cs =>
    rw [hd] at h
    simp only [List.isPrefixOf, Bool.and_eq_true, beq_iff_eq] at h
    simp only [List.isPrefixOf, Bool.and_true, beq_iff_eq]
    exact h.1

/-- What a line that is not passed over adds to the records. -/
theorem append_lockEntry (path line : String) (acc : List Dependency)
    (hs : isSkipped line = false) :
    (if HasPrefix line "  " && !HasPrefix line "    " then
      match Fields (TrimSpace line) with
      | name :: second :: _ =>
        acc ++
          [{ Name := name, Version := Trim second "()", LicenseType := "UNKNOWN",
             LicenseText := "", Repository := "", Homepage := "", LicenseURL := "",
             PackageType := "ruby", FilePath := path }]
      | _ => acc
    else acc) = acc ++ (lockEntry path line).toList := by
  unfold lockEntry
  rw [hs]
  simp only [Bool.false_eq_true, if_false]
  split
  · split <;> simp
  · simp

theorem lockEntry_of_ends (path line : String) (he : endsSpecs line = true) :
    lockEntry path line = none := by
  unfold endsSpecs at he
  simp only [Bool.and_eq_true, Bool.not_eq_true'] at he
  obtain ⟨⟨hs, hsp⟩, _⟩ := he
  unfold lockEntry
  rw [hs]
  simp only [Bool.false_eq_true, if_false]
  have h2 : HasPrefix line "  " = false := by
    cases h : HasPrefix line "  " with
    | false => rfl
    | true => rw [two_spaces_one_space line h] at hsp; exact absurd hsp (by decide)
  rw [h2]
  rfl

/-- The loop inside the section. -/
theorem scanGemfileLockLines_in_section (path : String) (lines : List String) :
    ∀ acc : List Dependency,
      scanGemfileLockLines path lines true acc =
        acc ++ (lines.takeWhile (fun line => !endsSpecs line)).filterMap (lockEntry path) := by
  induction lines with
  | nil => intro acc; simp [scanGemfileLockLines]
  | cons line rest ih =>
    intro acc
    rw [scanGemfileLockLines_cons]
    by_cases hg : (TrimSpace line == "GEM") = true
    · have hs : isSkipped line = true := by unfold isSkipped; rw [hg]; rfl
      have he : endsSpecs line = false := by unfold endsSpecs; rw [hs]; rfl
      have hl : lockEntry path line = none := by unfold lockEntry; rw [hs]; rfl
      rw [if_pos hg, ih, List.takeWhile_cons, he]
      simp [hl]
    · have hgf : (TrimSpace line == "GEM") = false := by simpa using hg
      rw [if_neg hg]
      by_cases hp : HasPrefix (TrimSpace line) "specs:" = true
      · have hs : isSkipped line = true := by unfold isSkipped; rw [hp]; simp
        have he : endsSpecs line = false := by unfold endsSpecs; rw [hs]; rfl
        have hl : lockEntry path line = none := by unfold lockEntry; rw [hs]; rfl
        rw [if_pos hp, ih, List.takeWhile_cons, he]
        simp [hl]
      · have hpf : HasPrefix (TrimSpace line) "specs:" = false := by simpa using hp
        have hs : isSkipped line = false := by unfold isSkipped; rw [hgf, hpf]; rfl
        rw [if_neg hp]
        simp only [if_true]
        rw [append_lockEntry path line acc hs]
        by_cases hb : (!HasPrefix line " " && TrimSpace line != "") = true
        · have he : endsSpecs line = true := by
            unfold endsSpecs
            rw [hs]
            simpa using hb
          rw [if_pos hb, lockEntry_of_ends path line he, List.takeWhile_cons, he]
          simp
        · have he : endsSpecs line = false := by
            unfold endsSpecs
            rw [hs]
            simpa using hb
          rw [if_neg hb, ih, List.takeWhile_cons, he]
          simp only [Bool.not_false, if_true, List.filterMap_cons]
          cases lockEntry path line with
          | none => simp
          | some d => simp

/-- The loop before the section. -/
theorem scanGemfileLockLines_before_section (path : String) (lines : List String) :
    ∀ acc : List Dependency,
      scanGemfileLockLines path lines false acc = acc ++ lockEntries path lines := by
  induction lines with
  | nil => intro acc; simp [scanGemfileLockLines, lockEntries, afterSpecs]
  | cons line rest ih =>
    intro acc
    rw [scanGemfileLockLines_cons]
    by_cases hg : (TrimSpace line == "GEM") = true
    · have hgem : TrimSpace line = "GEM" := by simpa using hg
      have hpf : HasPrefix (TrimSpace line) "specs:" = false := by rw [hgem]; decide
      rw [if_pos hg, ih]
      unfold lockEntries afterSpecs
      rw [List.dropWhile_cons_of_pos (by simp [hpf])]
    · rw [if_neg hg]
      by_cases hp : HasPrefix (TrimSpace line) "specs:" = true
      · rw [if_pos hp, scanGemfileLockLines_in_section]
        unfold lockEntries afterSpecs
        rw [List.dropWhile_cons_of_neg (by simp [hp])]
        rfl
      · have hpf : HasPrefix (TrimSpace line) "specs:" = false := by simpa using hp
        rw [if_neg hp]
        simp only [Bool.false_eq_true, if_false]
        rw [ih]
        unfold lockEntries afterSpecs
        rw [List.dropWhile_cons_of_pos (by simp [hpf])]

/-- C36 (counterexample): in a lock file with a `GIT` source before the `GEM`
source, the line `GEM` stands at column zero after the first `specs:` section,
yet `scanGemfileLock` goes on and returns records for the lines `remote:` and
`rake` of the second source as well. A line `  specs: 1.0` inside the section, which has two
fields and is one level deep, gives no record. -/
theorem scanGemfileLock_reads_past_GEM :
    (scanGemfileLock (parsers.fileWithLines "Gemfile.lock" twoSourceLock)
        "Gemfile.lock").toOption.map (List.map golang.nameVersionType) =
      some [("foo", "1.0", "ruby"), ("remote:", "https://rubygems.org/", "ruby"),
            ("rake", "13.0.6", "ruby")] ∧
    (scanGemfileLock (parsers.fileWithLines "Gemfile.lock" ["specs:", "  specs: 1.0"])
        "Gemfile.lock").toOption.map (List.map golang.nameVersionType) = some [] := by
  decide

/-- C36 (amended): `scanGemfileLock` in closed form. It reads the lines after
the first line whose trimmed text starts with `specs:`, up to the first line
that ends the section: one that is not blank, does not start with a space, and
is not passed over. Lines whose trimmed text is `GEM` or starts with `specs:`
are passed over wherever they stand: they give no record and do not end the
section. Every other line in between that starts with two spaces but not with
four and has at least two fields gives, in file order, the record of its first
field with the second field without surrounding parentheses and package type
`ruby`. A lock file in the layout Bundler writes, with the gems four spaces
deep, gives no record. -/
theorem scanGemfileLock_closed_form (openLines : String → Option (List String × Bool))
    (path : String) (lines : List String) :
    scanGemfileLockLines path lines false [] = lockEntries path lines ∧
    (openLines path = some (lines, false) →
      scanGemfileLock openLines path = Except.ok (lockEntries path lines)) ∧
    (∀ d ∈ lockEntries path lines, d.PackageType = "ruby" ∧ d.LicenseType = "UNKNOWN" ∧
      d.FilePath = path) ∧
    (lockEntries "Gemfile.lock"
        ["GEM", "  remote: https://rubygems.org/", "  specs:", "  rake (13.0.6)",
         "    deeper (1.0)", " x y", "  only", "", "PLATFORMS", "  ruby (1.0)"]).map
      golang.nameVersionType = [("rake", "13.0.6", "ruby")] ∧
    (scanGemfileLock (parsers.fileWithLines "Gemfile.lock" bundlerLock)
        "Gemfile.lock").toOption.map (List.map golang.nameVersionType) = some [] := by
  have h1 : scanGemfileLockLines path lines false [] = lockEntries path lines := by
    rw [scanGemfileLockLines_before_section]
    rfl
  refine ⟨h1, ?_, ?_, by decide, by decide⟩
  · intro hopen
    unfold scanGemfileLock
    rw [hopen]
    simp only [Bool.false_eq_true, if_false, h1]
  · intro d hd
    unfold lockEntries at hd
    obtain ⟨line, _, hl⟩ := List.mem_filterMap.1 hd
    unfold lockEntry at hl
    split at hl
    · exact absurd hl (by simp)
    · split at hl
      · split at hl
        · simp only [Option.some.injEq] at hl
          rw [← hl]
          exact ⟨rfl, rfl, rfl⟩
        · exact absurd hl (by simp)
      · exact absurd hl (by simp)

end ruby

end LicenseAudit
